import Mathlib

/-!
# userfs: an in-memory block filesystem (src/3/userfs.c)

Shallow embedding of the storage engine of `userfs.c`.

* The heap of `file` objects is a list indexed by address; a freed cell is `none`.
  A `file *` is an address into that list.
* The doubly linked list of blocks of a file (`block_list` .. `last_block`) is the
  list `block_list`; a `block *` held by a descriptor is a position in that list
  (`none` is `NULL`).  `last_block` is the last element of the list.
* The doubly linked list `file_list` is the list of the addresses of the linked files.
* The array `file_descriptors` together with `file_descriptor_capacity` is a list of
  optional descriptors; the capacity is its length.
* C `int` and `ssize_t` values are `Int`; a `size_t` is a `Nat` below `2 ^ 64`.
* An access the C standard leaves undefined (a dangling or out-of-bounds access) is the
  fault `undefined_behaviour`; the loops carry fuel and the entry points pass enough.
-/

namespace Userfs

/-- BLOCK_SIZE of the enum at the top of userfs.c. -/
def BLOCK_SIZE : Int := 512

/-- MAX_FILE_SIZE of the enum at the top of userfs.c. -/
def MAX_FILE_SIZE : Int := 1024 * 1024 * 100

/-- Error codes of `enum ufs_error_code`. -/
inductive ufs_error_code where
  | UFS_ERR_NO_ERR
  | UFS_ERR_NO_FILE
  | UFS_ERR_NO_MEM
  | UFS_ERR_NO_PERMISSION
  deriving DecidableEq, Repr

/-- Modelled from the spec: the open flag UFS_CREATE of userfs.h (the header is not
among the sources); the create bit is the lowest bit, as `flags % 2` in ufs_open reads it. -/
def UFS_CREATE : Int := 1

/-- Modelled from the spec: the access mode UFS_READ_ONLY of userfs.h. -/
def UFS_READ_ONLY : Int := 2

/-- Modelled from the spec: the access mode UFS_WRITE_ONLY of userfs.h. -/
def UFS_WRITE_ONLY : Int := 4

/-- Modelled from the spec: the access mode UFS_READ_WRITE of userfs.h. -/
def UFS_READ_WRITE : Int := 8

/-- A block: `memory` is the calloc-ed buffer of BLOCK_SIZE chars, `occupied` the count
of bytes in use. The links `next` and `prev` are the position in the owning list. -/
structure block where
  memory : List Nat
  occupied : Int
  deriving DecidableEq, Repr

/-- A file: `block_list` holds the chain from `block_list` to `last_block`. -/
structure file where
  block_list : List block
  blocks_count : Int
  refs : Int
  name : String
  is_removed : Bool
  deriving DecidableEq, Repr

/-- A file descriptor. `file` is the address of the file, `current_block` the position
of the block pointed to (`none` for NULL). The `int` fields are integers here: the model
does not follow `current_block_index` past INT_MAX, a value the increments of lines 169,
305 and 341 reach only after 2 ^ 31 of them, and what is proved of reachable states is
proved of the C program up to that point. -/
structure filedesc where
  file : Nat
  current_block : Option Nat
  offset : Int
  current_block_index : Int
  permissions : Int
  fd : Int
  deriving DecidableEq, Repr

/-- The global variables of userfs.c. -/
structure State where
  files : List (Option file)
  file_list : List Nat
  file_descriptors : List (Option filedesc)
  file_descriptor_count : Int
  ufs_error_code : ufs_error_code
  deriving DecidableEq, Repr

/-- Reasons for which a call has no result in the embedding. -/
inductive Fault where
  | undefined_behaviour
  | out_of_fuel
  deriving DecidableEq, Repr

/-- The value of `file_descriptor_capacity`: the allocated length of the table. -/
def State.file_descriptor_capacity (s : State) : Int := s.file_descriptors.length

/-- The initial values of the globals: no file, no table. -/
def State.empty : State :=
  { files := [], file_list := [], file_descriptors := [], file_descriptor_count := 0,
    ufs_error_code := .UFS_ERR_NO_ERR }

/-- The cast `(ssize_t) size` of a `size_t`. -/
def to_ssize (size : Nat) : Int :=
  if size % 2 ^ 64 < 2 ^ 63 then ((size % 2 ^ 64 : Nat) : Int)
  else ((size % 2 ^ 64 : Nat) : Int) - 2 ^ 64

/-- Dereference of a `file *`. -/
def State.file_at (s : State) (a : Nat) : Except Fault file :=
  match s.files[a]? with
  | some (some f) => .ok f
  | _ => .error .undefined_behaviour

/-- The macro handle_err_no_file: `.ok none` when it takes its error branch, the
descriptor when it falls through. The test `fd > capacity` lets `fd = capacity`
through to the table access, which is then out of bounds. -/
def handle_err_no_file (s : State) (fd : Int) : Except Fault (Option filedesc) :=
  if fd < 0 ∨ fd > s.file_descriptor_capacity then .ok none
  else
    match s.file_descriptors[fd.toNat]? with
    | none => .error .undefined_behaviour
    | some none => .ok none
    | some (some desc) => .ok (some desc)

/-- The test of the macro handle_err_no_permissions: true when the error branch is taken. -/
def no_permissions (desc : filedesc) (permission1 permission2 : Int) : Bool :=
  Int.land desc.permissions (Int.lor permission1 permission2) == 0

/-- The slot search of create_filedesc: the first index holding NULL. -/
def first_free_slot : List (Option filedesc) → Nat
  | [] => 0
  | none :: _ => 0
  | some _ :: rest => first_free_slot rest + 1

/-- Lines 132 to 137 of create_filedesc: a full table grows by four zeroed slots. -/
def grown_table (s : State) : List (Option filedesc) :=
  if s.file_descriptor_count = s.file_descriptor_capacity then
    s.file_descriptors ++ List.replicate 4 none
  else s.file_descriptors

/-- The descriptor create_filedesc stores in slot `fd` (lines 145 to 157). -/
def fresh_desc (f : file) (a : Nat) (permissions : Int) (fd : Nat) : filedesc :=
  { fd := fd, file := a,
    current_block := if f.block_list.isEmpty then none else some 0,
    current_block_index := if f.block_list.isEmpty then -1 else 0,
    permissions := permissions, offset := 0 }

/-- create_filedesc. The search of line 140 runs to index `capacity` inclusive; finding
no free slot below the capacity it reads past the table. -/
def create_filedesc (s : State) (a : Nat) (permissions : Int) : Except Fault (State × Int) :=
  let table := grown_table s
  let fd := first_free_slot table
  if fd < table.length then
    match s.file_at a with
    | .error e => .error e
    | .ok f =>
      .ok ({ s with
              files := s.files.set a (some { f with refs := f.refs + 1 }),
              file_descriptors := table.set fd (some (fresh_desc f a permissions fd)),
              file_descriptor_count := s.file_descriptor_count + 1 }, fd)
  else .error .undefined_behaviour

/-- init_filedesc_current_block. -/
def init_filedesc_current_block (f : file) (desc : filedesc) : filedesc :=
  if desc.current_block.isNone ∧ ¬ f.block_list.isEmpty then
    { desc with current_block := some 0, current_block_index := desc.current_block_index + 1 }
  else desc

/-- add_block: a zeroed block becomes the new tail. The new block is at the position
that was the length of the list. -/
def add_block (f : file) : file :=
  { f with
    block_list := f.block_list ++ [{ memory := List.replicate BLOCK_SIZE.toNat 0, occupied := 0 }],
    blocks_count := f.blocks_count + 1 }

/-- The field `next` of the block at position `p`. -/
def block_next (f : file) (p : Nat) : Option Nat :=
  if p + 1 < f.block_list.length then some (p + 1) else none

/-- The object add_file allocates: a calloc-ed file with a copy of the name. -/
def new_file (filename : String) : file :=
  { block_list := [], blocks_count := 0, refs := 0, name := filename, is_removed := false }

/-- add_file: a zeroed file with the given name is linked at the end of `file_list`;
its address is returned. -/
def add_file (s : State) (filename : String) : State × Nat :=
  ({ s with
      files := s.files ++ [some (new_file filename)],
      file_list := s.file_list ++ [s.files.length] }, s.files.length)

/-- free_file: the cell of the file (with its blocks) is released. -/
def free_file (s : State) (a : Nat) : State :=
  { s with files := s.files.set a none }

/-- The name search over `file_list` shared by ufs_open and ufs_delete: the address of
the first linked file with that name. -/
def find_file (s : State) : List Nat → String → Except Fault (Option Nat)
  | [], _ => .ok none
  | a :: rest, filename =>
    match s.file_at a with
    | .error e => .error e
    | .ok f => if f.name = filename then .ok (some a) else find_file s rest filename

/-- The local `needs_file_creation` of ufs_open: `flags % 2` as a bool. -/
def needs_file_creation (flags : Int) : Bool := Int.tmod flags 2 != 0

/-- The local `permissions` of ufs_open (lines 264 to 267): the flags without the create
bit, UFS_READ_WRITE when nothing is left. -/
def open_permissions (flags : Int) : Int :=
  if flags - (if needs_file_creation flags then 1 else 0) = 0 then UFS_READ_WRITE
  else flags - (if needs_file_creation flags then 1 else 0)

/-- ufs_open. -/
def ufs_open (s : State) (filename : String) (flags : Int) : Except Fault (State × Int) :=
  match find_file s s.file_list filename with
  | .error e => .error e
  | .ok (some a) =>
    create_filedesc { s with ufs_error_code := .UFS_ERR_NO_ERR } a (open_permissions flags)
  | .ok none =>
    if ¬ needs_file_creation flags then
      .ok ({ s with ufs_error_code := .UFS_ERR_NO_FILE }, -1)
    else
      create_filedesc { (add_file s filename).1 with ufs_error_code := .UFS_ERR_NO_ERR }
        (add_file s filename).2 (open_permissions flags)

/-- What one turn of the loop of ufs_write leaves: the early return on the block
ceiling, or the values the next turn starts from. -/
inductive write_turn where
  | no_mem (f : file) (desc : filedesc)
  | next (f : file) (desc : filedesc) (write_size : Int)
  deriving DecidableEq, Repr

/-- Lines 287 to 298 of ufs_write: a descriptor without a current block gets a new
tail block; `none` is the early return on the block ceiling. -/
def ufs_write_grow (f : file) (desc : filedesc) : Option (file × filedesc) :=
  match desc.current_block with
  | some _ => some (f, desc)
  | none =>
    if f.blocks_count ≥ MAX_FILE_SIZE / BLOCK_SIZE then none
    else
      some (add_block f,
        { desc with
          current_block := some f.block_list.length,
          current_block_index := (add_block f).blocks_count - 1,
          offset := 0 })

/-- Lines 300 to 317 of ufs_write, the current block being at position `p`. -/
def ufs_write_block (f : file) (desc : filedesc) (p : Nat) (buf : List Nat) (write_size : Int) :
    Except Fault write_turn :=
  match f.block_list[p]? with
  | none => .error .undefined_behaviour
  | some b =>
    let block_write_size := BLOCK_SIZE - desc.offset
    if block_write_size ≤ 0 then
      .ok (.next f
        { desc with
          current_block := block_next f p,
          current_block_index := desc.current_block_index + 1,
          offset := 0 } write_size)
    else
      let block_write_size := min block_write_size (to_ssize buf.length - write_size)
      if desc.offset < 0 ∨ desc.offset + block_write_size > b.memory.length then
        .error .undefined_behaviour
      else
        let src := (buf.drop write_size.toNat).take block_write_size.toNat
        let memory := b.memory.take desc.offset.toNat ++ src ++
          b.memory.drop (desc.offset.toNat + block_write_size.toNat)
        let offset := desc.offset + block_write_size
        let b1 : block := { memory := memory, occupied := max b.occupied offset }
        .ok (.next { f with block_list := f.block_list.set p b1 }
          { desc with offset := offset } (write_size + block_write_size))

/-- One turn of the loop of ufs_write (lines 287 to 317). -/
def ufs_write_turn (f : file) (desc : filedesc) (buf : List Nat) (write_size : Int) :
    Except Fault write_turn :=
  match ufs_write_grow f desc with
  | none => .ok (.no_mem f desc)
  | some (f1, desc1) =>
    match desc1.current_block with
    | none => .error .undefined_behaviour
    | some p => ufs_write_block f1 desc1 p buf write_size

/-- The loop of ufs_write: the file, the descriptor, the returned value and the error
code it leaves. -/
def ufs_write_loop : Nat → file → filedesc → List Nat → Int →
    Except Fault (file × filedesc × Int × ufs_error_code)
  | 0, _, _, _, _ => .error .out_of_fuel
  | fuel + 1, f, desc, buf, write_size =>
    if write_size < to_ssize buf.length then
      match ufs_write_turn f desc buf write_size with
      | .error e => .error e
      | .ok (.no_mem f1 desc1) => .ok (f1, desc1, -1, .UFS_ERR_NO_MEM)
      | .ok (.next f1 desc1 write_size1) => ufs_write_loop fuel f1 desc1 buf write_size1
    else .ok (f, desc, write_size, .UFS_ERR_NO_ERR)

/-- ufs_write: `buf` holds the `size` bytes the caller passes, `size` is its length. -/
def ufs_write (s : State) (fd : Int) (buf : List Nat) : Except Fault (State × Int) :=
  match handle_err_no_file s fd with
  | .error e => .error e
  | .ok none => .ok ({ s with ufs_error_code := .UFS_ERR_NO_FILE }, -1)
  | .ok (some desc0) =>
    match s.file_at desc0.file with
    | .error e => .error e
    | .ok f =>
      let desc := init_filedesc_current_block f desc0
      if no_permissions desc UFS_READ_WRITE UFS_WRITE_ONLY then
        .ok ({ s with
                file_descriptors := s.file_descriptors.set fd.toNat (some desc),
                ufs_error_code := .UFS_ERR_NO_PERMISSION }, -1)
      else
        match ufs_write_loop (2 * buf.length + 2) f desc buf 0 with
        | .error e => .error e
        | .ok (f1, desc1, ret, err) =>
          .ok ({ s with
                  files := s.files.set desc0.file (some f1),
                  file_descriptors := s.file_descriptors.set fd.toNat (some desc1),
                  ufs_error_code := err }, ret)

/-- What one turn of the loop of ufs_read leaves: the `break`, or the values the next
turn starts from (`out` is what has been copied into `buf` so far). -/
inductive read_turn where
  | stop
  | next (desc : filedesc) (read_size : Int) (out : List Nat)
  deriving DecidableEq, Repr

/-- One turn of the loop of ufs_read (lines 338 to 356), the block under the cursor
being at position `p`. `block_read_size` is `BLOCK_SIZE - desc->offset` at the start of
every turn (initialiser and step expression of the `for`). -/
def ufs_read_turn (f : file) (desc : filedesc) (p : Nat) (size : Nat) (read_size : Int)
    (out : List Nat) : Except Fault read_turn :=
  match f.block_list[p]? with
  | none => .error .undefined_behaviour
  | some b =>
    let block_read_size := BLOCK_SIZE - desc.offset
    if block_read_size ≤ 0 then
      .ok (.next
        { desc with
          current_block := block_next f p,
          current_block_index := desc.current_block_index + 1,
          offset := 0 } read_size out)
    else
      let block_read_size := min block_read_size (to_ssize size - read_size)
      let block_read_size := min block_read_size (b.occupied - desc.offset)
      if block_read_size ≤ 0 then .ok .stop
      else if desc.offset < 0 ∨ desc.offset + block_read_size > b.memory.length then
        .error .undefined_behaviour
      else
        .ok (.next { desc with offset := desc.offset + block_read_size }
          (read_size + block_read_size)
          (out ++ (b.memory.drop desc.offset.toNat).take block_read_size.toNat))

/-- The loop of ufs_read: the descriptor, the count and the bytes copied. -/
def ufs_read_loop : Nat → file → filedesc → Nat → Int → List Nat →
    Except Fault (filedesc × Int × List Nat)
  | 0, _, _, _, _, _ => .error .out_of_fuel
  | fuel + 1, f, desc, size, read_size, out =>
    if read_size < to_ssize size then
      match desc.current_block with
      | none => .ok (desc, read_size, out)
      | some p =>
        match ufs_read_turn f desc p size read_size out with
        | .error e => .error e
        | .ok .stop => .ok (desc, read_size, out)
        | .ok (.next desc1 read_size1 out1) => ufs_read_loop fuel f desc1 size read_size1 out1
    else .ok (desc, read_size, out)

/-- ufs_read: the state, the returned count and the bytes stored at the start of `buf`. -/
def ufs_read (s : State) (fd : Int) (size : Nat) : Except Fault (State × Int × List Nat) :=
  match handle_err_no_file s fd with
  | .error e => .error e
  | .ok none => .ok ({ s with ufs_error_code := .UFS_ERR_NO_FILE }, -1, [])
  | .ok (some desc0) =>
    match s.file_at desc0.file with
    | .error e => .error e
    | .ok f =>
      let desc := init_filedesc_current_block f desc0
      if no_permissions desc UFS_READ_WRITE UFS_READ_ONLY then
        .ok ({ s with
                file_descriptors := s.file_descriptors.set fd.toNat (some desc),
                ufs_error_code := .UFS_ERR_NO_PERMISSION }, -1, [])
      else
        match ufs_read_loop (2 * size + 2) f desc size 0 [] with
        | .error e => .error e
        | .ok (desc1, ret, out) =>
          .ok ({ s with
                  file_descriptors := s.file_descriptors.set fd.toNat (some desc1),
                  ufs_error_code := .UFS_ERR_NO_ERR }, ret, out)

/-- ufs_close. -/
def ufs_close (s : State) (fd : Int) : Except Fault (State × Int) :=
  match handle_err_no_file s fd with
  | .error e => .error e
  | .ok none => .ok ({ s with ufs_error_code := .UFS_ERR_NO_FILE }, -1)
  | .ok (some desc) =>
    match s.file_at desc.file with
    | .error e => .error e
    | .ok f =>
      let f1 : file := { f with refs := f.refs - 1 }
      let s1 : State := { s with files := s.files.set desc.file (some f1) }
      let s2 := if f1.is_removed ∧ f1.refs = 0 then free_file s1 desc.file else s1
      .ok ({ s2 with
              file_descriptors := s2.file_descriptors.set fd.toNat none,
              ufs_error_code := .UFS_ERR_NO_ERR }, 0)

/-- ufs_delete: the first linked file with that name is unlinked, then freed at once
or marked removed. -/
def ufs_delete (s : State) (filename : String) : Except Fault (State × Int) :=
  match find_file s s.file_list filename with
  | .error e => .error e
  | .ok none => .ok ({ s with ufs_error_code := .UFS_ERR_NO_FILE }, -1)
  | .ok (some a) =>
    match s.file_at a with
    | .error e => .error e
    | .ok f =>
      let s1 : State := { s with file_list := s.file_list.erase a }
      let s2 :=
        if f.refs = 0 then free_file s1 a
        else { s1 with files := s1.files.set a (some { f with is_removed := true }) }
      .ok ({ s2 with ufs_error_code := .UFS_ERR_NO_ERR }, 0)

/-- The growing loop of ufs_resize (lines 446 and 447): `n` calls of add_block. -/
def grow_blocks : Nat → file → file
  | 0, f => f
  | n + 1, f => grow_blocks n (add_block f)

/-- The shrinking loop of ufs_resize (lines 453 to 463), `n` turns: the tail is freed
when it has a predecessor. The test `!f->last_block` of line 461 never holds, the tail
kept being the one just dereferenced or its predecessor. -/
def shrink_blocks : Nat → file → Except Fault file
  | 0, f => .ok f
  | n + 1, f =>
    match f.block_list with
    | [] => .error .undefined_behaviour
    | [_] => shrink_blocks n f
    | _ :: _ :: _ =>
      shrink_blocks n
        { f with block_list := f.block_list.dropLast, blocks_count := f.blocks_count - 1 }

/-- The pointer `last_block` of a file. -/
def last_block (f : file) : Option Nat :=
  if f.block_list.isEmpty then none else some (f.block_list.length - 1)

/-- The body of the descriptor loop of ufs_resize (lines 477 to 491) for one slot. -/
def reclamp (a : Nat) (f : file) : Option filedesc → Option filedesc
  | none => none
  | some desc =>
    if desc.file = a then
      let desc1 :=
        if desc.current_block_index ≥ f.blocks_count then
          { desc with current_block_index := f.blocks_count - 1, current_block := last_block f }
        else desc
      if desc1.current_block_index = f.blocks_count - 1 then
        let new_offset : Int :=
          match f.block_list.getLast? with
          | some b => b.occupied
          | none => 0
        some { desc1 with offset := min desc1.offset new_offset }
      else some desc1
    else some desc

/-- Line 469 and 470 of ufs_resize: the tail block gets `occupied_remainder`. -/
def set_last_occupied (f : file) (occupied_remainder : Int) : file :=
  match f.block_list.getLast? with
  | none => f
  | some b =>
    { f with
      block_list := f.block_list.set (f.block_list.length - 1)
        { b with occupied := occupied_remainder } }

/-- The local `new_blocks_count` of ufs_resize (lines 435 to 442): the number of
blocks `new_size` bytes need. -/
def new_blocks_count (new_size : Nat) : Int :=
  if (new_size : Int) % BLOCK_SIZE ≠ 0 then (new_size : Int) / BLOCK_SIZE + 1
  else (new_size : Int) / BLOCK_SIZE

/-- The local `occupied_remainder` of ufs_resize (lines 465 to 467). -/
def occupied_remainder (new_size : Nat) : Int :=
  if new_size > 0 ∧ (new_size : Int) % BLOCK_SIZE = 0 then (new_size : Int) % BLOCK_SIZE + BLOCK_SIZE
  else (new_size : Int) % BLOCK_SIZE

/-- ufs_resize; `new_size` is the value of a `size_t`. -/
def ufs_resize (s : State) (fd : Int) (new_size : Nat) : Except Fault (State × Int) :=
  match handle_err_no_file s fd with
  | .error e => .error e
  | .ok none => .ok ({ s with ufs_error_code := .UFS_ERR_NO_FILE }, -1)
  | .ok (some desc) =>
    if (new_size : Int) > MAX_FILE_SIZE then
      .ok ({ s with ufs_error_code := .UFS_ERR_NO_MEM }, -1)
    else
      match s.file_at desc.file with
      | .error e => .error e
      | .ok f =>
        if new_blocks_count new_size ≥ f.blocks_count then
          .ok ({ s with
                  files := s.files.set desc.file
                    (some (grow_blocks (new_blocks_count new_size - f.blocks_count).toNat f)),
                  ufs_error_code := .UFS_ERR_NO_ERR }, 0)
        else
          match shrink_blocks (f.blocks_count - new_blocks_count new_size).toNat f with
          | .error e => .error e
          | .ok f1 =>
            .ok ({ s with
                    files := s.files.set desc.file
                      (some (set_last_occupied f1 (occupied_remainder new_size))),
                    file_descriptors := s.file_descriptors.map
                      (reclamp desc.file (set_last_occupied f1 (occupied_remainder new_size))),
                    ufs_error_code := .UFS_ERR_NO_ERR }, 0)

/-- ufs_errno. -/
def ufs_errno (s : State) : ufs_error_code := s.ufs_error_code

/-! ## Calls, reachable states and well-formed states -/

/-- A call of one of the six entry points, with its arguments. -/
inductive Call where
  | c_open (filename : String) (flags : Int)
  | c_read (fd : Int) (size : Nat)
  | c_write (fd : Int) (buf : List Nat)
  | c_resize (fd : Int) (new_size : Nat)
  | c_close (fd : Int)
  | c_delete (filename : String)
  deriving DecidableEq, Repr

/-- The state a call leaves. -/
def step (s : State) : Call → Except Fault State
  | .c_open filename flags => (ufs_open s filename flags).map Prod.fst
  | .c_read fd size => (ufs_read s fd size).map Prod.fst
  | .c_write fd buf => (ufs_write s fd buf).map Prod.fst
  | .c_resize fd new_size => (ufs_resize s fd new_size).map Prod.fst
  | .c_close fd => (ufs_close s fd).map Prod.fst
  | .c_delete filename => (ufs_delete s filename).map Prod.fst

/-- The state a sequence of calls leaves, started in `s`. -/
def run (s : State) : List Call → Except Fault State
  | [] => .ok s
  | c :: cs =>
    match step s c with
    | .error e => .error e
    | .ok s1 => run s1 cs

/-- The states reachable from the initial one by calls of the entry points. -/
inductive Reachable : State → Prop where
  | init : Reachable State.empty
  | call (s s1 : State) (c : Call) : Reachable s → step s c = .ok s1 → Reachable s1

/-- A block has its BLOCK_SIZE bytes and an occupied count within them. -/
def block_ok (b : block) : Prop :=
  b.memory.length = BLOCK_SIZE.toNat ∧ 0 ≤ b.occupied ∧ b.occupied ≤ BLOCK_SIZE

/-- The counter of a file agrees with its chain, the chain is within the ceiling and
every block is well formed. -/
def file_ok (f : file) : Prop :=
  f.blocks_count = f.block_list.length ∧ f.blocks_count ≤ MAX_FILE_SIZE / BLOCK_SIZE ∧
    ∀ b ∈ f.block_list, block_ok b

/-- The cursor of a descriptor points into the chain of its file. -/
def cursor_ok (f : file) (d : filedesc) : Prop :=
  0 ≤ d.offset ∧ d.offset ≤ BLOCK_SIZE ∧ -1 ≤ d.current_block_index ∧
    ∀ p, d.current_block = some p → p < f.block_list.length ∧ (p : Int) ≤ d.current_block_index

/-- The number of open descriptors of a table. -/
def open_count : List (Option filedesc) → Nat
  | [] => 0
  | none :: rest => open_count rest
  | some _ :: rest => open_count rest + 1

/-- The number of open descriptors of a table bound to the file at address `a`. -/
def ref_count (a : Nat) : List (Option filedesc) → Nat
  | [] => 0
  | none :: rest => ref_count a rest
  | some d :: rest => ref_count a rest + (if d.file = a then 1 else 0)

/-- The stored bytes of a block: the first `occupied` bytes of its memory. -/
def block_bytes (b : block) : List Nat := b.memory.take b.occupied.toNat

/-- The stored bytes of a file: the occupied part of every block, in order. -/
def contents (f : file) : List Nat := (f.block_list.map block_bytes).flatten

/-- Every block of the list is full. -/
def all_full (l : List block) : Prop := ∀ b ∈ l, b.occupied = BLOCK_SIZE

/-- Every block but the last is full. -/
def dense (l : List block) : Prop := all_full l.dropLast

/-- Well-formed states: what every reachable state satisfies. -/
structure WF (s : State) : Prop where
  count_le : s.file_descriptor_count ≤ s.file_descriptors.length
  open_le : (open_count s.file_descriptors : Int) ≤ s.file_descriptor_count
  desc_ok : ∀ (i : Nat) (d : filedesc), s.file_descriptors[i]? = some (some d) →
    d.fd = (i : Int) ∧ ∃ f, s.files[d.file]? = some (some f) ∧ cursor_ok f d
  list_nodup : s.file_list.Nodup
  list_live : ∀ a ∈ s.file_list, ∃ f, s.files[a]? = some (some f) ∧ f.is_removed = false
  list_names : ∀ a ∈ s.file_list, ∀ b ∈ s.file_list, ∀ f g,
    s.files[a]? = some (some f) → s.files[b]? = some (some g) → f.name = g.name → a = b
  files_ok : ∀ a f, s.files[a]? = some (some f) →
    file_ok f ∧ f.refs = ref_count a s.file_descriptors ∧
      (a ∉ s.file_list → f.is_removed = true ∧ 0 < f.refs)

/-- The block a copying turn of ufs_write (lines 311 to 317) leaves in place of `b`. -/
def written_block (b : block) (offset : Int) (buf : List Nat) (ws : Int) : block :=
  { memory := b.memory.take offset.toNat ++
      (buf.drop ws.toNat).take (min (BLOCK_SIZE - offset) (to_ssize buf.length - ws)).toNat ++
      b.memory.drop (offset.toNat + (min (BLOCK_SIZE - offset) (to_ssize buf.length - ws)).toNat),
    occupied := max b.occupied (offset + min (BLOCK_SIZE - offset) (to_ssize buf.length - ws)) }

/-- The block add_block allocates: BLOCK_SIZE zero bytes, none occupied. -/
def zero_block : block := { memory := List.replicate BLOCK_SIZE.toNat 0, occupied := 0 }

/-- The count `block_write_size` a copying turn of ufs_write transfers (line 311). -/
def write_chunk (offset : Int) (buf : List Nat) (ws : Int) : Int :=
  min (BLOCK_SIZE - offset) (to_ssize buf.length - ws)

/-- A bound on the turns the write loop still takes: two per byte left, one more when
the cursor stands at the end of its block. -/
def write_measure (desc : filedesc) (buf : List Nat) (ws : Int) : Nat :=
  2 * (to_ssize buf.length - ws).toNat + (if BLOCK_SIZE ≤ desc.offset then 1 else 0)

/-- What a turn of the write loop keeps of a well-formed file `f0` and a descriptor `d0`
on it: well-formedness, the fields other than blocks and cursor, and the blocks there were. -/
structure write_keeps (f0 : file) (d0 : filedesc) (f : file) (d : filedesc) : Prop where
  fok : file_ok f
  cok : cursor_ok f d
  name_eq : f.name = f0.name
  refs_eq : f.refs = f0.refs
  removed_eq : f.is_removed = f0.is_removed
  file_eq : d.file = d0.file
  perm_eq : d.permissions = d0.permissions
  fd_eq : d.fd = d0.fd
  len_le : f0.block_list.length ≤ f.block_list.length

/-- The count `block_read_size` a copying turn of ufs_read transfers (lines 347, 348). -/
def read_chunk (offset occupied : Int) (size : Nat) (rs : Int) : Int :=
  min (min (BLOCK_SIZE - offset) (to_ssize size - rs)) (occupied - offset)

/-- A bound on the turns the read loop still takes. -/
def read_measure (desc : filedesc) (size : Nat) (rs : Int) : Nat :=
  2 * (to_ssize size - rs).toNat + (if BLOCK_SIZE ≤ desc.offset then 1 else 0)

/-- What a turn of the read loop keeps of a descriptor `d0` on the file `f`. -/
structure read_keeps (f : file) (d0 : filedesc) (d : filedesc) : Prop where
  cok : cursor_ok f d
  file_eq : d.file = d0.file
  perm_eq : d.permissions = d0.permissions
  fd_eq : d.fd = d0.fd

/-- The write loop appending `buf` to a dense file that held the bytes `c0`: after
`ws` bytes the file holds `c0` and the first `ws` bytes of `buf`, and the cursor is at
the end of the tail block, or past it when every block is full. -/
structure appending (c0 buf : List Nat) (f : file) (d : filedesc) (ws : Int) : Prop where
  fok : file_ok f
  cok : cursor_ok f d
  dns : dense f.block_list
  bytes : contents f = c0 ++ buf.take ws.toNat
  ws_nonneg : 0 ≤ ws
  ws_le : ws ≤ to_ssize buf.length ∨ ws = 0
  at_tail : ∀ p, d.current_block = some p →
    p + 1 = f.block_list.length ∧ ∃ b, f.block_list[p]? = some b ∧ d.offset = b.occupied
  ran_off : d.current_block = none → all_full f.block_list

/-- The read loop having copied `rs` bytes of a dense file, started at byte `r0`: `out`
holds those bytes and the cursor is at byte `r0 + rs`, or past the last block when
that is the end of the stored bytes. -/
structure reading (r0 : Nat) (size : Nat) (f : file) (d : filedesc) (rs : Int)
    (out : List Nat) : Prop where
  cok : cursor_ok f d
  rs_nonneg : 0 ≤ rs
  rs_le : rs ≤ to_ssize size ∨ rs = 0
  out_eq : out = ((contents f).drop r0).take rs.toNat
  pos_le : (r0 : Int) + rs ≤ (contents f).length
  at_pos : ∀ p, d.current_block = some p →
    ∃ b, f.block_list[p]? = some b ∧ BLOCK_SIZE * p + d.offset = r0 + rs ∧ d.offset ≤ b.occupied
  at_eof : d.current_block = none → (r0 : Int) + rs = (contents f).length

/-- The open flags leave a descriptor whose mode passes the permission test of ufs_read. -/
def permits_read (flags : Int) : Prop :=
  Int.land (open_permissions flags) (Int.lor UFS_READ_WRITE UFS_READ_ONLY) ≠ 0

/-- The open flags leave a descriptor whose mode passes the permission test of ufs_write. -/
def permits_write (flags : Int) : Prop :=
  Int.land (open_permissions flags) (Int.lor UFS_READ_WRITE UFS_WRITE_ONLY) ≠ 0

instance (flags : Int) : Decidable (permits_read flags) := by
  unfold permits_read; infer_instance

instance (flags : Int) : Decidable (permits_write flags) := by
  unfold permits_write; infer_instance

/-- The state in which the file at address 0, linked under its name, is the only file
and the table of four slots holds the descriptors `d0` and `d1` in its slots 0 and 1. -/
def one_file_state (f : file) (d0 : filedesc) (d1 : Option filedesc) (count : Int) : State :=
  { files := [some f], file_list := [0], file_descriptors := [some d0, d1, none, none],
    file_descriptor_count := count, ufs_error_code := .UFS_ERR_NO_ERR }

/-- The file as ufs_delete leaves it while descriptors are open: `is_removed` is set. -/
def mark_removed (f : file) : file := { f with is_removed := true }

/-- A read or a write through one descriptor, with its argument. -/
inductive Transfer where
  | t_read (size : Nat)
  | t_write (buf : List Nat)
  deriving DecidableEq, Repr

/-- The state a transfer leaves, the value it returns and the bytes it hands back. -/
def transfer (s : State) (fd : Int) : Transfer → Except Fault (State × Int × List Nat)
  | .t_read size => ufs_read s fd size
  | .t_write buf =>
    match ufs_write s fd buf with
    | .error e => .error e
    | .ok (s1, ret) => .ok (s1, ret, [])

/-- A sequence of transfers through one descriptor: the final state and the results. -/
def transfers (s : State) (fd : Int) : List Transfer → Except Fault (State × List (Int × List Nat))
  | [] => .ok (s, [])
  | t :: ts =>
    match transfer s fd t with
    | .error e => .error e
    | .ok (s1, ret, out) =>
      match transfers s1 fd ts with
      | .error e => .error e
      | .ok (s2, rs) => .ok (s2, (ret, out) :: rs)

/-- The state `s1` is the state `s` after the file at address `a` was deleted while
open: unlinked and marked removed, everything else the same. -/
def deleted_view (a : Nat) (s s1 : State) : Prop :=
  s1.file_descriptors = s.file_descriptors ∧
    s1.file_descriptor_count = s.file_descriptor_count ∧
    s1.file_list = s.file_list.erase a ∧
    ∃ f, s.files[a]? = some (some f) ∧ s1.files = s.files.set a (some (mark_removed f))

/-- The result of a turn of the write loop with the file marked removed. -/
def mark_turn : Except Fault write_turn → Except Fault write_turn
  | .error e => .error e
  | .ok (.no_mem f d) => .ok (.no_mem (mark_removed f) d)
  | .ok (.next f d ws) => .ok (.next (mark_removed f) d ws)

/-- The result of the write loop with the file marked removed. -/
def mark_loop : Except Fault (file × filedesc × Int × ufs_error_code) →
    Except Fault (file × filedesc × Int × ufs_error_code)
  | .error e => .error e
  | .ok (f, d, ret, err) => .ok (mark_removed f, d, ret, err)

/-- The state after `ufs_open("f", UFS_CREATE)` on the empty filesystem: the file "f"
without blocks and descriptor 0 on it. -/
def demo_state : State :=
  one_file_state { new_file "f" with refs := 1 } (fresh_desc (new_file "f") 0 UFS_READ_WRITE 0)
    none 1

/-- A block whose BLOCK_SIZE bytes are all in use. -/
def full_block : block := { memory := List.replicate BLOCK_SIZE.toNat 0, occupied := BLOCK_SIZE }

/-- A file "f" at the block ceiling: MAX_FILE_SIZE / BLOCK_SIZE full blocks, one descriptor. -/
def ceiling_file : file :=
  { block_list := List.replicate 204800 full_block, blocks_count := 204800, refs := 1,
    name := "f", is_removed := false }

/-- A read-write descriptor in the tail block of `ceiling_file`, at offset BLOCK_SIZE. -/
def ceiling_desc : filedesc :=
  { file := 0, current_block := some 204799, offset := BLOCK_SIZE,
    current_block_index := 204799, permissions := UFS_READ_WRITE, fd := 0 }

/-- The state holding `ceiling_file` with `ceiling_desc` as descriptor 0. -/
def ceiling_state : State := one_file_state ceiling_file ceiling_desc none 1

/-- What a read through `fd` returns after the calls `cs` on the empty filesystem: the
returned value, the bytes handed back and the error code left. -/
def run_then_read (cs : List Call) (fd : Int) (size : Nat) :
    Option (Int × List Nat × ufs_error_code) :=
  match run State.empty cs with
  | .error _ => none
  | .ok s =>
    match ufs_read s fd size with
    | .error _ => none
    | .ok (s1, ret, out) => some (ret, out, ufs_errno s1)

/-- What a write through `fd` returns after the calls `cs` on the empty filesystem: the
returned value and the error code left. -/
def run_then_write (cs : List Call) (fd : Int) (buf : List Nat) : Option (Int × ufs_error_code) :=
  match run State.empty cs with
  | .error _ => none
  | .ok s =>
    match ufs_write s fd buf with
    | .error _ => none
    | .ok (s1, ret) => some (ret, ufs_errno s1)

/-- The cursor of the descriptor in slot `fd` after the calls `cs` on the empty
filesystem: current block, block index and offset. -/
def run_cursor (cs : List Call) (fd : Nat) : Option (Option Nat × Int × Int) :=
  match run State.empty cs with
  | .error _ => none
  | .ok s =>
    match s.file_descriptors[fd]? with
    | some (some d) => some (d.current_block, d.current_block_index, d.offset)
    | _ => none

/-- The occupied counts of the blocks of the file at address `a` after the calls `cs`
on the empty filesystem. -/
def run_occupied (cs : List Call) (a : Nat) : Option (List Int) :=
  match run State.empty cs with
  | .error _ => none
  | .ok s =>
    match s.files[a]? with
    | some (some f) => some (f.block_list.map fun b => b.occupied)
    | _ => none

/-- The state a sequence of calls leaves of the empty filesystem (the empty filesystem
itself when a call has no result). -/
def state_after (cs : List Call) : State :=
  match run State.empty cs with
  | .ok s => s
  | .error _ => State.empty

/-- The state a ufs_open leaves (the state itself when the call has no result). -/
def state_opened (s : State) (filename : String) (flags : Int) : State :=
  match ufs_open s filename flags with
  | .ok (s1, _) => s1
  | .error _ => s

/-- The state a call leaves and the value it returns. -/
def call (s : State) : Call → Except Fault (State × Int)
  | .c_open filename flags => ufs_open s filename flags
  | .c_read fd size =>
    match ufs_read s fd size with
    | .error e => .error e
    | .ok (s1, ret, _) => .ok (s1, ret)
  | .c_write fd buf => ufs_write s fd buf
  | .c_resize fd new_size => ufs_resize s fd new_size
  | .c_close fd => ufs_close s fd
  | .c_delete filename => ufs_delete s filename

/-- The total stored size of a file: the sum of `occupied` over its blocks. -/
def stored_size (f : file) : Int := (f.block_list.map fun b => b.occupied).sum

/-- What ufs_resize through `fd` returns after the calls `cs` on the empty filesystem:
the returned value and the error code left. -/
def run_then_resize (cs : List Call) (fd : Int) (new_size : Nat) :
    Option (Int × ufs_error_code) :=
  match run State.empty cs with
  | .error _ => none
  | .ok s =>
    match ufs_resize s fd new_size with
    | .error _ => none
    | .ok (s1, ret) => some (ret, ufs_errno s1)

/-- The field `blocks_count` of the file at address `a` after the calls `cs` on the
empty filesystem. -/
def run_blocks_count (cs : List Call) (a : Nat) : Option Int :=
  match run State.empty cs with
  | .error _ => none
  | .ok s =>
    match s.files[a]? with
    | some (some f) => some f.blocks_count
    | _ => none

/-- The file "f" holding 500 bytes 7 in one block, with one descriptor. -/
def small_file : file :=
  { block_list := [{ memory := List.replicate 500 7 ++ List.replicate 12 0, occupied := 500 }],
    blocks_count := 1, refs := 1, name := "f", is_removed := false }

/-- A read-write descriptor in the block of `small_file`, at offset 500. -/
def small_desc : filedesc :=
  { file := 0, current_block := some 0, offset := 500, current_block_index := 0,
    permissions := UFS_READ_WRITE, fd := 0 }

/-- The state after `ufs_open("f", UFS_CREATE)` and a write of 500 bytes 7 through
descriptor 0 on the empty filesystem. -/
def small_state : State := one_file_state small_file small_desc none 1

/-- The descriptor argument of a call, for the calls that take one. -/
def Call.fd : Call → Option Int
  | .c_read fd _ => some fd
  | .c_write fd _ => some fd
  | .c_resize fd _ => some fd
  | .c_close fd => some fd
  | _ => none

/-- The write loop having stored `ws` bytes of `buf` over the first stored bytes of a
dense file `f0` that held `c`: the file holds those bytes followed by the rest of `c`,
the occupied counts are those of `f0`, and the cursor is at byte `ws`, or past the last
block when that is the end of the stored bytes. -/
structure overwriting (c buf : List Nat) (f0 f : file) (d : filedesc) (ws : Int) : Prop where
  fok : file_ok f
  cok : cursor_ok f d
  dns : dense f.block_list
  bytes : contents f = buf.take ws.toNat ++ c.drop ws.toNat
  occ : (f.block_list.map fun b => b.occupied) = f0.block_list.map fun b => b.occupied
  ws_nonneg : 0 ≤ ws
  ws_le : ws ≤ buf.length
  at_pos : ∀ p, d.current_block = some p →
    ∃ b, f.block_list[p]? = some b ∧ BLOCK_SIZE * p + d.offset = ws ∧ d.offset ≤ b.occupied
  at_eof : d.current_block = none → ws = c.length

/-- The state after `ufs_open("f", UFS_WRITE_ONLY)` in `small_state`: descriptor 1 stands
at the start of the file "f", which holds 500 bytes. -/
def overwrite_state : State :=
  one_file_state { small_file with refs := 2 } small_desc
    (some (fresh_desc small_file 0 UFS_WRITE_ONLY 1)) 2

/-- The stored bytes of the file at address `a` after the calls `cs` on the empty
filesystem. -/
def run_contents (cs : List Call) (a : Nat) : Option (List Nat) :=
  match run State.empty cs with
  | .error _ => none
  | .ok s =>
    match s.files[a]? with
    | some (some f) => some (contents f)
    | _ => none

/-- The call is a ufs_resize that takes the growing path and adds at least one block to
the file of its descriptor. -/
def adds_block (s : State) : Call → Bool
  | .c_resize fd new_size =>
    match handle_err_no_file s fd with
    | .ok (some desc) =>
      match s.file_at desc.file with
      | .ok f =>
        decide ((new_size : Int) ≤ MAX_FILE_SIZE ∧ new_blocks_count new_size > f.blocks_count)
      | .error _ => false
    | _ => false
  | _ => false

/-- The states reachable from the initial one by calls of the entry points among which
no ufs_resize adds a block. -/
inductive Reachable_without_growth : State → Prop where
  | init : Reachable_without_growth State.empty
  | call (s s1 : State) (c : Call) : Reachable_without_growth s → adds_block s c = false →
      step s c = .ok s1 → Reachable_without_growth s1

/-- The offset of a descriptor is within the occupied part of its current block; it is 0
when the descriptor has no current block. -/
def cursor_within (f : file) (d : filedesc) : Prop :=
  match d.current_block with
  | none => d.offset = 0
  | some p => ∀ b, f.block_list[p]? = some b → d.offset ≤ b.occupied

/-- States without gaps: well-formed states in which every block of a file but its last
is full and every cursor is within the occupied part of its block. -/
structure no_gap (s : State) : Prop where
  wf : WF s
  dns : ∀ (a : Nat) (f : file), s.files[a]? = some (some f) → dense f.block_list
  within : ∀ (i : Nat) (d : filedesc) (f : file), s.file_descriptors[i]? = some (some d) →
    s.files[d.file]? = some (some f) → cursor_within f d

/-- What the write loop keeps of a file `f0` without gaps: density, the cursor within
its block, full blocks when the cursor ran off the last one, and occupied counts that do
not decrease. -/
structure packing (f0 f : file) (d : filedesc) : Prop where
  fok : file_ok f
  cok : cursor_ok f d
  dns : dense f.block_list
  within : cursor_within f d
  ran_off : d.current_block = none → all_full f.block_list
  mono : ∀ (p : Nat) (b : block), f0.block_list[p]? = some b →
    ∃ b1, f.block_list[p]? = some b1 ∧ b.occupied ≤ b1.occupied

/-- The file "f" after 1029 bytes 7 were written and ufs_resize cut it to 600 bytes: a
full block and a block of which 88 bytes are occupied. -/
def shrunk_file : file :=
  { block_list := [{ memory := List.replicate 512 7, occupied := 512 },
                   { memory := List.replicate 512 7, occupied := 88 }],
    blocks_count := 2, refs := 1, name := "f", is_removed := false }

/-- The descriptor that wrote the 1029 bytes, as the descriptor loop of ufs_resize
leaves it: in the second block, at offset 5. -/
def shrunk_desc : filedesc :=
  { file := 0, current_block := some 1, offset := 5, current_block_index := 1,
    permissions := UFS_READ_WRITE, fd := 0 }

/-- The state after `ufs_open("f", UFS_CREATE)`, a write of 1029 bytes 7 through
descriptor 0 and `ufs_resize(0, 600)` on the empty filesystem. -/
def shrunk_state : State := one_file_state shrunk_file shrunk_desc none 1


/-! ## Arithmetic of the constants and casts -/

theorem BLOCK_SIZE_eq : BLOCK_SIZE = 512 := rfl

theorem BLOCK_SIZE_toNat : BLOCK_SIZE.toNat = 512 := rfl

theorem ceiling_eq : MAX_FILE_SIZE / BLOCK_SIZE = 204800 := by decide

theorem MAX_FILE_SIZE_eq : MAX_FILE_SIZE = 104857600 := by decide

theorem to_ssize_le (n : Nat) : to_ssize n ≤ (n : Int) := by
  unfold to_ssize
  have h := Nat.mod_le n (2 ^ 64)
  split <;> omega

theorem to_ssize_of_lt (n : Nat) (h : n < 2 ^ 63) : to_ssize n = (n : Int) := by
  unfold to_ssize
  have h1 : n % 2 ^ 64 = n := Nat.mod_eq_of_lt (by omega)
  rw [h1, if_pos h]

/-! ## The write loop on a well-formed file -/

theorem add_block_ok (f : file) (hf : file_ok f) (hlt : f.blocks_count < MAX_FILE_SIZE / BLOCK_SIZE) :
    file_ok (add_block f) := by
  obtain ⟨h1, h2, h3⟩ := hf
  refine ⟨?_, ?_, ?_⟩
  · simp [add_block, h1]
  · simp only [add_block]; omega
  · intro b hb
    simp only [add_block, List.mem_append, List.mem_singleton] at hb
    rcases hb with hb | hb
    · exact h3 b hb
    · subst hb
      refine ⟨List.length_replicate _ _, le_refl _, by decide⟩

theorem ufs_write_grow_spec (f : file) (desc : filedesc) :
    (ufs_write_grow f desc = none ∧ desc.current_block = none ∧
      f.blocks_count ≥ MAX_FILE_SIZE / BLOCK_SIZE) ∨
    (∃ p, desc.current_block = some p ∧ ufs_write_grow f desc = some (f, desc)) ∨
    (desc.current_block = none ∧ f.blocks_count < MAX_FILE_SIZE / BLOCK_SIZE ∧
      ufs_write_grow f desc = some (add_block f,
        { desc with
          current_block := some f.block_list.length,
          current_block_index := f.blocks_count,
          offset := 0 })) := by
  unfold ufs_write_grow
  cases h : desc.current_block with
  | some p => right; left; exact ⟨p, rfl, rfl⟩
  | none =>
    by_cases hge : f.blocks_count ≥ MAX_FILE_SIZE / BLOCK_SIZE
    · left; simp [hge]
    · right; right
      simp only [hge, if_false, true_and]
      refine ⟨by omega, ?_⟩
      simp [add_block]

theorem ufs_write_block_full (f : file) (desc : filedesc) (p : Nat) (buf : List Nat) (ws : Int)
    (b : block) (hb : f.block_list[p]? = some b) (hoff : BLOCK_SIZE ≤ desc.offset) :
    ufs_write_block f desc p buf ws =
      .ok (.next f
        { desc with
          current_block := block_next f p,
          current_block_index := desc.current_block_index + 1,
          offset := 0 } ws) := by
  unfold ufs_write_block
  simp only [hb]
  rw [if_pos (by omega)]

theorem ufs_write_block_copy (f : file) (desc : filedesc) (p : Nat) (buf : List Nat) (ws : Int)
    (b : block) (hb : f.block_list[p]? = some b) (hbo : block_ok b)
    (h0 : 0 ≤ desc.offset) (hoff : desc.offset < BLOCK_SIZE) :
    ufs_write_block f desc p buf ws =
      .ok (.next { f with block_list := f.block_list.set p (written_block b desc.offset buf ws) }
        { desc with
          offset := desc.offset + min (BLOCK_SIZE - desc.offset) (to_ssize buf.length - ws) }
        (ws + min (BLOCK_SIZE - desc.offset) (to_ssize buf.length - ws))) := by
  unfold ufs_write_block
  simp only [hb]
  rw [if_neg (by omega)]
  obtain ⟨hm, _, _⟩ := hbo
  rw [if_neg]
  · rfl
  · rw [hm, BLOCK_SIZE_toNat]
    have := BLOCK_SIZE_eq
    omega

theorem written_block_ok (b : block) (offset : Int) (buf : List Nat) (ws : Int)
    (hbo : block_ok b) (h0 : 0 ≤ offset) (hoff : offset < BLOCK_SIZE)
    (hws : 0 ≤ ws) (hlt : ws < to_ssize buf.length) :
    block_ok (written_block b offset buf ws) := by
  obtain ⟨hm, ho1, ho2⟩ := hbo
  have hle := to_ssize_le buf.length
  have hB := BLOCK_SIZE_eq
  have hBn := BLOCK_SIZE_toNat
  refine ⟨?_, ?_, ?_⟩
  · simp only [written_block, List.length_append, List.length_take, List.length_drop]
    omega
  · simp only [written_block]; omega
  · simp only [written_block]; omega

theorem zero_block_ok : block_ok zero_block :=
  ⟨List.length_replicate _ _, le_refl _, by decide⟩

theorem add_block_list (f : file) : (add_block f).block_list = f.block_list ++ [zero_block] := rfl

theorem getElem?_of_cursor (f : file) (p : Nat) (hp : p < f.block_list.length) :
    ∃ b, f.block_list[p]? = some b ∧ b ∈ f.block_list := by
  refine ⟨f.block_list[p], List.getElem?_eq_getElem hp, List.getElem_mem hp⟩

/-- The four ways a turn of the write loop can go on a well-formed file. -/
theorem ufs_write_turn_cases (f : file) (desc : filedesc) (buf : List Nat) (ws : Int)
    (hf : file_ok f) (hc : cursor_ok f desc) :
    (desc.current_block = none ∧ f.blocks_count ≥ MAX_FILE_SIZE / BLOCK_SIZE ∧
      ufs_write_turn f desc buf ws = .ok (.no_mem f desc)) ∨
    (∃ p, desc.current_block = some p ∧ desc.offset = BLOCK_SIZE ∧
      ufs_write_turn f desc buf ws = .ok (.next f
        { desc with
          current_block := block_next f p,
          current_block_index := desc.current_block_index + 1,
          offset := 0 } ws)) ∨
    (∃ p b, desc.current_block = some p ∧ f.block_list[p]? = some b ∧ desc.offset < BLOCK_SIZE ∧
      ufs_write_turn f desc buf ws = .ok (.next
        { f with block_list := f.block_list.set p (written_block b desc.offset buf ws) }
        { desc with offset := desc.offset + write_chunk desc.offset buf ws }
        (ws + write_chunk desc.offset buf ws))) ∨
    (desc.current_block = none ∧ f.blocks_count < MAX_FILE_SIZE / BLOCK_SIZE ∧
      ufs_write_turn f desc buf ws = .ok (.next
        { f with
          block_list := f.block_list ++ [written_block zero_block 0 buf ws],
          blocks_count := f.blocks_count + 1 }
        { desc with
          current_block := some f.block_list.length,
          current_block_index := f.blocks_count,
          offset := write_chunk 0 buf ws }
        (ws + write_chunk 0 buf ws))) := by
  obtain ⟨hc0, hc1, hc2, hc3⟩ := hc
  rcases ufs_write_grow_spec f desc with ⟨hg, hn, hge⟩ | ⟨p, hp, hg⟩ | ⟨hn, hlt, hg⟩
  · left
    refine ⟨hn, hge, ?_⟩
    simp [ufs_write_turn, hg]
  · obtain ⟨hpl, _⟩ := hc3 p hp
    obtain ⟨b, hb, hbm⟩ := getElem?_of_cursor f p hpl
    by_cases hfull : desc.offset = BLOCK_SIZE
    · right; left
      refine ⟨p, hp, hfull, ?_⟩
      have h := ufs_write_block_full f desc p buf ws b hb (by omega)
      simp only [ufs_write_turn, hg, hp, h]
    · right; right; left
      refine ⟨p, b, hp, hb, by omega, ?_⟩
      have h := ufs_write_block_copy f desc p buf ws b hb (hf.2.2 b hbm) hc0 (by omega)
      simp only [ufs_write_turn, hg, hp, h, write_chunk]
  · right; right; right
    refine ⟨hn, hlt, ?_⟩
    simp only [ufs_write_turn, hg]
    have hb : (add_block f).block_list[f.block_list.length]? = some zero_block := by
      simp [add_block_list]
    have h := ufs_write_block_copy (add_block f)
      { desc with
        current_block := some f.block_list.length,
        current_block_index := f.blocks_count,
        offset := 0 } f.block_list.length buf ws zero_block hb zero_block_ok
      (le_refl _) (by show (0 : Int) < BLOCK_SIZE; decide)
    rw [h]
    simp [add_block_list, write_chunk, add_block]

/-- Induction over the turns of the write loop: a property of file, descriptor and count
that every turn keeps holds when the loop ends, and the loop ends within the fuel. -/
theorem ufs_write_loop_induct (buf : List Nat) (P : file → filedesc → Int → Prop)
    (hP : ∀ f d ws, P f d ws → file_ok f ∧ cursor_ok f d)
    (hstep : ∀ f d ws f1 d1 ws1, P f d ws → ws < to_ssize buf.length →
      ufs_write_turn f d buf ws = .ok (.next f1 d1 ws1) → P f1 d1 ws1) :
    ∀ fuel f d ws, P f d ws → write_measure d buf ws < fuel →
      ∃ f1 d1 ws1, P f1 d1 ws1 ∧
        ((ufs_write_loop fuel f d buf ws = .ok (f1, d1, ws1, .UFS_ERR_NO_ERR) ∧
            ¬ ws1 < to_ssize buf.length) ∨
          (ufs_write_loop fuel f d buf ws = .ok (f1, d1, -1, .UFS_ERR_NO_MEM) ∧
            ws1 < to_ssize buf.length ∧ d1.current_block = none ∧
            f1.blocks_count ≥ MAX_FILE_SIZE / BLOCK_SIZE)) := by
  intro fuel
  induction fuel with
  | zero => intro f d ws _ hm; omega
  | succ fuel ih =>
    intro f d ws hp hm
    unfold ufs_write_loop
    by_cases hlt : ws < to_ssize buf.length
    · rw [if_pos hlt]
      obtain ⟨hf, hc⟩ := hP f d ws hp
      have hB := BLOCK_SIZE_eq
      rcases ufs_write_turn_cases f d buf ws hf hc with
        ⟨hn, hge, ht⟩ | ⟨p, hcb, hoff, ht⟩ | ⟨p, b, hcb, hb, hoff, ht⟩ | ⟨hn, hlt2, ht⟩
      · refine ⟨f, d, ws, hp, Or.inr ⟨?_, hlt, hn, hge⟩⟩
        rw [ht]
      · have hp1 := hstep _ _ _ _ _ _ hp hlt ht
        rw [ht]
        refine ih _ _ _ hp1 ?_
        simp only [write_measure] at hm ⊢
        rw [if_pos (by omega)] at hm
        rw [if_neg (by omega)]
        omega
      · have hp1 := hstep _ _ _ _ _ _ hp hlt ht
        rw [ht]
        refine ih _ _ _ hp1 ?_
        simp only [write_measure, write_chunk] at hm ⊢
        have h0 := hc.1
        split <;> split at hm <;> omega
      · have hp1 := hstep _ _ _ _ _ _ hp hlt ht
        rw [ht]
        refine ih _ _ _ hp1 ?_
        simp only [write_measure, write_chunk] at hm ⊢
        split <;> split at hm <;> omega
    · rw [if_neg hlt]
      exact ⟨f, d, ws, hp, Or.inl ⟨rfl, hlt⟩⟩

theorem file_ok_set (f : file) (p : Nat) (b : block) (hf : file_ok f) (hb : block_ok b) :
    file_ok { f with block_list := f.block_list.set p b } := by
  obtain ⟨h1, h2, h3⟩ := hf
  refine ⟨by simpa using h1, h2, ?_⟩
  intro c hc
  rcases List.mem_or_eq_of_mem_set hc with h | h
  · exact h3 c h
  · exact h ▸ hb

theorem file_ok_snoc (f : file) (b : block) (hf : file_ok f) (hb : block_ok b)
    (hlt : f.blocks_count < MAX_FILE_SIZE / BLOCK_SIZE) :
    file_ok { f with block_list := f.block_list ++ [b], blocks_count := f.blocks_count + 1 } := by
  obtain ⟨h1, h2, h3⟩ := hf
  refine ⟨by simp [h1], by simp only; omega, ?_⟩
  intro c hc
  simp only [List.mem_append, List.mem_singleton] at hc
  rcases hc with h | h
  · exact h3 c h
  · exact h ▸ hb

theorem write_chunk_pos (offset : Int) (buf : List Nat) (ws : Int)
    (hoff : offset < BLOCK_SIZE) (hlt : ws < to_ssize buf.length) :
    0 < write_chunk offset buf ws := by
  simp only [write_chunk]; omega

theorem write_chunk_le (offset : Int) (buf : List Nat) (ws : Int) :
    offset + write_chunk offset buf ws ≤ BLOCK_SIZE ∧
      ws + write_chunk offset buf ws ≤ to_ssize buf.length := by
  simp only [write_chunk]; omega

/-- A turn of the write loop keeps a well-formed file and descriptor well formed. -/
theorem ufs_write_turn_keeps (f0 : file) (d0 : filedesc) (buf : List Nat)
    (f : file) (d : filedesc) (ws : Int) (f1 : file) (d1 : filedesc) (ws1 : Int)
    (hk : write_keeps f0 d0 f d) (h0 : 0 ≤ ws) (hlt : ws < to_ssize buf.length)
    (ht : ufs_write_turn f d buf ws = .ok (.next f1 d1 ws1)) :
    write_keeps f0 d0 f1 d1 ∧ ws ≤ ws1 ∧ ws1 ≤ to_ssize buf.length := by
  obtain ⟨hf, hc, hn, hr, hrm, hfile, hperm, hfd, hlen⟩ := hk
  have hB := BLOCK_SIZE_eq
  obtain ⟨hc0, hc1, hc2, hc3⟩ := hc
  rcases ufs_write_turn_cases f d buf ws hf ⟨hc0, hc1, hc2, hc3⟩ with
    ⟨_, hge, ht2⟩ | ⟨p, hcb, hoff, ht2⟩ | ⟨p, b, hcb, hb, hoff, ht2⟩ | ⟨_, hlt2, ht2⟩
  · rw [ht2] at ht; cases ht
  · rw [ht2] at ht
    injection ht with ht; injection ht with e1 e2 e3
    subst e1 e2 e3
    refine ⟨⟨hf, ⟨le_refl _, by show (0 : Int) ≤ BLOCK_SIZE; decide, by simp only; omega, ?_⟩, hn, hr, hrm, hfile, hperm, hfd,
      hlen⟩, le_refl _, le_of_lt hlt⟩
    intro q hq
    simp only [block_next] at hq
    have := hc3 p hcb
    split at hq
    · cases hq; simp only; omega
    · cases hq
  · rw [ht2] at ht
    injection ht with ht; injection ht with e1 e2 e3
    subst e1 e2 e3
    have hbm : b ∈ f.block_list := List.getElem?_mem hb
    have hpos := write_chunk_pos d.offset buf ws hoff hlt
    have hle := write_chunk_le d.offset buf ws
    refine ⟨⟨file_ok_set f p _ hf (written_block_ok b d.offset buf ws (hf.2.2 b hbm) hc0 hoff h0 hlt),
      ⟨by simp only; omega, by simp only; omega, hc2, ?_⟩, hn, hr, hrm, hfile, hperm, hfd,
      by simpa using hlen⟩, by omega, hle.2⟩
    intro q hq
    simpa using hc3 q hq
  · rw [ht2] at ht
    injection ht with ht; injection ht with e1 e2 e3
    subst e1 e2 e3
    have hpos := write_chunk_pos 0 buf ws (by show (0 : Int) < BLOCK_SIZE; decide) hlt
    have hle := write_chunk_le 0 buf ws
    refine ⟨⟨file_ok_snoc f _ hf (written_block_ok zero_block 0 buf ws zero_block_ok (le_refl _)
      (by show (0 : Int) < BLOCK_SIZE; decide) h0 hlt) hlt2,
      ⟨by simp only; omega, by simp only; omega, ?_, ?_⟩, hn, hr, hrm, hfile, hperm, hfd,
      by simp only [List.length_append]; omega⟩, by omega, hle.2⟩
    · have := hf.1
      simp only; omega
    · intro q hq
      simp only [Option.some.injEq] at hq
      subst hq
      have := hf.1
      simp only [List.length_append, List.length_singleton]
      omega

theorem write_keeps_refl (f : file) (d : filedesc) (hf : file_ok f) (hc : cursor_ok f d) :
    write_keeps f d f d :=
  ⟨hf, hc, rfl, rfl, rfl, rfl, rfl, rfl, le_refl _⟩

theorem write_measure_init (d : filedesc) (buf : List Nat) :
    write_measure d buf 0 < 2 * buf.length + 2 := by
  have := to_ssize_le buf.length
  simp only [write_measure]
  split <;> omega

/-- The write loop on a well-formed file returns: either every byte was taken, or it
stopped at the block ceiling; either way file and descriptor stay well formed. -/
theorem ufs_write_loop_total (f : file) (d : filedesc) (buf : List Nat)
    (hf : file_ok f) (hc : cursor_ok f d) :
    ∃ f1 d1 ret err, ufs_write_loop (2 * buf.length + 2) f d buf 0 = .ok (f1, d1, ret, err) ∧
      write_keeps f d f1 d1 ∧
      ((err = .UFS_ERR_NO_ERR ∧ 0 ≤ ret ∧ ¬ ret < to_ssize buf.length ∧
          (ret = to_ssize buf.length ∨ ret = 0)) ∨
        (err = .UFS_ERR_NO_MEM ∧ ret = -1 ∧ d1.current_block = none ∧
          f1.blocks_count ≥ MAX_FILE_SIZE / BLOCK_SIZE)) := by
  have h := ufs_write_loop_induct buf
    (fun f1 d1 ws => write_keeps f d f1 d1 ∧ 0 ≤ ws ∧ (ws ≤ to_ssize buf.length ∨ ws = 0))
    (fun f1 d1 ws hp => ⟨hp.1.fok, hp.1.cok⟩)
    (by
      intro f1 d1 ws f2 d2 ws2 hp hlt ht
      obtain ⟨hk, hle1, hle2⟩ := ufs_write_turn_keeps f d buf f1 d1 ws f2 d2 ws2 hp.1 hp.2.1 hlt ht
      exact ⟨hk, by omega, Or.inl hle2⟩)
    (2 * buf.length + 2) f d 0 ⟨write_keeps_refl f d hf hc, le_refl _, Or.inr rfl⟩
    (write_measure_init d buf)
  obtain ⟨f1, d1, ws1, ⟨hk, h0, hle⟩, hres⟩ := h
  rcases hres with ⟨hl, hnlt⟩ | ⟨hl, _, hn, hge⟩
  · exact ⟨f1, d1, ws1, _, hl, hk, Or.inl ⟨rfl, h0, hnlt, by omega⟩⟩
  · exact ⟨f1, d1, -1, _, hl, hk, Or.inr ⟨rfl, rfl, hn, hge⟩⟩

/-! ## The read loop on a well-formed file -/

/-- The three ways a turn of the read loop can go on a well-formed file. -/
theorem ufs_read_turn_cases (f : file) (desc : filedesc) (p : Nat) (size : Nat) (rs : Int)
    (out : List Nat) (hf : file_ok f) (hc : cursor_ok f desc) (hp : desc.current_block = some p) :
    ∃ b, f.block_list[p]? = some b ∧
    ((desc.offset = BLOCK_SIZE ∧
      ufs_read_turn f desc p size rs out = .ok (.next
        { desc with
          current_block := block_next f p,
          current_block_index := desc.current_block_index + 1,
          offset := 0 } rs out)) ∨
    (desc.offset < BLOCK_SIZE ∧ read_chunk desc.offset b.occupied size rs ≤ 0 ∧
      ufs_read_turn f desc p size rs out = .ok .stop) ∨
    (desc.offset < BLOCK_SIZE ∧ 0 < read_chunk desc.offset b.occupied size rs ∧
      ufs_read_turn f desc p size rs out = .ok (.next
        { desc with offset := desc.offset + read_chunk desc.offset b.occupied size rs }
        (rs + read_chunk desc.offset b.occupied size rs)
        (out ++ (b.memory.drop desc.offset.toNat).take
          (read_chunk desc.offset b.occupied size rs).toNat)))) := by
  obtain ⟨hc0, hc1, hc2, hc3⟩ := hc
  obtain ⟨hpl, _⟩ := hc3 p hp
  obtain ⟨b, hb, hbm⟩ := getElem?_of_cursor f p hpl
  obtain ⟨hm, ho1, ho2⟩ := hf.2.2 b hbm
  have hB := BLOCK_SIZE_eq
  have hBn := BLOCK_SIZE_toNat
  refine ⟨b, hb, ?_⟩
  unfold ufs_read_turn
  simp only [hb]
  by_cases hfull : desc.offset = BLOCK_SIZE
  · left
    refine ⟨hfull, ?_⟩
    rw [if_pos (by omega)]
  · right
    rw [if_neg (by omega)]
    by_cases hz : read_chunk desc.offset b.occupied size rs ≤ 0
    · left
      refine ⟨by omega, hz, ?_⟩
      simp only [read_chunk] at hz
      rw [if_pos hz]
    · right
      refine ⟨by omega, by omega, ?_⟩
      simp only [read_chunk] at hz ⊢
      rw [if_neg hz, if_neg]
      omega

/-- Induction over the turns of the read loop. -/
theorem ufs_read_loop_induct (f : file) (size : Nat) (hf : file_ok f)
    (P : filedesc → Int → List Nat → Prop)
    (hP : ∀ d rs out, P d rs out → cursor_ok f d)
    (hstep : ∀ d p rs out d1 rs1 out1, P d rs out → rs < to_ssize size →
      d.current_block = some p →
      ufs_read_turn f d p size rs out = .ok (.next d1 rs1 out1) → P d1 rs1 out1) :
    ∀ fuel d rs out, P d rs out → read_measure d size rs < fuel →
      ∃ d1 rs1 out1, ufs_read_loop fuel f d size rs out = .ok (d1, rs1, out1) ∧ P d1 rs1 out1 ∧
        (¬ rs1 < to_ssize size ∨ d1.current_block = none ∨
          ∃ p b, d1.current_block = some p ∧ f.block_list[p]? = some b ∧
            d1.offset < BLOCK_SIZE ∧ read_chunk d1.offset b.occupied size rs1 ≤ 0) := by
  intro fuel
  induction fuel with
  | zero => intro d rs out _ hm; omega
  | succ fuel ih =>
    intro d rs out hp hm
    unfold ufs_read_loop
    by_cases hlt : rs < to_ssize size
    · rw [if_pos hlt]
      cases hcb : d.current_block with
      | none => exact ⟨d, rs, out, rfl, hp, Or.inr (Or.inl hcb)⟩
      | some p =>
        have hc := hP d rs out hp
        have hB := BLOCK_SIZE_eq
        obtain ⟨b, hb, hcases⟩ := ufs_read_turn_cases f d p size rs out hf hc hcb
        rcases hcases with ⟨hoff, ht⟩ | ⟨hoff, hz, ht⟩ | ⟨hoff, hz, ht⟩
        · have hp1 := hstep _ _ _ _ _ _ _ hp hlt hcb ht
          simp only [ht]
          refine ih _ _ _ hp1 ?_
          simp only [read_measure] at hm ⊢
          rw [if_pos (by omega)] at hm
          rw [if_neg (by omega)]
          omega
        · simp only [ht]
          exact ⟨d, rs, out, rfl, hp, Or.inr (Or.inr ⟨p, b, hcb, hb, hoff, hz⟩)⟩
        · have hp1 := hstep _ _ _ _ _ _ _ hp hlt hcb ht
          simp only [ht]
          refine ih _ _ _ hp1 ?_
          simp only [read_measure, read_chunk] at hm hz ⊢
          split <;> split at hm <;> omega
    · rw [if_neg hlt]
      exact ⟨d, rs, out, rfl, hp, Or.inl hlt⟩

/-- A turn of the read loop keeps the descriptor well formed and counts what it copies. -/
theorem ufs_read_turn_keeps (f : file) (d0 : filedesc) (size : Nat) (hf : file_ok f)
    (d : filedesc) (p : Nat) (rs : Int) (out : List Nat) (d1 : filedesc) (rs1 : Int)
    (out1 : List Nat) (hk : read_keeps f d0 d) (hlen : (out.length : Int) = rs)
    (hcb : d.current_block = some p)
    (ht : ufs_read_turn f d p size rs out = .ok (.next d1 rs1 out1)) :
    read_keeps f d0 d1 ∧ (out1.length : Int) = rs1 ∧ rs ≤ rs1 ∧ (rs1 ≤ to_ssize size ∨ rs1 = rs) := by
  obtain ⟨hc, hfile, hperm, hfd⟩ := hk
  have hB := BLOCK_SIZE_eq
  have hBn := BLOCK_SIZE_toNat
  obtain ⟨b, hb, hcases⟩ := ufs_read_turn_cases f d p size rs out hf hc hcb
  obtain ⟨hm, ho1, ho2⟩ := hf.2.2 b (List.getElem?_mem hb)
  obtain ⟨hc0, hc1, hc2, hc3⟩ := hc
  rcases hcases with ⟨hoff, ht2⟩ | ⟨hoff, hz, ht2⟩ | ⟨hoff, hz, ht2⟩
  · rw [ht2] at ht
    injection ht with ht; injection ht with e1 e2 e3
    subst e1 e2 e3
    refine ⟨⟨⟨le_refl _, by show (0 : Int) ≤ BLOCK_SIZE; decide, by simp only; omega, ?_⟩,
      hfile, hperm, hfd⟩, hlen, le_refl _, Or.inr rfl⟩
    intro q hq
    simp only [block_next] at hq
    have := hc3 p hcb
    split at hq
    · cases hq; simp only; omega
    · cases hq
  · rw [ht2] at ht; cases ht
  · rw [ht2] at ht
    injection ht with ht; injection ht with e1 e2 e3
    subst e1 e2 e3
    have hch : read_chunk d.offset b.occupied size rs ≤ BLOCK_SIZE - d.offset ∧
        read_chunk d.offset b.occupied size rs ≤ to_ssize size - rs := by
      simp only [read_chunk]; omega
    refine ⟨⟨⟨by simp only; omega, by simp only; omega, hc2, ?_⟩, hfile, hperm, hfd⟩, ?_,
      by omega, Or.inl (by omega)⟩
    · intro q hq
      simpa using hc3 q hq
    · simp only [List.length_append, List.length_take, List.length_drop]
      omega

theorem read_measure_init (d : filedesc) (size : Nat) :
    read_measure d size 0 < 2 * size + 2 := by
  have := to_ssize_le size
  simp only [read_measure]
  split <;> omega

/-- The read loop on a well-formed file returns, with a count that is the number of
bytes copied, and leaves the descriptor well formed. -/
theorem ufs_read_loop_total (f : file) (d : filedesc) (size : Nat)
    (hf : file_ok f) (hc : cursor_ok f d) :
    ∃ d1 ret out, ufs_read_loop (2 * size + 2) f d size 0 [] = .ok (d1, ret, out) ∧
      read_keeps f d d1 ∧ (out.length : Int) = ret ∧ 0 ≤ ret ∧
      (ret ≤ to_ssize size ∨ ret = 0) := by
  have h := ufs_read_loop_induct f size hf
    (fun d1 rs out => read_keeps f d d1 ∧ (out.length : Int) = rs ∧ 0 ≤ rs ∧
      (rs ≤ to_ssize size ∨ rs = 0))
    (fun d1 rs out hp => hp.1.cok)
    (by
      intro d1 p rs out d2 rs2 out2 hp hlt hcb ht
      obtain ⟨hk, hl, hle, hor⟩ :=
        ufs_read_turn_keeps f d size hf d1 p rs out d2 rs2 out2 hp.1 hp.2.1 hcb ht
      exact ⟨hk, hl, by omega, by omega⟩)
    (2 * size + 2) d 0 [] ⟨⟨hc, rfl, rfl, rfl⟩, rfl, le_refl _, Or.inr rfl⟩
    (read_measure_init d size)
  obtain ⟨d1, rs1, out1, hl, ⟨hk, hlen, h0, hle⟩, _⟩ := h
  exact ⟨d1, rs1, out1, hl, hk, hlen, h0, hle⟩

/-! ## The descriptor table: counting and the slot search -/

theorem open_count_le_length (l : List (Option filedesc)) : open_count l ≤ l.length := by
  induction l with
  | nil => simp [open_count]
  | cons x rest ih => cases x <;> simp [open_count] <;> omega

theorem open_count_append_none (l : List (Option filedesc)) (n : Nat) :
    open_count (l ++ List.replicate n none) = open_count l := by
  induction l with
  | nil =>
    induction n with
    | zero => simp [open_count]
    | succ n ih => simpa [List.replicate_succ, open_count] using ih
  | cons x rest ih => cases x <;> simp [open_count, ih]

theorem ref_count_append_none (a : Nat) (l : List (Option filedesc)) (n : Nat) :
    ref_count a (l ++ List.replicate n none) = ref_count a l := by
  induction l with
  | nil =>
    induction n with
    | zero => simp [ref_count]
    | succ n ih => simpa [List.replicate_succ, ref_count] using ih
  | cons x rest ih => cases x <;> simp [ref_count, ih]

theorem open_count_set_some (l : List (Option filedesc)) (i : Nat) (d d1 : filedesc)
    (h : l[i]? = some (some d)) : open_count (l.set i (some d1)) = open_count l := by
  induction l generalizing i with
  | nil => simp at h
  | cons x rest ih =>
    cases i with
    | zero => simp at h; subst h; simp [open_count]
    | succ i =>
      simp at h
      cases x <;> simp [open_count, ih i h]

theorem ref_count_set_some (a : Nat) (l : List (Option filedesc)) (i : Nat) (d d1 : filedesc)
    (h : l[i]? = some (some d)) (hfile : d1.file = d.file) :
    ref_count a (l.set i (some d1)) = ref_count a l := by
  induction l generalizing i with
  | nil => simp at h
  | cons x rest ih =>
    cases i with
    | zero => simp at h; subst h; simp [ref_count, hfile]
    | succ i =>
      simp at h
      cases x <;> simp [ref_count, ih i h]

theorem open_count_set_none (l : List (Option filedesc)) (i : Nat) (d : filedesc)
    (h : l[i]? = some (some d)) : open_count (l.set i none) + 1 = open_count l := by
  induction l generalizing i with
  | nil => simp at h
  | cons x rest ih =>
    cases i with
    | zero => simp at h; subst h; simp [open_count]
    | succ i =>
      simp at h
      cases x <;> simp [open_count] <;> have := ih i h <;> omega

theorem ref_count_set_none (a : Nat) (l : List (Option filedesc)) (i : Nat) (d : filedesc)
    (h : l[i]? = some (some d)) :
    ref_count a (l.set i none) + (if d.file = a then 1 else 0) = ref_count a l := by
  induction l generalizing i with
  | nil => simp at h
  | cons x rest ih =>
    cases i with
    | zero => simp at h; subst h; simp [ref_count]
    | succ i =>
      simp at h
      cases x <;> simp [ref_count] <;> have := ih i h <;> omega

theorem open_count_set_new (l : List (Option filedesc)) (i : Nat) (d : filedesc)
    (h : l[i]? = some none) : open_count (l.set i (some d)) = open_count l + 1 := by
  induction l generalizing i with
  | nil => simp at h
  | cons x rest ih =>
    cases i with
    | zero => simp at h; subst h; simp [open_count]
    | succ i =>
      simp at h
      cases x <;> simp [open_count, ih i h]

theorem ref_count_set_new (a : Nat) (l : List (Option filedesc)) (i : Nat) (d : filedesc)
    (h : l[i]? = some none) :
    ref_count a (l.set i (some d)) = ref_count a l + (if d.file = a then 1 else 0) := by
  induction l generalizing i with
  | nil => simp at h
  | cons x rest ih =>
    cases i with
    | zero => simp at h; subst h; simp [ref_count]
    | succ i =>
      simp at h
      cases x <;> simp [ref_count, ih i h]; omega

theorem ref_count_pos_of_mem (a : Nat) (l : List (Option filedesc)) (i : Nat) (d : filedesc)
    (h : l[i]? = some (some d)) (hfile : d.file = a) : 0 < ref_count a l := by
  induction l generalizing i with
  | nil => simp at h
  | cons x rest ih =>
    cases i with
    | zero => simp at h; subst h; simp [ref_count, hfile]
    | succ i =>
      simp at h
      cases x <;> simp [ref_count] <;> have := ih i h <;> omega

theorem ref_count_zero (a : Nat) (l : List (Option filedesc)) (h : ref_count a l = 0)
    (i : Nat) (d : filedesc) (hd : l[i]? = some (some d)) : d.file ≠ a := by
  intro hfile
  have := ref_count_pos_of_mem a l i d hd hfile
  omega

/-- The slot search stops at a free slot when the table has one, and every slot before
it is taken. -/
theorem first_free_slot_spec (l : List (Option filedesc)) :
    (∀ j, j < first_free_slot l → ∃ d, l[j]? = some (some d)) ∧
      (first_free_slot l < l.length → l[first_free_slot l]? = some none) ∧
      first_free_slot l ≤ l.length ∧
      (open_count l < l.length → first_free_slot l < l.length) := by
  induction l with
  | nil => simp [first_free_slot, open_count]
  | cons x rest ih =>
    obtain ⟨ih1, ih2, ih3, ih4⟩ := ih
    cases x with
    | none => simp [first_free_slot]
    | some d =>
      refine ⟨?_, ?_, ?_, ?_⟩
      · intro j hj
        simp only [first_free_slot] at hj
        cases j with
        | zero => exact ⟨d, by simp⟩
        | succ j => simpa using ih1 j (by omega)
      · intro h
        simp only [first_free_slot, List.length_cons] at h ⊢
        simpa using ih2 (by omega)
      · simp only [first_free_slot, List.length_cons]; omega
      · intro h
        simp only [first_free_slot, open_count, List.length_cons] at h ⊢
        have := ih4 (by omega)
        omega

/-! ## Well-formed states are kept by the updates the entry points make -/

theorem lt_of_getElem? {α : Type} (l : List α) (i : Nat) (x : α) (h : l[i]? = some x) :
    i < l.length := by
  by_contra hn
  rw [List.getElem?_eq_none (by omega)] at h
  cases h

theorem getElem?_set_cases {α : Type} (l : List α) (i j : Nat) (a x : α)
    (h : (l.set i a)[j]? = some x) : (j = i ∧ x = a) ∨ (j ≠ i ∧ l[j]? = some x) := by
  by_cases hij : i = j
  · subst hij
    left
    have hlt : i < l.length := by
      have := lt_of_getElem? _ _ _ h
      simpa using this
    rw [List.getElem?_set_self hlt] at h
    cases h
    exact ⟨rfl, rfl⟩
  · right
    rw [List.getElem?_set_ne hij] at h
    exact ⟨fun e => hij e.symm, h⟩

theorem cursor_ok_mono (f f1 : file) (d : filedesc) (h : cursor_ok f d)
    (hlen : f.block_list.length ≤ f1.block_list.length) : cursor_ok f1 d := by
  obtain ⟨h0, h1, h2, h3⟩ := h
  refine ⟨h0, h1, h2, ?_⟩
  intro p hp
  have := h3 p hp
  omega

theorem WF_set_err (s : State) (e : ufs_error_code) (h : WF s) :
    WF { s with ufs_error_code := e } :=
  ⟨h.count_le, h.open_le, h.desc_ok, h.list_nodup, h.list_live, h.list_names, h.files_ok⟩

/-- Replacing a live file by one with the same name, reference count and removal flag
and at least as many blocks keeps the state well formed. -/
theorem WF_set_file (s : State) (a : Nat) (f f1 : file) (h : WF s)
    (ha : s.files[a]? = some (some f)) (hok : file_ok f1)
    (hname : f1.name = f.name) (hrefs : f1.refs = f.refs) (hrem : f1.is_removed = f.is_removed)
    (hlen : f.block_list.length ≤ f1.block_list.length) :
    WF { s with files := s.files.set a (some f1) } := by
  have halt : a < s.files.length := lt_of_getElem? _ _ _ ha
  have hget : ∀ b g, (s.files.set a (some f1))[b]? = some (some g) →
      (b = a ∧ g = f1) ∨ (b ≠ a ∧ s.files[b]? = some (some g)) := by
    intro b g hg
    rcases getElem?_set_cases _ _ _ _ _ hg with ⟨e1, e2⟩ | ⟨e1, e2⟩
    · left; cases e2; exact ⟨e1, rfl⟩
    · right; exact ⟨e1, e2⟩
  have hnew : (s.files.set a (some f1))[a]? = some (some f1) := List.getElem?_set_self halt
  have hold : ∀ b, b ≠ a → (s.files.set a (some f1))[b]? = s.files[b]? :=
    fun b hb => List.getElem?_set_ne (fun e => hb e.symm)
  refine ⟨h.count_le, h.open_le, ?_, h.list_nodup, ?_, ?_, ?_⟩
  · intro i d hd
    obtain ⟨hfd, g, hg, hc⟩ := h.desc_ok i d hd
    refine ⟨hfd, ?_⟩
    by_cases hda : d.file = a
    · refine ⟨f1, by simpa [hda] using hnew, ?_⟩
      rw [hda, ha] at hg
      cases hg
      exact cursor_ok_mono f f1 d hc hlen
    · exact ⟨g, by simpa [hold _ hda] using hg, hc⟩
  · intro b hb
    obtain ⟨g, hg, hr⟩ := h.list_live b hb
    by_cases hba : b = a
    · subst hba
      rw [ha] at hg
      cases hg
      exact ⟨f1, hnew, by rw [hrem]; exact hr⟩
    · exact ⟨g, by simpa [hold _ hba] using hg, hr⟩
  · intro b hb c hc g1 g2 hg1 hg2 hn
    have e1 : ∃ g, s.files[b]? = some (some g) ∧ g.name = g1.name := by
      rcases hget b g1 hg1 with ⟨e, e2⟩ | ⟨_, e2⟩
      · subst e; subst e2; exact ⟨f, ha, hname.symm⟩
      · exact ⟨g1, e2, rfl⟩
    have e2 : ∃ g, s.files[c]? = some (some g) ∧ g.name = g2.name := by
      rcases hget c g2 hg2 with ⟨e, e2⟩ | ⟨_, e2⟩
      · subst e; subst e2; exact ⟨f, ha, hname.symm⟩
      · exact ⟨g2, e2, rfl⟩
    obtain ⟨k1, hk1, hn1⟩ := e1
    obtain ⟨k2, hk2, hn2⟩ := e2
    exact h.list_names b hb c hc k1 k2 hk1 hk2 (by rw [hn1, hn2, hn])
  · intro b g hg
    rcases hget b g hg with ⟨e, e2⟩ | ⟨_, e2⟩
    · subst e; subst e2
      obtain ⟨_, hr, hl⟩ := h.files_ok b f ha
      exact ⟨hok, by rw [hrefs]; exact hr, by rw [hrem, hrefs]; exact hl⟩
    · exact h.files_ok b g e2

/-- Replacing an open descriptor by one on the same file with the same id and a cursor
within that file keeps the state well formed. -/
theorem WF_set_desc (s : State) (i : Nat) (d0 d1 : filedesc) (h : WF s)
    (hi : s.file_descriptors[i]? = some (some d0))
    (hfile : d1.file = d0.file) (hfd : d1.fd = d0.fd)
    (hc : ∀ f, s.files[d0.file]? = some (some f) → cursor_ok f d1) :
    WF { s with file_descriptors := s.file_descriptors.set i (some d1) } := by
  refine ⟨?_, ?_, ?_, h.list_nodup, h.list_live, h.list_names, ?_⟩
  · simpa using h.count_le
  · simp only [open_count_set_some _ _ _ _ hi]
    exact h.open_le
  · intro j d hd
    rcases getElem?_set_cases _ _ _ _ _ hd with ⟨e1, e2⟩ | ⟨_, e2⟩
    · cases e2
      subst e1
      obtain ⟨hfd0, g, hg, _⟩ := h.desc_ok j d0 hi
      exact ⟨by rw [hfd]; exact hfd0, g, by rw [hfile]; exact hg, hc g hg⟩
    · exact h.desc_ok j d e2
  · intro b g hg
    obtain ⟨h1, h2, h3⟩ := h.files_ok b g hg
    refine ⟨h1, ?_, h3⟩
    simp only [ref_count_set_some b _ _ _ _ hi hfile]
    exact h2

/-! ## Resolving a descriptor id and a file address -/

theorem handle_err_no_file_some (s : State) (fd : Int) (d : filedesc) (h0 : 0 ≤ fd)
    (hd : s.file_descriptors[fd.toNat]? = some (some d)) :
    handle_err_no_file s fd = .ok (some d) := by
  have hlt := lt_of_getElem? _ _ _ hd
  unfold handle_err_no_file State.file_descriptor_capacity
  rw [if_neg (by omega)]
  simp only [hd]

theorem handle_err_no_file_closed (s : State) (fd : Int) (h0 : 0 ≤ fd)
    (hd : s.file_descriptors[fd.toNat]? = some none) :
    handle_err_no_file s fd = .ok none := by
  have hlt := lt_of_getElem? _ _ _ hd
  unfold handle_err_no_file State.file_descriptor_capacity
  rw [if_neg (by omega)]
  simp only [hd]

theorem handle_err_no_file_inv (s : State) (fd : Int) (d : filedesc)
    (h : handle_err_no_file s fd = .ok (some d)) :
    0 ≤ fd ∧ s.file_descriptors[fd.toNat]? = some (some d) := by
  unfold handle_err_no_file at h
  split at h
  · cases h
  · rename_i hr
    refine ⟨by omega, ?_⟩
    split at h
    · cases h
    · cases h
    · rename_i d1 hd
      cases h
      exact hd

theorem handle_err_no_file_none_inv (s : State) (fd : Int)
    (h : handle_err_no_file s fd = .ok none) :
    fd < 0 ∨ fd > s.file_descriptor_capacity ∨ s.file_descriptors[fd.toNat]? = some none := by
  unfold handle_err_no_file at h
  split at h
  · rename_i hr
    rcases hr with hr | hr
    · exact Or.inl hr
    · exact Or.inr (Or.inl hr)
  · split at h
    · cases h
    · rename_i hd
      exact Or.inr (Or.inr hd)
    · cases h

theorem file_at_some (s : State) (a : Nat) (f : file) (h : s.files[a]? = some (some f)) :
    s.file_at a = .ok f := by
  unfold State.file_at
  simp only [h]

theorem file_at_inv (s : State) (a : Nat) (f : file) (h : s.file_at a = .ok f) :
    s.files[a]? = some (some f) := by
  unfold State.file_at at h
  split at h
  · rename_i g hg
    cases h
    exact hg
  · cases h

theorem init_keeps (f : file) (d : filedesc) (hc : cursor_ok f d) :
    cursor_ok f (init_filedesc_current_block f d) ∧
      (init_filedesc_current_block f d).file = d.file ∧
      (init_filedesc_current_block f d).permissions = d.permissions ∧
      (init_filedesc_current_block f d).fd = d.fd := by
  unfold init_filedesc_current_block
  split
  · rename_i hcond
    obtain ⟨h0, h1, h2, h3⟩ := hc
    refine ⟨⟨h0, h1, by simp only; omega, ?_⟩, rfl, rfl, rfl⟩
    intro p hp
    simp only [Option.some.injEq] at hp
    subst hp
    have hne : f.block_list ≠ [] := by
      intro e
      simp [e] at hcond
    have := List.length_pos.mpr hne
    simp only
    omega
  · exact ⟨hc, rfl, rfl, rfl⟩

/-! ## ufs_write and ufs_read keep states well formed and return -/

/-- The call ufs_write unfolded for an open descriptor on a live file. -/
theorem ufs_write_open (s : State) (fd : Int) (buf : List Nat) (d0 : filedesc) (f : file)
    (h0 : 0 ≤ fd) (hd : s.file_descriptors[fd.toNat]? = some (some d0))
    (hf : s.files[d0.file]? = some (some f)) :
    ufs_write s fd buf =
      if no_permissions (init_filedesc_current_block f d0) UFS_READ_WRITE UFS_WRITE_ONLY then
        .ok ({ s with
                file_descriptors :=
                  s.file_descriptors.set fd.toNat (some (init_filedesc_current_block f d0)),
                ufs_error_code := .UFS_ERR_NO_PERMISSION }, -1)
      else
        match ufs_write_loop (2 * buf.length + 2) f (init_filedesc_current_block f d0) buf 0 with
        | .error e => .error e
        | .ok (f1, desc1, ret, err) =>
          .ok ({ s with
                  files := s.files.set d0.file (some f1),
                  file_descriptors := s.file_descriptors.set fd.toNat (some desc1),
                  ufs_error_code := err }, ret) := by
  unfold ufs_write
  rw [handle_err_no_file_some s fd d0 h0 hd]
  simp only [file_at_some s d0.file f hf]

/-- The call ufs_read unfolded for an open descriptor on a live file. -/
theorem ufs_read_open (s : State) (fd : Int) (size : Nat) (d0 : filedesc) (f : file)
    (h0 : 0 ≤ fd) (hd : s.file_descriptors[fd.toNat]? = some (some d0))
    (hf : s.files[d0.file]? = some (some f)) :
    ufs_read s fd size =
      if no_permissions (init_filedesc_current_block f d0) UFS_READ_WRITE UFS_READ_ONLY then
        .ok ({ s with
                file_descriptors :=
                  s.file_descriptors.set fd.toNat (some (init_filedesc_current_block f d0)),
                ufs_error_code := .UFS_ERR_NO_PERMISSION }, -1, [])
      else
        match ufs_read_loop (2 * size + 2) f (init_filedesc_current_block f d0) size 0 [] with
        | .error e => .error e
        | .ok (desc1, ret, out) =>
          .ok ({ s with
                  file_descriptors := s.file_descriptors.set fd.toNat (some desc1),
                  ufs_error_code := .UFS_ERR_NO_ERR }, ret, out) := by
  unfold ufs_read
  rw [handle_err_no_file_some s fd d0 h0 hd]
  simp only [file_at_some s d0.file f hf]

/-- On a well-formed state ufs_write through an open descriptor returns and leaves a
well-formed state. -/
theorem ufs_write_valid (s : State) (fd : Int) (buf : List Nat) (d0 : filedesc) (h : WF s)
    (h0 : 0 ≤ fd) (hd : s.file_descriptors[fd.toNat]? = some (some d0)) :
    ∃ s1 ret, ufs_write s fd buf = .ok (s1, ret) ∧ WF s1 := by
  obtain ⟨_, f, hf, hc⟩ := h.desc_ok fd.toNat d0 hd
  obtain ⟨hfok, _, _⟩ := h.files_ok d0.file f hf
  obtain ⟨hic, hifile, _, hifd⟩ := init_keeps f d0 hc
  rw [ufs_write_open s fd buf d0 f h0 hd hf]
  split
  · refine ⟨_, _, rfl, ?_⟩
    refine WF_set_err _ _ (WF_set_desc s fd.toNat d0 _ h hd hifile hifd ?_)
    intro g hg
    rw [hf] at hg; cases hg
    exact hic
  · obtain ⟨f1, d1, ret, err, hl, hk, _⟩ :=
      ufs_write_loop_total f (init_filedesc_current_block f d0) buf hfok hic
    rw [hl]
    refine ⟨_, _, rfl, ?_⟩
    have h1 := WF_set_file s d0.file f f1 h hf hk.fok hk.name_eq hk.refs_eq hk.removed_eq hk.len_le
    have h2 := WF_set_desc _ fd.toNat d0 d1 h1 hd (by rw [hk.file_eq, hifile])
      (by rw [hk.fd_eq, hifd]) (by
        intro g hg
        have hlt := lt_of_getElem? _ _ _ hf
        simp only [List.getElem?_set_self hlt] at hg
        cases hg
        exact hk.cok)
    exact WF_set_err _ _ h2

/-- On a well-formed state ufs_read through an open descriptor returns and leaves a
well-formed state. -/
theorem ufs_read_valid (s : State) (fd : Int) (size : Nat) (d0 : filedesc) (h : WF s)
    (h0 : 0 ≤ fd) (hd : s.file_descriptors[fd.toNat]? = some (some d0)) :
    ∃ s1 ret out, ufs_read s fd size = .ok (s1, ret, out) ∧ WF s1 := by
  obtain ⟨_, f, hf, hc⟩ := h.desc_ok fd.toNat d0 hd
  obtain ⟨hfok, _, _⟩ := h.files_ok d0.file f hf
  obtain ⟨hic, hifile, _, hifd⟩ := init_keeps f d0 hc
  rw [ufs_read_open s fd size d0 f h0 hd hf]
  split
  · refine ⟨_, _, _, rfl, ?_⟩
    refine WF_set_err _ _ (WF_set_desc s fd.toNat d0 _ h hd hifile hifd ?_)
    intro g hg
    rw [hf] at hg; cases hg
    exact hic
  · obtain ⟨d1, ret, out, hl, hk, _⟩ :=
      ufs_read_loop_total f (init_filedesc_current_block f d0) size hfok hic
    rw [hl]
    refine ⟨_, _, _, rfl, ?_⟩
    refine WF_set_err _ _ (WF_set_desc s fd.toNat d0 d1 h hd (by rw [hk.file_eq, hifile])
      (by rw [hk.fd_eq, hifd]) ?_)
    intro g hg
    rw [hf] at hg; cases hg
    exact hk.cok

/-- Every result of ufs_write on a well-formed state is a well-formed state. -/
theorem ufs_write_WF (s : State) (fd : Int) (buf : List Nat) (s1 : State) (ret : Int)
    (h : WF s) (hr : ufs_write s fd buf = .ok (s1, ret)) : WF s1 := by
  cases hh : handle_err_no_file s fd with
  | error e => simp [ufs_write, hh] at hr
  | ok o =>
    cases o with
    | none =>
      simp only [ufs_write, hh] at hr
      cases hr
      exact WF_set_err _ _ h
    | some d0 =>
      obtain ⟨h0, hd⟩ := handle_err_no_file_inv s fd d0 hh
      obtain ⟨s2, ret2, hr2, hw⟩ := ufs_write_valid s fd buf d0 h h0 hd
      rw [hr2] at hr
      cases hr
      exact hw

/-- Every result of ufs_read on a well-formed state is a well-formed state. -/
theorem ufs_read_WF (s : State) (fd : Int) (size : Nat) (s1 : State) (ret : Int)
    (out : List Nat) (h : WF s) (hr : ufs_read s fd size = .ok (s1, ret, out)) : WF s1 := by
  cases hh : handle_err_no_file s fd with
  | error e => simp [ufs_read, hh] at hr
  | ok o =>
    cases o with
    | none =>
      simp only [ufs_read, hh] at hr
      cases hr
      exact WF_set_err _ _ h
    | some d0 =>
      obtain ⟨h0, hd⟩ := handle_err_no_file_inv s fd d0 hh
      obtain ⟨s2, ret2, out2, hr2, hw⟩ := ufs_read_valid s fd size d0 h h0 hd
      rw [hr2] at hr
      cases hr
      exact hw

/-! ## ufs_open -/

/-- The name search over linked live files: the first file with the name, or none. -/
theorem find_file_spec (s : State) (filename : String) (l : List Nat)
    (hl : ∀ a ∈ l, ∃ f, s.files[a]? = some (some f)) :
    (∃ a f, find_file s l filename = .ok (some a) ∧ a ∈ l ∧ s.files[a]? = some (some f) ∧
        f.name = filename) ∨
      (find_file s l filename = .ok none ∧
        ∀ a ∈ l, ∀ f, s.files[a]? = some (some f) → f.name ≠ filename) := by
  induction l with
  | nil => right; exact ⟨rfl, by simp⟩
  | cons a rest ih =>
    obtain ⟨f, hf⟩ := hl a (List.mem_cons_self _ _)
    have ih1 := ih (fun b hb => hl b (List.mem_cons_of_mem _ hb))
    unfold find_file
    rw [file_at_some s a f hf]
    by_cases hn : f.name = filename
    · left
      simp only [hn, if_true]
      exact ⟨a, f, rfl, List.mem_cons_self _ _, hf, hn⟩
    · simp only [hn, if_false]
      rcases ih1 with ⟨b, g, h1, h2, h3, h4⟩ | ⟨h1, h2⟩
      · left; exact ⟨b, g, h1, List.mem_cons_of_mem _ h2, h3, h4⟩
      · right
        refine ⟨h1, ?_⟩
        intro b hb g hg
        rcases List.mem_cons.mp hb with e | e
        · subst e
          rw [hf] at hg; cases hg
          exact hn
        · exact h2 b e g hg

theorem ref_count_eq_zero (a : Nat) (l : List (Option filedesc))
    (h : ∀ (i : Nat) (d : filedesc), l[i]? = some (some d) → d.file ≠ a) : ref_count a l = 0 := by
  induction l with
  | nil => rfl
  | cons x rest ih =>
    have ih1 := ih (fun i d hd => h (i + 1) d (by simpa using hd))
    cases x with
    | none => simpa [ref_count] using ih1
    | some d =>
      have := h 0 d (by simp)
      simp [ref_count, ih1, this]

/-- Linking a new empty file under a name no linked file has keeps the state well formed. -/
theorem add_file_WF (s : State) (filename : String) (h : WF s)
    (hnew : ∀ a ∈ s.file_list, ∀ f, s.files[a]? = some (some f) → f.name ≠ filename) :
    WF (add_file s filename).1 ∧ (add_file s filename).2 = s.files.length ∧
      (add_file s filename).1.files[s.files.length]? =
        some (some (new_file filename)) := by
  have hold : ∀ (b : Nat) (g : Option file), s.files[b]? = some g →
      (s.files ++ [some (new_file filename)])[b]? = some g := by
    intro b g hg
    rw [List.getElem?_append_left (lt_of_getElem? _ _ _ hg)]
    exact hg
  have hget : ∀ (b : Nat) (g : file), (s.files ++ [some (new_file filename)])[b]? = some (some g) →
      (b = s.files.length ∧ g = new_file filename) ∨ (b < s.files.length ∧ s.files[b]? = some (some g)) := by
    intro b g hg
    by_cases hb : b < s.files.length
    · right
      rw [List.getElem?_append_left hb] at hg
      exact ⟨hb, hg⟩
    · left
      have hlt := lt_of_getElem? _ _ _ hg
      simp only [List.length_append, List.length_singleton] at hlt
      have e : b = s.files.length := by omega
      subst e
      simp at hg
      exact ⟨rfl, hg.symm⟩
  have hnewcell : (s.files ++ [some (new_file filename)])[s.files.length]? =
      some (some (new_file filename)) := by simp
  refine ⟨⟨h.count_le, h.open_le, ?_, ?_, ?_, ?_, ?_⟩, rfl, hnewcell⟩
  · intro i d hd
    obtain ⟨hfd, g, hg, hc⟩ := h.desc_ok i d hd
    exact ⟨hfd, g, hold _ _ hg, hc⟩
  · show (s.file_list ++ [s.files.length]).Nodup
    rw [List.nodup_append]
    refine ⟨h.list_nodup, List.nodup_singleton _, ?_⟩
    intro b hb hb2
    obtain ⟨g, hg, _⟩ := h.list_live b hb
    have := lt_of_getElem? _ _ _ hg
    simp only [List.mem_singleton] at hb2
    omega
  · intro b hb
    simp only [add_file, List.mem_append, List.mem_singleton] at hb
    rcases hb with hb | hb
    · obtain ⟨g, hg, hr⟩ := h.list_live b hb
      exact ⟨g, hold _ _ hg, hr⟩
    · subst hb
      exact ⟨_, hnewcell, rfl⟩
  · intro b hb c hc g1 g2 hg1 hg2 hn
    simp only [add_file, List.mem_append, List.mem_singleton] at hb hc
    rcases hget b g1 hg1 with ⟨e1, e2⟩ | ⟨e1, e2⟩ <;>
      rcases hget c g2 hg2 with ⟨e3, e4⟩ | ⟨e3, e4⟩
    · rw [e1, e3]
    · exfalso
      rcases hc with hc | hc
      · refine hnew c hc g2 e4 ?_
        rw [← hn, e2]; rfl
      · omega
    · exfalso
      rcases hb with hb | hb
      · refine hnew b hb g1 e2 ?_
        rw [hn, e4]; rfl
      · omega
    · rcases hb with hb | hb
      · rcases hc with hc | hc
        · exact h.list_names b hb c hc g1 g2 e2 e4 hn
        · omega
      · omega
  · intro b g hg
    rcases hget b g hg with ⟨e1, e2⟩ | ⟨e1, e2⟩
    · subst e1; subst e2
      refine ⟨⟨rfl, by show (0 : Int) ≤ MAX_FILE_SIZE / BLOCK_SIZE; decide,
        by intro b hb; cases hb⟩, ?_, ?_⟩
      · have : ref_count s.files.length s.file_descriptors = 0 := by
          apply ref_count_eq_zero
          intro i d hd hfile
          obtain ⟨_, g, hg2, _⟩ := h.desc_ok i d hd
          have := lt_of_getElem? _ _ _ hg2
          omega
        show (0 : Int) = (ref_count s.files.length s.file_descriptors : Int)
        rw [this]; rfl
      · intro hnot
        exfalso
        apply hnot
        simp [add_file]
    · obtain ⟨h1, h2, h3⟩ := h.files_ok b g e2
      refine ⟨h1, h2, ?_⟩
      intro hnot
      apply h3
      intro hin
      apply hnot
      simp [add_file, hin]

theorem grown_table_spec (s : State) (h : WF s) :
    open_count (grown_table s) = open_count s.file_descriptors ∧
      (∀ a, ref_count a (grown_table s) = ref_count a s.file_descriptors) ∧
      s.file_descriptor_count + 1 ≤ (grown_table s).length ∧
      (∀ (j : Nat) (d : filedesc), (grown_table s)[j]? = some (some d) ↔
        s.file_descriptors[j]? = some (some d)) := by
  have h1 := h.count_le
  unfold grown_table State.file_descriptor_capacity
  split
  · refine ⟨open_count_append_none _ _, fun a => ref_count_append_none a _ _, ?_, ?_⟩
    · simp only [List.length_append, List.length_replicate]
      push_cast
      omega
    · intro j d
      by_cases hj : j < s.file_descriptors.length
      · rw [List.getElem?_append_left hj]
      · rw [List.getElem?_append_right (by omega),
          List.getElem?_eq_none (l := s.file_descriptors) (by omega), List.getElem?_replicate]
        split <;> simp
  · exact ⟨rfl, fun a => rfl, by omega, fun j d => Iff.rfl⟩

theorem fresh_desc_cursor (f f1 : file) (a : Nat) (permissions : Int) (fd : Nat)
    (hb : f1.block_list = f.block_list) : cursor_ok f1 (fresh_desc f a permissions fd) := by
  refine ⟨le_refl _, by show (0 : Int) ≤ BLOCK_SIZE; decide, ?_, ?_⟩
  · simp only [fresh_desc]; split <;> omega
  · intro p hp
    simp only [fresh_desc] at hp ⊢
    split at hp
    · cases hp
    · rename_i hne
      cases hp
      have hne2 : f.block_list ≠ [] := by
        intro e
        simp [e] at hne
      have := List.length_pos.mpr hne2
      rw [hb]
      simp only [List.isEmpty_eq_true, hne2]
      simp
      omega

/-- On a well-formed state create_filedesc on a live file returns the first free slot,
below the capacity, and leaves a well-formed state. -/
theorem create_filedesc_spec (s : State) (a : Nat) (permissions : Int) (f : file) (h : WF s)
    (hf : s.files[a]? = some (some f)) :
    first_free_slot (grown_table s) < (grown_table s).length ∧
      create_filedesc s a permissions =
        .ok ({ s with
                files := s.files.set a (some { f with refs := f.refs + 1 }),
                file_descriptors := (grown_table s).set (first_free_slot (grown_table s))
                  (some (fresh_desc f a permissions (first_free_slot (grown_table s)))),
                file_descriptor_count := s.file_descriptor_count + 1 },
              (first_free_slot (grown_table s) : Int)) ∧
      WF { s with
            files := s.files.set a (some { f with refs := f.refs + 1 }),
            file_descriptors := (grown_table s).set (first_free_slot (grown_table s))
              (some (fresh_desc f a permissions (first_free_slot (grown_table s)))),
            file_descriptor_count := s.file_descriptor_count + 1 } := by
  obtain ⟨hg1, hg2, hg3, hg4⟩ := grown_table_spec s h
  obtain ⟨hs1, hs2, hs3, hs4⟩ := first_free_slot_spec (grown_table s)
  have hopen := h.open_le
  have hlt : first_free_slot (grown_table s) < (grown_table s).length := by
    apply hs4
    omega
  have hfree := hs2 hlt
  have halt : a < s.files.length := lt_of_getElem? _ _ _ hf
  have hnew : (s.files.set a (some { f with refs := f.refs + 1 }))[a]? =
      some (some { f with refs := f.refs + 1 }) := List.getElem?_set_self halt
  have hold : ∀ b, b ≠ a → (s.files.set a (some { f with refs := f.refs + 1 }))[b]? = s.files[b]? :=
    fun b hb => List.getElem?_set_ne (fun e => hb e.symm)
  have hget : ∀ (b : Nat) (g : file),
      (s.files.set a (some { f with refs := f.refs + 1 }))[b]? = some (some g) →
      (b = a ∧ g = { f with refs := f.refs + 1 }) ∨ (b ≠ a ∧ s.files[b]? = some (some g)) := by
    intro b g hg
    rcases getElem?_set_cases _ _ _ _ _ hg with ⟨e1, e2⟩ | ⟨e1, e2⟩
    · left; cases e2; exact ⟨e1, rfl⟩
    · right; exact ⟨e1, e2⟩
  refine ⟨hlt, ?_, ?_⟩
  · unfold create_filedesc
    simp only [hlt, if_true, file_at_some s a f hf]
  · refine ⟨?_, ?_, ?_, h.list_nodup, ?_, ?_, ?_⟩
    · simp only [List.length_set]; exact hg3
    · simp only [open_count_set_new _ _ _ hfree, hg1]
      push_cast
      omega
    · intro j d hd
      rcases getElem?_set_cases _ _ _ _ _ hd with ⟨e1, e2⟩ | ⟨_, e2⟩
      · cases e2
        subst e1
        exact ⟨rfl, _, hnew, fresh_desc_cursor f _ a permissions _ rfl⟩
      · obtain ⟨hfd, g, hg, hc⟩ := h.desc_ok j d ((hg4 j d).mp e2)
        refine ⟨hfd, ?_⟩
        by_cases hda : d.file = a
        · refine ⟨_, by simpa [hda] using hnew, ?_⟩
          rw [hda, hf] at hg
          cases hg
          exact cursor_ok_mono f _ d hc (le_refl _)
        · exact ⟨g, by simpa [hold _ hda] using hg, hc⟩
    · intro b hb
      obtain ⟨g, hg, hr⟩ := h.list_live b hb
      by_cases hba : b = a
      · subst hba
        rw [hf] at hg
        cases hg
        exact ⟨_, hnew, hr⟩
      · exact ⟨g, by simpa [hold _ hba] using hg, hr⟩
    · intro b hb c hc g1 g2 hg1 hg2 hn
      have e1 : ∃ g, s.files[b]? = some (some g) ∧ g.name = g1.name := by
        rcases hget b g1 hg1 with ⟨e, e2⟩ | ⟨_, e2⟩
        · subst e; subst e2; exact ⟨f, hf, rfl⟩
        · exact ⟨g1, e2, rfl⟩
      have e2 : ∃ g, s.files[c]? = some (some g) ∧ g.name = g2.name := by
        rcases hget c g2 hg2 with ⟨e, e2⟩ | ⟨_, e2⟩
        · subst e; subst e2; exact ⟨f, hf, rfl⟩
        · exact ⟨g2, e2, rfl⟩
      obtain ⟨k1, hk1, hn1⟩ := e1
      obtain ⟨k2, hk2, hn2⟩ := e2
      exact h.list_names b hb c hc k1 k2 hk1 hk2 (by rw [hn1, hn2, hn])
    · intro b g hg
      simp only [ref_count_set_new b _ _ _ hfree, hg2]
      rcases hget b g hg with ⟨e, e2⟩ | ⟨hne, e2⟩
      · subst e; subst e2
        obtain ⟨hok, hr, hl⟩ := h.files_ok b f hf
        refine ⟨hok, ?_, ?_⟩
        · simp only [fresh_desc, if_true]
          push_cast
          omega
        · intro hnot
          have := hl hnot
          exact ⟨this.1, by simp only; omega⟩
      · obtain ⟨hok, hr, hl⟩ := h.files_ok b g e2
        refine ⟨hok, ?_, hl⟩
        simp only [fresh_desc]
        rw [if_neg (fun e => hne e.symm)]
        simpa using hr

/-- The three ways ufs_open goes on a well-formed state: the name is linked, it is not
and the create bit is clear, it is not and the create bit is set. -/
theorem ufs_open_cases (s : State) (filename : String) (flags : Int) (h : WF s) :
    (∃ a f, find_file s s.file_list filename = .ok (some a) ∧ a ∈ s.file_list ∧
        s.files[a]? = some (some f) ∧ f.name = filename ∧
        ufs_open s filename flags =
          create_filedesc { s with ufs_error_code := .UFS_ERR_NO_ERR } a (open_permissions flags)) ∨
      (find_file s s.file_list filename = .ok none ∧ needs_file_creation flags = false ∧
        ufs_open s filename flags = .ok ({ s with ufs_error_code := .UFS_ERR_NO_FILE }, -1)) ∨
      (find_file s s.file_list filename = .ok none ∧ needs_file_creation flags = true ∧
        (∀ a ∈ s.file_list, ∀ f, s.files[a]? = some (some f) → f.name ≠ filename) ∧
        ufs_open s filename flags =
          create_filedesc { (add_file s filename).1 with ufs_error_code := .UFS_ERR_NO_ERR }
            s.files.length (open_permissions flags)) := by
  have hl : ∀ a ∈ s.file_list, ∃ f, s.files[a]? = some (some f) := by
    intro a ha
    obtain ⟨f, hf, _⟩ := h.list_live a ha
    exact ⟨f, hf⟩
  rcases find_file_spec s filename s.file_list hl with ⟨a, f, h1, h2, h3, h4⟩ | ⟨h1, h2⟩
  · left
    refine ⟨a, f, h1, h2, h3, h4, ?_⟩
    simp only [ufs_open, h1]
  · right
    cases hc : needs_file_creation flags with
    | false =>
      left
      refine ⟨h1, rfl, ?_⟩
      simp [ufs_open, h1, hc]
    | true =>
      right
      refine ⟨h1, rfl, h2, ?_⟩
      simp [ufs_open, h1, hc, add_file]

/-- On a well-formed state ufs_open returns and leaves a well-formed state. -/
theorem ufs_open_valid (s : State) (filename : String) (flags : Int) (h : WF s) :
    ∃ s1 ret, ufs_open s filename flags = .ok (s1, ret) ∧ WF s1 := by
  rcases ufs_open_cases s filename flags h with
    ⟨a, f, _, _, hf, _, ho⟩ | ⟨_, _, ho⟩ | ⟨_, _, hnew, ho⟩
  · obtain ⟨_, hc, hw⟩ := create_filedesc_spec { s with ufs_error_code := .UFS_ERR_NO_ERR } a
      (open_permissions flags) f (WF_set_err s _ h) hf
    rw [ho, hc]
    exact ⟨_, _, rfl, hw⟩
  · rw [ho]
    exact ⟨_, _, rfl, WF_set_err s _ h⟩
  · obtain ⟨hw1, _, hcell⟩ := add_file_WF s filename h hnew
    obtain ⟨_, hc, hw⟩ := create_filedesc_spec
      { (add_file s filename).1 with ufs_error_code := .UFS_ERR_NO_ERR } s.files.length
      (open_permissions flags) (new_file filename) (WF_set_err _ _ hw1) hcell
    rw [ho, hc]
    exact ⟨_, _, rfl, hw⟩

theorem ufs_open_WF (s : State) (filename : String) (flags : Int) (s1 : State) (ret : Int)
    (h : WF s) (hr : ufs_open s filename flags = .ok (s1, ret)) : WF s1 := by
  obtain ⟨s2, ret2, hr2, hw⟩ := ufs_open_valid s filename flags h
  rw [hr2] at hr
  cases hr
  exact hw

/-! ## ufs_close and ufs_delete -/

/-- The call ufs_close unfolded for an open descriptor on a live file. -/
theorem ufs_close_open (s : State) (fd : Int) (d : filedesc) (f : file)
    (h0 : 0 ≤ fd) (hd : s.file_descriptors[fd.toNat]? = some (some d))
    (hf : s.files[d.file]? = some (some f)) :
    ufs_close s fd =
      .ok ({ s with
              files :=
                if f.is_removed = true ∧ f.refs - 1 = 0 then s.files.set d.file none
                else s.files.set d.file (some { f with refs := f.refs - 1 }),
              file_descriptors := s.file_descriptors.set fd.toNat none,
              ufs_error_code := .UFS_ERR_NO_ERR }, 0) := by
  unfold ufs_close
  rw [handle_err_no_file_some s fd d h0 hd]
  simp only [file_at_some s d.file f hf, free_file]
  split <;> simp

/-- Closing an open descriptor of a well-formed state leaves a well-formed state. -/
theorem ufs_close_valid (s : State) (fd : Int) (d : filedesc) (h : WF s)
    (h0 : 0 ≤ fd) (hd : s.file_descriptors[fd.toNat]? = some (some d)) :
    ∃ s1, ufs_close s fd = .ok (s1, 0) ∧ WF s1 := by
  obtain ⟨_, f, hf, hc⟩ := h.desc_ok fd.toNat d hd
  rw [ufs_close_open s fd d f h0 hd hf]
  refine ⟨_, rfl, ?_⟩
  obtain ⟨hok, hrefs, hunl⟩ := h.files_ok d.file f hf
  have halt : d.file < s.files.length := lt_of_getElem? _ _ _ hf
  have hrc := ref_count_set_none d.file s.file_descriptors fd.toNat d hd
  rw [if_pos rfl] at hrc
  by_cases hfree : f.is_removed = true ∧ f.refs - 1 = 0
  · -- the file is released
    simp only [hfree, and_self, if_true]
    have hz : ref_count d.file (s.file_descriptors.set fd.toNat none) = 0 := by omega
    have hnotin : d.file ∉ s.file_list := by
      intro hin
      obtain ⟨g, hg, hr⟩ := h.list_live d.file hin
      rw [hf] at hg; cases hg
      rw [hfree.1] at hr; cases hr
    have hget : ∀ (b : Nat) (g : file), (s.files.set d.file none)[b]? = some (some g) →
        b ≠ d.file ∧ s.files[b]? = some (some g) := by
      intro b g hg
      rcases getElem?_set_cases _ _ _ _ _ hg with ⟨_, e2⟩ | ⟨e1, e2⟩
      · cases e2
      · exact ⟨e1, e2⟩
    have hold : ∀ b, b ≠ d.file → (s.files.set d.file none)[b]? = s.files[b]? :=
      fun b hb => List.getElem?_set_ne (fun e => hb e.symm)
    refine ⟨?_, ?_, ?_, h.list_nodup, ?_, ?_, ?_⟩
    · simpa using h.count_le
    · have := open_count_set_none _ _ _ hd
      have := h.open_le
      show ((open_count (s.file_descriptors.set fd.toNat none) : Nat) : Int) ≤
        s.file_descriptor_count
      omega
    · intro j e he
      rcases getElem?_set_cases _ _ _ _ _ he with ⟨_, e2⟩ | ⟨_, e2⟩
      · cases e2
      · obtain ⟨hfd, g, hg, hcur⟩ := h.desc_ok j e e2
        have hne : e.file ≠ d.file := ref_count_zero _ _ hz j e he
        exact ⟨hfd, g, by rw [hold _ hne]; exact hg, hcur⟩
    · intro b hb
      obtain ⟨g, hg, hr⟩ := h.list_live b hb
      have hne : b ≠ d.file := fun e => hnotin (e ▸ hb)
      exact ⟨g, by rw [hold _ hne]; exact hg, hr⟩
    · intro b hb c hc g1 g2 hg1 hg2 hn
      exact h.list_names b hb c hc g1 g2 (hget _ _ hg1).2 (hget _ _ hg2).2 hn
    · intro b g hg
      obtain ⟨hne, hg0⟩ := hget b g hg
      obtain ⟨h1, h2, h3⟩ := h.files_ok b g hg0
      refine ⟨h1, ?_, h3⟩
      have := ref_count_set_none b s.file_descriptors fd.toNat d hd
      rw [if_neg (fun e => hne e.symm)] at this
      show g.refs = ((ref_count b (s.file_descriptors.set fd.toNat none) : Nat) : Int)
      omega
  · -- the file stays
    simp only [hfree, if_false]
    have h1 := WF_set_err s .UFS_ERR_NO_ERR h
    have hnew : (s.files.set d.file (some { f with refs := f.refs - 1 }))[d.file]? =
        some (some { f with refs := f.refs - 1 }) := List.getElem?_set_self halt
    have hold : ∀ b, b ≠ d.file →
        (s.files.set d.file (some { f with refs := f.refs - 1 }))[b]? = s.files[b]? :=
      fun b hb => List.getElem?_set_ne (fun e => hb e.symm)
    have hget : ∀ (b : Nat) (g : file),
        (s.files.set d.file (some { f with refs := f.refs - 1 }))[b]? = some (some g) →
        (b = d.file ∧ g = { f with refs := f.refs - 1 }) ∨
          (b ≠ d.file ∧ s.files[b]? = some (some g)) := by
      intro b g hg
      rcases getElem?_set_cases _ _ _ _ _ hg with ⟨e1, e2⟩ | ⟨e1, e2⟩
      · left; cases e2; exact ⟨e1, rfl⟩
      · right; exact ⟨e1, e2⟩
    refine ⟨?_, ?_, ?_, h.list_nodup, ?_, ?_, ?_⟩
    · simpa using h.count_le
    · have := open_count_set_none _ _ _ hd
      have := h.open_le
      show ((open_count (s.file_descriptors.set fd.toNat none) : Nat) : Int) ≤
        s.file_descriptor_count
      omega
    · intro j e he
      rcases getElem?_set_cases _ _ _ _ _ he with ⟨_, e2⟩ | ⟨_, e2⟩
      · cases e2
      · obtain ⟨hfd, g, hg, hcur⟩ := h.desc_ok j e e2
        refine ⟨hfd, ?_⟩
        by_cases hda : e.file = d.file
        · refine ⟨_, by simpa [hda] using hnew, ?_⟩
          rw [hda, hf] at hg
          cases hg
          exact cursor_ok_mono f _ e hcur (le_refl _)
        · exact ⟨g, by simpa [hold _ hda] using hg, hcur⟩
    · intro b hb
      obtain ⟨g, hg, hr⟩ := h.list_live b hb
      by_cases hba : b = d.file
      · subst hba
        rw [hf] at hg
        cases hg
        exact ⟨_, hnew, hr⟩
      · exact ⟨g, by simpa [hold _ hba] using hg, hr⟩
    · intro b hb c hc g1 g2 hg1 hg2 hn
      have e1 : ∃ g, s.files[b]? = some (some g) ∧ g.name = g1.name := by
        rcases hget b g1 hg1 with ⟨e, e2⟩ | ⟨_, e2⟩
        · subst e; subst e2; exact ⟨f, hf, rfl⟩
        · exact ⟨g1, e2, rfl⟩
      have e2 : ∃ g, s.files[c]? = some (some g) ∧ g.name = g2.name := by
        rcases hget c g2 hg2 with ⟨e, e2⟩ | ⟨_, e2⟩
        · subst e; subst e2; exact ⟨f, hf, rfl⟩
        · exact ⟨g2, e2, rfl⟩
      obtain ⟨k1, hk1, hn1⟩ := e1
      obtain ⟨k2, hk2, hn2⟩ := e2
      exact h.list_names b hb c hc k1 k2 hk1 hk2 (by rw [hn1, hn2, hn])
    · intro b g hg
      rcases hget b g hg with ⟨e, e2⟩ | ⟨hne, e2⟩
      · subst e; subst e2
        refine ⟨hok, ?_, ?_⟩
        · show f.refs - 1 = ((ref_count d.file (s.file_descriptors.set fd.toNat none) : Nat) : Int)
          omega
        · intro hnot
          have hu := hunl hnot
          refine ⟨hu.1, ?_⟩
          show 0 < f.refs - 1
          have : f.refs - 1 ≠ 0 := fun e => hfree ⟨hu.1, e⟩
          omega
      · obtain ⟨h1, h2, h3⟩ := h.files_ok b g e2
        refine ⟨h1, ?_, h3⟩
        have := ref_count_set_none b s.file_descriptors fd.toNat d hd
        rw [if_neg (fun e => hne e.symm)] at this
        show g.refs = ((ref_count b (s.file_descriptors.set fd.toNat none) : Nat) : Int)
        omega

theorem ufs_close_WF (s : State) (fd : Int) (s1 : State) (ret : Int)
    (h : WF s) (hr : ufs_close s fd = .ok (s1, ret)) : WF s1 := by
  cases hh : handle_err_no_file s fd with
  | error e => simp [ufs_close, hh] at hr
  | ok o =>
    cases o with
    | none =>
      simp only [ufs_close, hh] at hr
      cases hr
      exact WF_set_err _ _ h
    | some d0 =>
      obtain ⟨h0, hd⟩ := handle_err_no_file_inv s fd d0 hh
      obtain ⟨s2, hr2, hw⟩ := ufs_close_valid s fd d0 h h0 hd
      rw [hr2] at hr
      cases hr
      exact hw

/-- The call ufs_delete unfolded for a linked name. -/
theorem ufs_delete_found (s : State) (filename : String) (a : Nat) (f : file)
    (hfind : find_file s s.file_list filename = .ok (some a))
    (hf : s.files[a]? = some (some f)) :
    ufs_delete s filename =
      .ok ({ s with
              files :=
                if f.refs = 0 then s.files.set a none
                else s.files.set a (some { f with is_removed := true }),
              file_list := s.file_list.erase a,
              ufs_error_code := .UFS_ERR_NO_ERR }, 0) := by
  unfold ufs_delete
  simp only [hfind, file_at_some s a f hf, free_file]
  split <;> simp

/-- Deleting a linked name of a well-formed state leaves a well-formed state. -/
theorem ufs_delete_valid (s : State) (filename : String) (a : Nat) (f : file) (h : WF s)
    (hfind : find_file s s.file_list filename = .ok (some a)) (hin : a ∈ s.file_list)
    (hf : s.files[a]? = some (some f)) :
    ∃ s1, ufs_delete s filename = .ok (s1, 0) ∧ WF s1 := by
  rw [ufs_delete_found s filename a f hfind hf]
  refine ⟨_, rfl, ?_⟩
  obtain ⟨hok, hrefs, hunl⟩ := h.files_ok a f hf
  have halt : a < s.files.length := lt_of_getElem? _ _ _ hf
  have hmem : ∀ b, b ∈ s.file_list.erase a ↔ b ≠ a ∧ b ∈ s.file_list :=
    fun b => h.list_nodup.mem_erase_iff
  by_cases hz : f.refs = 0
  · simp only [hz, if_true]
    have hrc : ref_count a s.file_descriptors = 0 := by omega
    have hget : ∀ (b : Nat) (g : file), (s.files.set a none)[b]? = some (some g) →
        b ≠ a ∧ s.files[b]? = some (some g) := by
      intro b g hg
      rcases getElem?_set_cases _ _ _ _ _ hg with ⟨_, e2⟩ | ⟨e1, e2⟩
      · cases e2
      · exact ⟨e1, e2⟩
    have hold : ∀ b, b ≠ a → (s.files.set a none)[b]? = s.files[b]? :=
      fun b hb => List.getElem?_set_ne (fun e => hb e.symm)
    refine ⟨h.count_le, h.open_le, ?_, h.list_nodup.erase a, ?_, ?_, ?_⟩
    · intro j e he
      obtain ⟨hfd, g, hg, hcur⟩ := h.desc_ok j e he
      have hne : e.file ≠ a := ref_count_zero _ _ hrc j e he
      exact ⟨hfd, g, by rw [hold _ hne]; exact hg, hcur⟩
    · intro b hb
      obtain ⟨hne, hb2⟩ := (hmem b).mp hb
      obtain ⟨g, hg, hr⟩ := h.list_live b hb2
      exact ⟨g, by rw [hold _ hne]; exact hg, hr⟩
    · intro b hb c hc g1 g2 hg1 hg2 hn
      exact h.list_names b ((hmem b).mp hb).2 c ((hmem c).mp hc).2 g1 g2
        (hget _ _ hg1).2 (hget _ _ hg2).2 hn
    · intro b g hg
      obtain ⟨hne, hg0⟩ := hget b g hg
      obtain ⟨h1, h2, h3⟩ := h.files_ok b g hg0
      refine ⟨h1, h2, ?_⟩
      intro hnot
      apply h3
      intro hb
      exact hnot ((hmem b).mpr ⟨hne, hb⟩)
  · simp only [hz, if_false]
    have hnew : (s.files.set a (some { f with is_removed := true }))[a]? =
        some (some { f with is_removed := true }) := List.getElem?_set_self halt
    have hold : ∀ b, b ≠ a →
        (s.files.set a (some { f with is_removed := true }))[b]? = s.files[b]? :=
      fun b hb => List.getElem?_set_ne (fun e => hb e.symm)
    have hget : ∀ (b : Nat) (g : file),
        (s.files.set a (some { f with is_removed := true }))[b]? = some (some g) →
        (b = a ∧ g = { f with is_removed := true }) ∨ (b ≠ a ∧ s.files[b]? = some (some g)) := by
      intro b g hg
      rcases getElem?_set_cases _ _ _ _ _ hg with ⟨e1, e2⟩ | ⟨e1, e2⟩
      · left; cases e2; exact ⟨e1, rfl⟩
      · right; exact ⟨e1, e2⟩
    refine ⟨h.count_le, h.open_le, ?_, h.list_nodup.erase a, ?_, ?_, ?_⟩
    · intro j e he
      obtain ⟨hfd, g, hg, hcur⟩ := h.desc_ok j e he
      refine ⟨hfd, ?_⟩
      by_cases hda : e.file = a
      · refine ⟨_, by simpa [hda] using hnew, ?_⟩
        rw [hda, hf] at hg
        cases hg
        exact cursor_ok_mono f _ e hcur (le_refl _)
      · exact ⟨g, by simpa [hold _ hda] using hg, hcur⟩
    · intro b hb
      obtain ⟨hne, hb2⟩ := (hmem b).mp hb
      obtain ⟨g, hg, hr⟩ := h.list_live b hb2
      exact ⟨g, by rw [hold _ hne]; exact hg, hr⟩
    · intro b hb c hc g1 g2 hg1 hg2 hn
      obtain ⟨hne1, hb2⟩ := (hmem b).mp hb
      obtain ⟨hne2, hc2⟩ := (hmem c).mp hc
      rw [hold _ hne1] at hg1
      rw [hold _ hne2] at hg2
      exact h.list_names b hb2 c hc2 g1 g2 hg1 hg2 hn
    · intro b g hg
      rcases hget b g hg with ⟨e, e2⟩ | ⟨hne, e2⟩
      · subst e; subst e2
        refine ⟨hok, hrefs, ?_⟩
        intro _
        refine ⟨rfl, ?_⟩
        show 0 < f.refs
        omega
      · obtain ⟨h1, h2, h3⟩ := h.files_ok b g e2
        refine ⟨h1, h2, ?_⟩
        intro hnot
        apply h3
        intro hb
        exact hnot ((hmem b).mpr ⟨hne, hb⟩)

theorem ufs_delete_WF (s : State) (filename : String) (s1 : State) (ret : Int)
    (h : WF s) (hr : ufs_delete s filename = .ok (s1, ret)) : WF s1 := by
  have hl : ∀ a ∈ s.file_list, ∃ f, s.files[a]? = some (some f) := by
    intro a ha
    obtain ⟨f, hf, _⟩ := h.list_live a ha
    exact ⟨f, hf⟩
  rcases find_file_spec s filename s.file_list hl with ⟨a, f, h1, h2, h3, _⟩ | ⟨h1, _⟩
  · obtain ⟨s2, hr2, hw⟩ := ufs_delete_valid s filename a f h h1 h2 h3
    rw [hr2] at hr
    cases hr
    exact hw
  · simp only [ufs_delete, h1] at hr
    cases hr
    exact WF_set_err _ _ h

/-! ## ufs_resize -/

theorem grow_blocks_spec (n : Nat) (f : file) :
    (grow_blocks n f).block_list = f.block_list ++ List.replicate n zero_block ∧
      (grow_blocks n f).blocks_count = f.blocks_count + n ∧
      (grow_blocks n f).name = f.name ∧ (grow_blocks n f).refs = f.refs ∧
      (grow_blocks n f).is_removed = f.is_removed := by
  induction n generalizing f with
  | zero => simp [grow_blocks]
  | succ n ih =>
    obtain ⟨h1, h2, h3, h4, h5⟩ := ih (add_block f)
    simp only [grow_blocks]
    refine ⟨?_, ?_, ?_, ?_, ?_⟩
    · rw [h1, add_block_list, List.replicate_succ, List.append_assoc]
      rfl
    · rw [h2]
      simp only [add_block]
      push_cast
      omega
    · rw [h3]; rfl
    · rw [h4]; rfl
    · rw [h5]; rfl

theorem grow_blocks_ok (n : Nat) (f : file) (hf : file_ok f)
    (hle : f.blocks_count + n ≤ MAX_FILE_SIZE / BLOCK_SIZE) : file_ok (grow_blocks n f) := by
  obtain ⟨h1, h2, h3, _, _⟩ := grow_blocks_spec n f
  obtain ⟨g1, g2, g3⟩ := hf
  refine ⟨?_, ?_, ?_⟩
  · rw [h1, h2, g1]
    simp
  · rw [h2]; exact hle
  · intro b hb
    rw [h1] at hb
    rcases List.mem_append.mp hb with hb | hb
    · exact g3 b hb
    · rw [List.eq_of_mem_replicate hb]
      exact zero_block_ok

/-- The shrinking loop on a non-empty chain keeps the first blocks, at least one. -/
theorem shrink_blocks_spec (n : Nat) (f : file) (hne : f.block_list ≠ []) :
    ∃ f1, shrink_blocks n f = .ok f1 ∧
      f1.block_list = f.block_list.take (max 1 (f.block_list.length - n)) ∧
      f1.blocks_count = f.blocks_count - (f.block_list.length - max 1 (f.block_list.length - n) : Nat) ∧
      f1.name = f.name ∧ f1.refs = f.refs ∧ f1.is_removed = f.is_removed := by
  induction n generalizing f with
  | zero =>
    refine ⟨f, rfl, ?_, ?_, rfl, rfl, rfl⟩
    · have := List.length_pos.mpr hne
      rw [List.take_of_length_le]
      simp only [Nat.sub_zero]
      omega
    · have := List.length_pos.mpr hne
      simp only [Nat.sub_zero]
      have e : max 1 f.block_list.length = f.block_list.length := by omega
      rw [e]
      simp
  | succ n ih =>
    match hl : f.block_list with
    | [] => exact absurd hl hne
    | [b] =>
      obtain ⟨f1, h1, h2, h3, h4, h5, h6⟩ := ih f hne
      refine ⟨f1, ?_, ?_, ?_, h4, h5, h6⟩
      · unfold shrink_blocks
        simp only [hl]
        exact h1
      · rw [h2, hl]
        simp
      · rw [h3, hl]
        simp
    | b :: c :: rest =>
      have hne2 : f.block_list.dropLast ≠ [] := by
        simp [hl]
      obtain ⟨f1, h1, h2, h3, h4, h5, h6⟩ :=
        ih { f with
             block_list := f.block_list.dropLast,
             blocks_count := f.blocks_count - 1 } hne2
      refine ⟨f1, ?_, ?_, ?_, h4, h5, h6⟩
      · unfold shrink_blocks
        simp only [hl]
        rw [hl] at h1
        exact h1
      · rw [h2]
        simp only [List.dropLast_eq_take, List.take_take, List.length_take, hl, List.length_cons]
        congr 1
        omega
      · rw [h3]
        simp only [List.dropLast_eq_take, List.length_take, hl, List.length_cons]
        omega

theorem new_blocks_count_bounds (new_size : Nat) (h : (new_size : Int) ≤ MAX_FILE_SIZE) :
    0 ≤ new_blocks_count new_size ∧ new_blocks_count new_size ≤ MAX_FILE_SIZE / BLOCK_SIZE := by
  rw [ceiling_eq]
  rw [MAX_FILE_SIZE_eq] at h
  unfold new_blocks_count
  rw [BLOCK_SIZE_eq]
  split <;> omega

theorem occupied_remainder_bounds (new_size : Nat) :
    0 ≤ occupied_remainder new_size ∧ occupied_remainder new_size ≤ BLOCK_SIZE := by
  unfold occupied_remainder
  rw [BLOCK_SIZE_eq]
  split <;> omega

theorem set_last_occupied_spec (f : file) (r : Int) (hne : f.block_list ≠ []) :
    ∃ b, f.block_list.getLast? = some b ∧
      (set_last_occupied f r).block_list =
        f.block_list.set (f.block_list.length - 1) { b with occupied := r } ∧
      (set_last_occupied f r).blocks_count = f.blocks_count ∧
      (set_last_occupied f r).name = f.name ∧ (set_last_occupied f r).refs = f.refs ∧
      (set_last_occupied f r).is_removed = f.is_removed := by
  cases hl : f.block_list.getLast? with
  | none => simp [List.getLast?_eq_none_iff] at hl; exact absurd hl hne
  | some b =>
    refine ⟨b, rfl, ?_, ?_, ?_, ?_, ?_⟩ <;> simp [set_last_occupied, hl]

theorem set_last_occupied_last (f : file) (r : Int) (hne : f.block_list ≠ []) :
    ∃ b, (set_last_occupied f r).block_list.getLast? = some b ∧ b.occupied = r := by
  obtain ⟨b, hb, h1, _⟩ := set_last_occupied_spec f r hne
  have hpos := List.length_pos.mpr hne
  refine ⟨{ b with occupied := r }, ?_, rfl⟩
  rw [h1, List.getLast?_eq_getElem?]
  simp only [List.length_set]
  rw [List.getElem?_set_self (by omega)]

/-- The descriptor loop of ufs_resize on one open descriptor, the shrunk file `f2` having
at least one block: the descriptor stays on its file and its cursor is within `f2`. -/
theorem reclamp_desc (a : Nat) (f f2 : file) (d : filedesc)
    (hcnt : f2.blocks_count = f2.block_list.length) (hne : f2.block_list ≠ [])
    (hocc : ∀ b ∈ f2.block_list, 0 ≤ b.occupied) (hc : cursor_ok f d) :
    ∃ d1, reclamp a f2 (some d) = some d1 ∧ d1.file = d.file ∧ d1.fd = d.fd ∧
      d1.permissions = d.permissions ∧ (d.file ≠ a → d1 = d) ∧ (d.file = a → cursor_ok f2 d1) := by
  obtain ⟨h0, h1, h2, h3⟩ := hc
  have hpos := List.length_pos.mpr hne
  have hlast : ∃ b, f2.block_list.getLast? = some b ∧ 0 ≤ b.occupied := by
    cases hl : f2.block_list.getLast? with
    | none => simp [List.getLast?_eq_none_iff] at hl; exact absurd hl hne
    | some b => exact ⟨b, rfl, hocc b (List.mem_of_getLast?_eq_some hl)⟩
  obtain ⟨bl, hbl, hbl0⟩ := hlast
  have hlb : last_block f2 = some (f2.block_list.length - 1) := by
    simp [last_block, hne]
  unfold reclamp
  by_cases hfa : d.file = a
  · subst hfa
    simp only [if_true, hbl]
    by_cases hge : d.current_block_index ≥ f2.blocks_count
    · simp only [hge, if_true, hlb]
      refine ⟨_, rfl, rfl, rfl, rfl, fun hn => absurd rfl hn, fun _ => ?_⟩
      refine ⟨by simp only; omega, by simp only; omega, by simp only; omega, ?_⟩
      intro p hp
      simp only [Option.some.injEq] at hp
      subst hp
      simp only
      omega
    · simp only [hge, if_false]
      split
      · refine ⟨_, rfl, rfl, rfl, rfl, fun hn => absurd rfl hn, fun _ => ?_⟩
        refine ⟨by simp only; omega, by simp only; omega, h2, ?_⟩
        intro p hp
        have := h3 p hp
        simp only
        omega
      · refine ⟨_, rfl, rfl, rfl, rfl, fun hn => absurd rfl hn, fun _ => ?_⟩
        refine ⟨h0, h1, h2, ?_⟩
        intro p hp
        have := h3 p hp
        omega
  · simp only []
    rw [if_neg hfa]
    exact ⟨d, rfl, rfl, rfl, rfl, fun _ => rfl, fun e => absurd e hfa⟩

theorem reclamp_some (a : Nat) (f2 : file) (d : filedesc) :
    ∃ d1, reclamp a f2 (some d) = some d1 ∧ d1.file = d.file ∧ d1.fd = d.fd ∧
      d1.permissions = d.permissions := by
  unfold reclamp
  simp only []
  split
  · split
    · split <;> exact ⟨_, rfl, rfl, rfl, rfl⟩
    · split <;> exact ⟨_, rfl, rfl, rfl, rfl⟩
  · exact ⟨d, rfl, rfl, rfl, rfl⟩

theorem open_count_reclamp (a : Nat) (f2 : file) (l : List (Option filedesc)) :
    open_count (l.map (reclamp a f2)) = open_count l := by
  induction l with
  | nil => rfl
  | cons x rest ih =>
    cases x with
    | none => simpa [open_count, reclamp] using ih
    | some d =>
      obtain ⟨d1, h1, _⟩ := reclamp_some a f2 d
      simp only [List.map_cons, h1, open_count, ih]

theorem ref_count_reclamp (b a : Nat) (f2 : file) (l : List (Option filedesc)) :
    ref_count b (l.map (reclamp a f2)) = ref_count b l := by
  induction l with
  | nil => rfl
  | cons x rest ih =>
    cases x with
    | none => simpa [ref_count, reclamp] using ih
    | some d =>
      obtain ⟨d1, h1, h2, _⟩ := reclamp_some a f2 d
      simp only [List.map_cons, h1, ref_count, ih, h2]

theorem getElem?_reclamp (a : Nat) (f2 : file) (l : List (Option filedesc)) (j : Nat)
    (d1 : filedesc) (h : (l.map (reclamp a f2))[j]? = some (some d1)) :
    ∃ d, l[j]? = some (some d) ∧ reclamp a f2 (some d) = some d1 := by
  rw [List.getElem?_map] at h
  cases hl : l[j]? with
  | none => rw [hl] at h; cases h
  | some x =>
    rw [hl] at h
    cases x with
    | none => simp [reclamp] at h
    | some d =>
      refine ⟨d, rfl, ?_⟩
      simpa using h

/-- The call ufs_resize unfolded for an open descriptor on a live file and a size
within MAX_FILE_SIZE. -/
theorem ufs_resize_open (s : State) (fd : Int) (new_size : Nat) (d : filedesc) (f : file)
    (h0 : 0 ≤ fd) (hd : s.file_descriptors[fd.toNat]? = some (some d))
    (hf : s.files[d.file]? = some (some f)) (hsz : (new_size : Int) ≤ MAX_FILE_SIZE) :
    ufs_resize s fd new_size =
      if new_blocks_count new_size ≥ f.blocks_count then
        .ok ({ s with
                files := s.files.set d.file
                  (some (grow_blocks (new_blocks_count new_size - f.blocks_count).toNat f)),
                ufs_error_code := .UFS_ERR_NO_ERR }, 0)
      else
        match shrink_blocks (f.blocks_count - new_blocks_count new_size).toNat f with
        | .error e => .error e
        | .ok f1 =>
          .ok ({ s with
                  files := s.files.set d.file
                    (some (set_last_occupied f1 (occupied_remainder new_size))),
                  file_descriptors := s.file_descriptors.map
                    (reclamp d.file (set_last_occupied f1 (occupied_remainder new_size))),
                  ufs_error_code := .UFS_ERR_NO_ERR }, 0) := by
  unfold ufs_resize
  rw [handle_err_no_file_some s fd d h0 hd]
  simp only [file_at_some s d.file f hf]
  rw [if_neg (by omega)]

/-- The shrunk file of ufs_resize: well formed, with at least one and at most as many
blocks as before. -/
theorem shrunk_file_ok (f : file) (n : Nat) (r : Int) (hf : file_ok f) (hne : f.block_list ≠ [])
    (hr0 : 0 ≤ r) (hr1 : r ≤ BLOCK_SIZE) :
    ∃ f1, shrink_blocks n f = .ok f1 ∧ file_ok (set_last_occupied f1 r) ∧
      (set_last_occupied f1 r).block_list ≠ [] ∧
      (set_last_occupied f1 r).block_list.length = max 1 (f.block_list.length - n) ∧
      (set_last_occupied f1 r).name = f.name ∧ (set_last_occupied f1 r).refs = f.refs ∧
      (set_last_occupied f1 r).is_removed = f.is_removed := by
  obtain ⟨f1, h1, h2, h3, h4, h5, h6⟩ := shrink_blocks_spec n f hne
  have hpos := List.length_pos.mpr hne
  have hlen1 : f1.block_list.length = max 1 (f.block_list.length - n) := by
    rw [h2, List.length_take]
    omega
  have hne1 : f1.block_list ≠ [] := by
    intro e
    rw [e] at hlen1
    simp at hlen1
    omega
  obtain ⟨b, hb, g1, g2, g3, g4, g5⟩ := set_last_occupied_spec f1 r hne1
  obtain ⟨k1, k2, k3⟩ := hf
  have hlen2 : (set_last_occupied f1 r).block_list.length = f1.block_list.length := by
    rw [g1, List.length_set]
  refine ⟨f1, h1, ⟨?_, ?_, ?_⟩, ?_, by rw [hlen2, hlen1], by rw [g3, h4], by rw [g4, h5],
    by rw [g5, h6]⟩
  · rw [g2, h3, hlen2, hlen1, k1]
    omega
  · rw [g2, h3]
    omega
  · intro c hc
    rw [g1] at hc
    have hbm : b ∈ f.block_list := by
      have := List.mem_of_getLast?_eq_some hb
      rw [h2] at this
      exact List.mem_of_mem_take this
    rcases List.mem_or_eq_of_mem_set hc with hc | hc
    · rw [h2] at hc
      exact k3 c (List.mem_of_mem_take hc)
    · subst hc
      obtain ⟨m1, _, _⟩ := k3 b hbm
      exact ⟨m1, hr0, hr1⟩
  · intro e
    rw [e] at hlen2
    rw [← hlen2] at hlen1
    simp at hlen1
    omega

/-- On a well-formed state ufs_resize through an open descriptor returns and leaves a
well-formed state. -/
theorem ufs_resize_valid (s : State) (fd : Int) (new_size : Nat) (d : filedesc) (h : WF s)
    (h0 : 0 ≤ fd) (hd : s.file_descriptors[fd.toNat]? = some (some d)) :
    ∃ s1 ret, ufs_resize s fd new_size = .ok (s1, ret) ∧ WF s1 := by
  obtain ⟨_, f, hf, hc⟩ := h.desc_ok fd.toNat d hd
  obtain ⟨hfok, hrefs, hunl⟩ := h.files_ok d.file f hf
  by_cases hsz : (new_size : Int) ≤ MAX_FILE_SIZE
  · rw [ufs_resize_open s fd new_size d f h0 hd hf hsz]
    obtain ⟨hn0, hn1⟩ := new_blocks_count_bounds new_size hsz
    by_cases hge : new_blocks_count new_size ≥ f.blocks_count
    · rw [if_pos hge]
      refine ⟨_, _, rfl, ?_⟩
      obtain ⟨g1, g2, g3, g4, g5⟩ :=
        grow_blocks_spec (new_blocks_count new_size - f.blocks_count).toNat f
      have hok := grow_blocks_ok (new_blocks_count new_size - f.blocks_count).toNat f hfok
        (by omega)
      exact WF_set_err _ _ (WF_set_file s d.file f _ h hf hok g3 g4 g5 (by rw [g1]; simp))
    · rw [if_neg hge]
      have hne : f.block_list ≠ [] := by
        intro e
        have := hfok.1
        rw [e] at this
        simp at this
        omega
      obtain ⟨hr0, hr1⟩ := occupied_remainder_bounds new_size
      obtain ⟨f1, hs1, hok2, hne2, hlen2, hname2, hrefs2, hrem2⟩ :=
        shrunk_file_ok f (f.blocks_count - new_blocks_count new_size).toNat
          (occupied_remainder new_size) hfok hne hr0 hr1
      rw [hs1]
      refine ⟨_, _, rfl, ?_⟩
      have halt : d.file < s.files.length := lt_of_getElem? _ _ _ hf
      have hnew : (s.files.set d.file (some (set_last_occupied f1 (occupied_remainder new_size))))[d.file]? =
          some (some (set_last_occupied f1 (occupied_remainder new_size))) :=
        List.getElem?_set_self halt
      have hold : ∀ b, b ≠ d.file →
          (s.files.set d.file (some (set_last_occupied f1 (occupied_remainder new_size))))[b]? =
            s.files[b]? :=
        fun b hb => List.getElem?_set_ne (fun e => hb e.symm)
      have hget : ∀ (b : Nat) (g : file),
          (s.files.set d.file (some (set_last_occupied f1 (occupied_remainder new_size))))[b]? =
            some (some g) →
          (b = d.file ∧ g = set_last_occupied f1 (occupied_remainder new_size)) ∨
            (b ≠ d.file ∧ s.files[b]? = some (some g)) := by
        intro b g hg
        rcases getElem?_set_cases _ _ _ _ _ hg with ⟨e1, e2⟩ | ⟨e1, e2⟩
        · left; cases e2; exact ⟨e1, rfl⟩
        · right; exact ⟨e1, e2⟩
      refine ⟨?_, ?_, ?_, h.list_nodup, ?_, ?_, ?_⟩
      · simpa using h.count_le
      · simp only [open_count_reclamp]
        exact h.open_le
      · intro j e he
        obtain ⟨e0, he0, hre⟩ := getElem?_reclamp _ _ _ _ _ he
        obtain ⟨hfd, g, hg, hcur⟩ := h.desc_ok j e0 he0
        by_cases hea : e0.file = d.file
        · rw [hea, hf] at hg
          cases hg
          obtain ⟨e1, hr1, hr2, hr3, _, _, hr6⟩ := reclamp_desc d.file f
            (set_last_occupied f1 (occupied_remainder new_size)) e0 hok2.1 hne2
            (fun b hb => (hok2.2.2 b hb).2.1) hcur
          rw [hr1] at hre
          cases hre
          refine ⟨by rw [hr3]; exact hfd, _, ?_, hr6 hea⟩
          rw [hr2, hea]
          exact hnew
        · obtain ⟨e1, hr1, hr2, hr3, _, hr5, _⟩ := reclamp_desc d.file g
            (set_last_occupied f1 (occupied_remainder new_size)) e0 hok2.1 hne2
            (fun b hb => (hok2.2.2 b hb).2.1) hcur
          rw [hr1] at hre
          cases hre
          rw [hr5 hea]
          exact ⟨hfd, g, by rw [hold _ hea]; exact hg, hcur⟩
      · intro b hb
        obtain ⟨g, hg, hr⟩ := h.list_live b hb
        by_cases hba : b = d.file
        · subst hba
          rw [hf] at hg
          cases hg
          exact ⟨_, hnew, by rw [hrem2]; exact hr⟩
        · exact ⟨g, by rw [hold _ hba]; exact hg, hr⟩
      · intro b hb c hc g1 g2 hg1 hg2 hn
        have e1 : ∃ g, s.files[b]? = some (some g) ∧ g.name = g1.name := by
          rcases hget b g1 hg1 with ⟨e, e2⟩ | ⟨_, e2⟩
          · subst e; subst e2; exact ⟨f, hf, hname2.symm⟩
          · exact ⟨g1, e2, rfl⟩
        have e2 : ∃ g, s.files[c]? = some (some g) ∧ g.name = g2.name := by
          rcases hget c g2 hg2 with ⟨e, e2⟩ | ⟨_, e2⟩
          · subst e; subst e2; exact ⟨f, hf, hname2.symm⟩
          · exact ⟨g2, e2, rfl⟩
        obtain ⟨k1, hk1, hn1⟩ := e1
        obtain ⟨k2, hk2, hn2⟩ := e2
        exact h.list_names b hb c hc k1 k2 hk1 hk2 (by rw [hn1, hn2, hn])
      · intro b g hg
        simp only [ref_count_reclamp]
        rcases hget b g hg with ⟨e, e2⟩ | ⟨_, e2⟩
        · subst e; subst e2
          exact ⟨hok2, by rw [hrefs2]; exact hrefs, by rw [hrem2, hrefs2]; exact hunl⟩
        · exact h.files_ok b g e2
  · refine ⟨{ s with ufs_error_code := .UFS_ERR_NO_MEM }, -1, ?_,
      WF_set_err s .UFS_ERR_NO_MEM h⟩
    unfold ufs_resize
    rw [handle_err_no_file_some s fd d h0 hd]
    simp only []
    rw [if_pos (by omega)]

theorem ufs_resize_WF (s : State) (fd : Int) (new_size : Nat) (s1 : State) (ret : Int)
    (h : WF s) (hr : ufs_resize s fd new_size = .ok (s1, ret)) : WF s1 := by
  cases hh : handle_err_no_file s fd with
  | error e => simp [ufs_resize, hh] at hr
  | ok o =>
    cases o with
    | none =>
      simp only [ufs_resize, hh] at hr
      cases hr
      exact WF_set_err _ _ h
    | some d0 =>
      obtain ⟨h0, hd⟩ := handle_err_no_file_inv s fd d0 hh
      obtain ⟨s2, ret2, hr2, hw⟩ := ufs_resize_valid s fd new_size d0 h h0 hd
      rw [hr2] at hr
      cases hr
      exact hw

/-! ## Every reachable state is well formed -/

theorem WF_empty : WF State.empty := by
  refine ⟨by simp [State.empty], by simp [State.empty, open_count], ?_, ?_, ?_, ?_, ?_⟩
  · intro i d hd; simp [State.empty] at hd
  · simp [State.empty]
  · intro a ha; simp [State.empty] at ha
  · intro a ha; simp [State.empty] at ha
  · intro a f hf; simp [State.empty] at hf

theorem step_WF (s s1 : State) (c : Call) (h : WF s) (hs : step s c = .ok s1) : WF s1 := by
  cases c with
  | c_open filename flags =>
    simp only [step] at hs
    cases hr : ufs_open s filename flags with
    | error e => rw [hr] at hs; cases hs
    | ok r =>
      rw [hr] at hs
      cases hs
      exact ufs_open_WF s filename flags r.1 r.2 h hr
  | c_read fd size =>
    simp only [step] at hs
    cases hr : ufs_read s fd size with
    | error e => rw [hr] at hs; cases hs
    | ok r =>
      rw [hr] at hs
      cases hs
      exact ufs_read_WF s fd size r.1 r.2.1 r.2.2 h hr
  | c_write fd buf =>
    simp only [step] at hs
    cases hr : ufs_write s fd buf with
    | error e => rw [hr] at hs; cases hs
    | ok r =>
      rw [hr] at hs
      cases hs
      exact ufs_write_WF s fd buf r.1 r.2 h hr
  | c_resize fd new_size =>
    simp only [step] at hs
    cases hr : ufs_resize s fd new_size with
    | error e => rw [hr] at hs; cases hs
    | ok r =>
      rw [hr] at hs
      cases hs
      exact ufs_resize_WF s fd new_size r.1 r.2 h hr
  | c_close fd =>
    simp only [step] at hs
    cases hr : ufs_close s fd with
    | error e => rw [hr] at hs; cases hs
    | ok r =>
      rw [hr] at hs
      cases hs
      exact ufs_close_WF s fd r.1 r.2 h hr
  | c_delete filename =>
    simp only [step] at hs
    cases hr : ufs_delete s filename with
    | error e => rw [hr] at hs; cases hs
    | ok r =>
      rw [hr] at hs
      cases hs
      exact ufs_delete_WF s filename r.1 r.2 h hr

/-- Every state reachable from the initial one is well formed. -/
theorem Reachable_WF (s : State) (h : Reachable s) : WF s := by
  induction h with
  | init => exact WF_empty
  | call s s1 c _ hs ih => exact step_WF s s1 c ih hs

theorem run_Reachable (cs : List Call) (s s1 : State) (h : Reachable s)
    (hr : run s cs = .ok s1) : Reachable s1 := by
  induction cs generalizing s with
  | nil =>
    simp only [run] at hr
    cases hr
    exact h
  | cons c cs ih =>
    simp only [run] at hr
    cases hs : step s c with
    | error e => rw [hs] at hr; cases hr
    | ok s2 =>
      rw [hs] at hr
      exact ih s2 (Reachable.call s s2 c h hs) hr

/-! ## The stored bytes of a file -/

theorem block_bytes_length (b : block) (hb : block_ok b) :
    ((block_bytes b).length : Int) = b.occupied := by
  obtain ⟨h1, h2, h3⟩ := hb
  have := BLOCK_SIZE_toNat
  have := BLOCK_SIZE_eq
  simp only [block_bytes, List.length_take]
  omega

theorem full_bytes_length (l : List block) (hfull : all_full l) (hok : ∀ b ∈ l, block_ok b) :
    (((l.map block_bytes).flatten.length : Nat) : Int) = BLOCK_SIZE * l.length := by
  induction l with
  | nil => simp
  | cons b rest ih =>
    have h1 := ih (fun c hc => hfull c (List.mem_cons_of_mem _ hc))
      (fun c hc => hok c (List.mem_cons_of_mem _ hc))
    have h2 := block_bytes_length b (hok b (List.mem_cons_self _ _))
    have h3 := hfull b (List.mem_cons_self _ _)
    simp only [List.map_cons, List.flatten_cons, List.length_append, List.length_cons]
    push_cast
    rw [h1, h2, h3]
    ring

theorem split_at (l : List block) (p : Nat) (b : block) (h : l[p]? = some b) :
    l = l.take p ++ b :: l.drop (p + 1) := by
  induction l generalizing p with
  | nil => simp at h
  | cons x rest ih =>
    cases p with
    | zero => simp at h; simp [h]
    | succ p =>
      simp at h
      simp only [List.take_succ_cons, List.drop_succ_cons, List.cons_append]
      rw [← ih p h]

theorem dense_take (l : List block) (p : Nat) (hd : dense l) (hp : p < l.length) :
    all_full (l.take p) := by
  intro b hb
  apply hd b
  rw [List.dropLast_eq_take]
  have : l.take p = (l.take (l.length - 1)).take p := by
    rw [List.take_take]
    congr 1
    omega
  rw [this] at hb
  exact List.mem_of_mem_take hb

/-- The bytes of a file around the block at position `p`: the full blocks before it
hold `BLOCK_SIZE * p` bytes. -/
theorem contents_split (f : file) (p : Nat) (b : block) (hf : file_ok f) (hd : dense f.block_list)
    (h : f.block_list[p]? = some b) :
    contents f = ((f.block_list.take p).map block_bytes).flatten ++ block_bytes b ++
        ((f.block_list.drop (p + 1)).map block_bytes).flatten ∧
      ((((f.block_list.take p).map block_bytes).flatten.length : Nat) : Int) = BLOCK_SIZE * p := by
  have hp := lt_of_getElem? _ _ _ h
  refine ⟨?_, ?_⟩
  · have hs := split_at f.block_list p b h
    unfold contents
    conv_lhs => rw [hs]
    simp
  · have := full_bytes_length (f.block_list.take p) (dense_take _ p hd hp)
      (fun c hc => hf.2.2 c (List.mem_of_mem_take hc))
    rw [this, List.length_take]
    congr 1
    omega

theorem dense_snoc (l : List block) (b : block) (h : all_full l) : dense (l ++ [b]) := by
  unfold dense
  rw [List.dropLast_concat]
  exact h

theorem dense_set_last (l : List block) (p : Nat) (b : block) (h : dense l)
    (hp : p + 1 = l.length) : dense (l.set p b) := by
  unfold dense at h ⊢
  rw [List.dropLast_eq_take, List.length_set]
  rw [List.dropLast_eq_take] at h
  have e : l.length - 1 = p := by omega
  rw [e] at h ⊢
  rw [List.set_take, List.set_eq_of_length_le (by simp)]
  exact h

/-! ## Writing at the end of a file appends -/

theorem written_block_bytes (b : block) (buf : List Nat) (ws : Int) (hb : block_ok b)
    (hoff : b.occupied < BLOCK_SIZE) (h0 : 0 ≤ ws) (hlt : ws < to_ssize buf.length) :
    block_bytes (written_block b b.occupied buf ws) =
        block_bytes b ++ (buf.drop ws.toNat).take (write_chunk b.occupied buf ws).toNat ∧
      (written_block b b.occupied buf ws).occupied = b.occupied + write_chunk b.occupied buf ws := by
  obtain ⟨hm, ho0, ho1⟩ := hb
  have hB := BLOCK_SIZE_eq
  have hBn := BLOCK_SIZE_toNat
  have hle := to_ssize_le buf.length
  have hpos := write_chunk_pos b.occupied buf ws hoff hlt
  have hcl := write_chunk_le b.occupied buf ws
  have hocc : (written_block b b.occupied buf ws).occupied =
      b.occupied + write_chunk b.occupied buf ws := by
    simp only [written_block, write_chunk] at hpos ⊢
    omega
  refine ⟨?_, hocc⟩
  unfold block_bytes
  rw [hocc]
  simp only [written_block]
  have hlen : (List.take b.occupied.toNat b.memory ++
      List.take (write_chunk b.occupied buf ws).toNat (List.drop ws.toNat buf)).length =
      (b.occupied + write_chunk b.occupied buf ws).toNat := by
    simp only [List.length_append, List.length_take, List.length_drop]
    omega
  show List.take _ (List.take b.occupied.toNat b.memory ++
      List.take (write_chunk b.occupied buf ws).toNat (List.drop ws.toNat buf) ++ _) = _
  rw [← hlen, List.take_left']
  rfl

theorem take_step (buf : List Nat) (ws c : Int) (h0 : 0 ≤ ws) (hc : 0 ≤ c) :
    buf.take (ws + c).toNat = buf.take ws.toNat ++ (buf.drop ws.toNat).take c.toNat := by
  have e : (ws + c).toNat = ws.toNat + c.toNat := by omega
  rw [e, List.take_add]

theorem all_full_of_tail (l : List block) (p : Nat) (b : block) (hd : dense l)
    (hp : p + 1 = l.length) (hb : l[p]? = some b) (hfull : b.occupied = BLOCK_SIZE) :
    all_full l := by
  intro c hc
  rw [split_at l p b hb] at hc
  have hdrop : l.drop (p + 1) = [] := List.drop_eq_nil_of_le (by omega)
  rw [hdrop] at hc
  rcases List.mem_append.mp hc with h | h
  · exact dense_take l p hd (by omega) c h
  · simp only [List.mem_singleton] at h
    rw [h]; exact hfull

/-- A turn of the write loop keeps the appending invariant. -/
theorem ufs_write_turn_appending (c0 buf : List Nat) (f : file) (d : filedesc) (ws : Int)
    (f1 : file) (d1 : filedesc) (ws1 : Int) (hp : appending c0 buf f d ws)
    (hlt : ws < to_ssize buf.length)
    (ht : ufs_write_turn f d buf ws = .ok (.next f1 d1 ws1)) : appending c0 buf f1 d1 ws1 := by
  obtain ⟨hk, hle1, hle2⟩ := ufs_write_turn_keeps f d buf f d ws f1 d1 ws1
    (write_keeps_refl f d hp.fok hp.cok) hp.ws_nonneg hlt ht
  have hB := BLOCK_SIZE_eq
  have hws := hp.ws_nonneg
  rcases ufs_write_turn_cases f d buf ws hp.fok hp.cok with
    ⟨_, _, ht2⟩ | ⟨p, hcb, hoff, ht2⟩ | ⟨p, b, hcb, hb, hoff, ht2⟩ | ⟨hn, _, ht2⟩
  · rw [ht2] at ht; cases ht
  · rw [ht2] at ht
    injection ht with ht; injection ht with e1 e2 e3
    subst e1 e2 e3
    obtain ⟨hpn, b, hb, hob⟩ := hp.at_tail p hcb
    have hnext : block_next f p = none := by
      simp only [block_next]
      rw [if_neg (by omega)]
    refine ⟨hk.fok, hk.cok, hp.dns, hp.bytes, hp.ws_nonneg, hp.ws_le, ?_, ?_⟩
    · intro q hq
      simp only [hnext] at hq
      cases hq
    · intro _
      exact all_full_of_tail f.block_list p b hp.dns hpn hb (by omega)
  · rw [ht2] at ht
    injection ht with ht; injection ht with e1 e2 e3
    subst e1 e2 e3
    obtain ⟨hpn, b2, hb2, hob⟩ := hp.at_tail p hcb
    rw [hb] at hb2
    cases hb2
    have hbok := hp.fok.2.2 b (List.getElem?_mem hb)
    rw [hob] at hoff
    obtain ⟨hbytes, hocc⟩ := written_block_bytes b buf ws hbok hoff hp.ws_nonneg hlt
    have hpos := write_chunk_pos b.occupied buf ws hoff hlt
    have hdrop : f.block_list.drop (p + 1) = [] := List.drop_eq_nil_of_le (by omega)
    have hsplit := split_at f.block_list p b hb
    rw [hdrop] at hsplit
    have hset : f.block_list.set p (written_block b d.offset buf ws) =
        f.block_list.take p ++ [written_block b b.occupied buf ws] := by
      rw [hob]
      conv_lhs => rw [hsplit]
      rw [List.set_append_right _ _ (by simp)]
      simp only [List.length_take]
      have e : p - min p f.block_list.length = 0 := by omega
      rw [e]
      rfl
    refine ⟨hk.fok, hk.cok, dense_set_last _ p _ hp.dns hpn, ?_, by omega, Or.inl hle2, ?_, ?_⟩
    · have hc := hp.bytes
      unfold contents at hc ⊢
      simp only [hset]
      conv at hc => lhs; rw [hsplit]
      simp only [List.map_append, List.flatten_append, List.map_cons, List.map_nil,
        List.flatten_cons, List.flatten_nil, List.append_nil] at hc ⊢
      rw [hbytes, ← List.append_assoc, hc, hob, take_step buf ws _ hp.ws_nonneg (le_of_lt hpos),
        List.append_assoc]
    · intro q hq
      simp only at hq
      rw [hcb] at hq
      cases hq
      refine ⟨by simpa using hpn, written_block b d.offset buf ws, ?_, ?_⟩
      · simp only
        rw [List.getElem?_set_self (by omega)]
      · simp only
        rw [hob, hocc]
    · intro hq
      simp only at hq
      rw [hcb] at hq
      cases hq
  · rw [ht2] at ht
    injection ht with ht; injection ht with e1 e2 e3
    subst e1 e2 e3
    have hfull := hp.ran_off hn
    have hz : zero_block.occupied < BLOCK_SIZE := by decide
    obtain ⟨hbytes, hocc⟩ := written_block_bytes zero_block buf ws zero_block_ok hz hp.ws_nonneg hlt
    have hpos := write_chunk_pos 0 buf ws (by show (0 : Int) < BLOCK_SIZE; decide) hlt
    have hzb : block_bytes zero_block = [] := by
      simp [block_bytes, zero_block]
    have hz0 : zero_block.occupied = 0 := rfl
    rw [hz0] at hbytes hocc
    refine ⟨hk.fok, hk.cok, dense_snoc _ _ hfull, ?_, by omega, Or.inl hle2, ?_, ?_⟩
    · have hc := hp.bytes
      unfold contents at hc ⊢
      simp only [List.map_append, List.flatten_append, List.map_cons, List.map_nil,
        List.flatten_cons, List.flatten_nil, List.append_nil]
      rw [hbytes, hzb, hc, take_step buf ws _ hp.ws_nonneg (le_of_lt hpos), List.append_assoc]
      rfl
    · intro q hq
      simp only [Option.some.injEq] at hq
      subst hq
      refine ⟨by simp, written_block zero_block 0 buf ws, by simp, ?_⟩
      simp only
      rw [hocc]; simp
    · intro hq
      simp only at hq
      cases hq

/-- Writing `buf` at the end of a dense file holding `c0`, the total staying within
MAX_FILE_SIZE: the loop takes every byte and the file then holds `c0 ++ buf`. -/
theorem ufs_write_loop_append (c0 buf : List Nat) (f : file) (d : filedesc)
    (hp : appending c0 buf f d 0) (hsz : ((c0.length + buf.length : Nat) : Int) ≤ MAX_FILE_SIZE) :
    ∃ f1 d1, ufs_write_loop (2 * buf.length + 2) f d buf 0 =
        .ok (f1, d1, (buf.length : Int), .UFS_ERR_NO_ERR) ∧
      appending c0 buf f1 d1 buf.length ∧ contents f1 = c0 ++ buf ∧ write_keeps f d f1 d1 := by
  have hM := MAX_FILE_SIZE_eq
  have hL : to_ssize buf.length = buf.length := to_ssize_of_lt _ (by omega)
  have h := ufs_write_loop_induct buf
    (fun f1 d1 ws => appending c0 buf f1 d1 ws ∧ write_keeps f d f1 d1)
    (fun f1 d1 ws hq => ⟨hq.1.fok, hq.1.cok⟩)
    (by
      intro f1 d1 ws f2 d2 ws2 hq hlt ht
      exact ⟨ufs_write_turn_appending c0 buf f1 d1 ws f2 d2 ws2 hq.1 hlt ht,
        (ufs_write_turn_keeps f d buf f1 d1 ws f2 d2 ws2 hq.2 hq.1.ws_nonneg hlt ht).1⟩)
    (2 * buf.length + 2) f d 0 ⟨hp, write_keeps_refl f d hp.fok hp.cok⟩
    (write_measure_init d buf)
  obtain ⟨f1, d1, ws1, ⟨ha, hk⟩, hres⟩ := h
  rcases hres with ⟨hl, hnlt⟩ | ⟨hl, hlt, hn, hge⟩
  · have hws : ws1 = buf.length := by
      have h1 := ha.ws_nonneg
      have h2 := ha.ws_le
      omega
    subst hws
    refine ⟨f1, d1, hl, ha, ?_, hk⟩
    rw [ha.bytes]
    simp
  · exfalso
    have hfull := ha.ran_off hn
    have hlen := full_bytes_length f1.block_list hfull ha.fok.2.2
    have hb := ha.bytes
    unfold contents at hb
    rw [hb] at hlen
    simp only [List.length_append, List.length_take] at hlen
    have hcnt := ha.fok.1
    have hc := ceiling_eq
    have hB := BLOCK_SIZE_eq
    have h1 := ha.ws_nonneg
    rw [hB] at hlen
    push_cast at hlen hsz
    omega

/-! ## Reading a dense file returns its stored bytes -/

theorem dense_full (l : List block) (p : Nat) (b : block) (hd : dense l)
    (hp : p + 1 < l.length) (hb : l[p]? = some b) : b.occupied = BLOCK_SIZE := by
  apply dense_take l (p + 1) hd hp b
  rw [List.mem_iff_getElem?]
  refine ⟨p, ?_⟩
  rw [List.getElem?_take]
  simp [hb]

/-- The length of the stored bytes of a dense file whose tail block is at `p`. -/
theorem contents_length_tail (f : file) (p : Nat) (b : block) (hf : file_ok f)
    (hd : dense f.block_list) (hb : f.block_list[p]? = some b) (hp : p + 1 = f.block_list.length) :
    (((contents f).length : Nat) : Int) = BLOCK_SIZE * p + b.occupied := by
  obtain ⟨h1, h2⟩ := contents_split f p b hf hd hb
  have hdrop : f.block_list.drop (p + 1) = [] := List.drop_eq_nil_of_le (by omega)
  have hbl := block_bytes_length b (hf.2.2 b (List.getElem?_mem hb))
  rw [h1, hdrop]
  simp only [List.map_nil, List.flatten_nil, List.append_nil, List.length_append]
  push_cast
  rw [h2, hbl]

theorem contents_length_ge (f : file) (p : Nat) (b : block) (hf : file_ok f)
    (hd : dense f.block_list) (hb : f.block_list[p]? = some b) :
    BLOCK_SIZE * p + b.occupied ≤ (((contents f).length : Nat) : Int) := by
  obtain ⟨h1, h2⟩ := contents_split f p b hf hd hb
  have hbl := block_bytes_length b (hf.2.2 b (List.getElem?_mem hb))
  rw [h1]
  simp only [List.length_append]
  push_cast
  rw [h2, hbl]
  omega

/-- The bytes a copying turn of the read loop takes from the block at `p` are the
stored bytes of the file at the position of the cursor. -/
theorem contents_chunk (f : file) (p : Nat) (b : block) (off c : Int) (hf : file_ok f)
    (hd : dense f.block_list) (hb : f.block_list[p]? = some b) (h0 : 0 ≤ off) (hc0 : 0 ≤ c)
    (hc : off + c ≤ b.occupied) :
    ((contents f).drop (BLOCK_SIZE * p + off).toNat).take c.toNat =
      (b.memory.drop off.toNat).take c.toNat := by
  obtain ⟨h1, h2⟩ := contents_split f p b hf hd hb
  obtain ⟨hm, ho0, ho1⟩ := hf.2.2 b (List.getElem?_mem hb)
  have hB := BLOCK_SIZE_eq
  have hBn := BLOCK_SIZE_toNat
  have e : (BLOCK_SIZE * p + off).toNat =
      (((f.block_list.take p).map block_bytes).flatten).length + off.toNat := by omega
  rw [h1, e, List.append_assoc, List.drop_append, List.drop_append_of_le_length]
  · rw [List.take_append_of_le_length]
    · simp only [block_bytes, List.drop_take, List.take_take]
      congr 1
      omega
    · simp only [block_bytes, List.length_drop, List.length_take]
      omega
  · simp only [block_bytes, List.length_take]
    omega

/-- A turn of the read loop keeps the reading invariant. -/
theorem ufs_read_turn_reading (r0 size : Nat) (f : file) (hf : file_ok f)
    (hd : dense f.block_list) (d : filedesc) (p : Nat) (rs : Int) (out : List Nat)
    (d1 : filedesc) (rs1 : Int) (out1 : List Nat) (hr : reading r0 size f d rs out)
    (hcb : d.current_block = some p)
    (ht : ufs_read_turn f d p size rs out = .ok (.next d1 rs1 out1)) :
    reading r0 size f d1 rs1 out1 := by
  have hB := BLOCK_SIZE_eq
  obtain ⟨b, hb, hcases⟩ := ufs_read_turn_cases f d p size rs out hf hr.cok hcb
  obtain ⟨b2, hb2, hpos, hoffle⟩ := hr.at_pos p hcb
  rw [hb] at hb2
  cases hb2
  obtain ⟨hm, ho0, ho1⟩ := hf.2.2 b (List.getElem?_mem hb)
  have hlen := hr.out_eq
  have hk := ufs_read_turn_keeps f d size hf d p rs out d1 rs1 out1 ⟨hr.cok, rfl, rfl, rfl⟩
    (by
      rw [hlen, List.length_take, List.length_drop]
      have := hr.pos_le
      have := hr.rs_nonneg
      omega) hcb ht
  have hrs := hr.rs_nonneg
  rcases hcases with ⟨hoff, ht2⟩ | ⟨hoff, hz, ht2⟩ | ⟨hoff, hz, ht2⟩
  · rw [ht2] at ht
    injection ht with ht; injection ht with e1 e2 e3
    subst e1 e2 e3
    refine ⟨hk.1.cok, hrs, hr.rs_le, hr.out_eq, hr.pos_le, ?_, ?_⟩
    · intro q hq
      simp only [block_next] at hq
      split at hq
      · rename_i hlt
        cases hq
        obtain ⟨b3, hb3, _⟩ := getElem?_of_cursor f (p + 1) hlt
        refine ⟨b3, hb3, ?_, (hf.2.2 b3 (List.getElem?_mem hb3)).2.1⟩
        simp only
        rw [hB] at hpos hoff ⊢
        push_cast
        omega
      · cases hq
    · intro hq
      simp only [block_next] at hq
      split at hq
      · cases hq
      · rename_i hnlt
        have hp1 : p + 1 = f.block_list.length := by
          have := lt_of_getElem? _ _ _ hb
          omega
        have := contents_length_tail f p b hf hd hb hp1
        omega
  · rw [ht2] at ht; cases ht
  · rw [ht2] at ht
    injection ht with ht; injection ht with e1 e2 e3
    subst e1 e2 e3
    have hch : d.offset + read_chunk d.offset b.occupied size rs ≤ b.occupied ∧
        rs + read_chunk d.offset b.occupied size rs ≤ to_ssize size := by
      simp only [read_chunk]; omega
    have hge := contents_length_ge f p b hf hd hb
    have hple := hr.pos_le
    refine ⟨hk.1.cok, by omega, Or.inl hch.2, ?_, by omega, ?_, ?_⟩
    · rw [hlen]
      have hc := contents_chunk f p b d.offset (read_chunk d.offset b.occupied size rs) hf hd hb
        hr.cok.1 (le_of_lt hz) hch.1
      rw [← hc, take_step _ rs _ hrs (le_of_lt hz), List.drop_drop]
      congr 3
      omega
    · intro q hq
      simp only at hq
      rw [hcb] at hq
      cases hq
      exact ⟨b, hb, by simp only; omega, by simp only; omega⟩
    · intro hq
      simp only at hq
      rw [hcb] at hq
      cases hq

/-- Reading `size` bytes of a dense file from byte `r0` on: the loop returns the stored
bytes from `r0`, at most `size` of them, and their count. -/
theorem ufs_read_loop_dense (r0 size : Nat) (f : file) (d : filedesc) (hf : file_ok f)
    (hd : dense f.block_list) (hr : reading r0 size f d 0 []) (hsz : size < 2 ^ 63) :
    ∃ d1, ufs_read_loop (2 * size + 2) f d size 0 [] =
        .ok (d1, ((((contents f).drop r0).take size).length : Int),
          ((contents f).drop r0).take size) ∧
      read_keeps f d d1 := by
  have hL : to_ssize size = size := to_ssize_of_lt _ hsz
  have hB := BLOCK_SIZE_eq
  have h := ufs_read_loop_induct f size hf
    (fun d1 rs out => reading r0 size f d1 rs out ∧ read_keeps f d d1)
    (fun d1 rs out hq => hq.1.cok)
    (by
      intro d1 p rs out d2 rs2 out2 hq hlt hcb ht
      refine ⟨ufs_read_turn_reading r0 size f hf hd d1 p rs out d2 rs2 out2 hq.1 hcb ht, ?_⟩
      have hlen : (out.length : Int) = rs := by
        rw [hq.1.out_eq, List.length_take, List.length_drop]
        have := hq.1.pos_le
        have := hq.1.rs_nonneg
        omega
      exact (ufs_read_turn_keeps f d size hf d1 p rs out d2 rs2 out2 hq.2 hlen hcb ht).1)
    (2 * size + 2) d 0 [] ⟨hr, ⟨hr.cok, rfl, rfl, rfl⟩⟩ (read_measure_init d size)
  obtain ⟨d1, rs1, out1, hl, ⟨hq, hk⟩, hexit⟩ := h
  have h0 := hq.rs_nonneg
  have hle := hq.rs_le
  have hpl := hq.pos_le
  have hout : out1 = ((contents f).drop r0).take size := by
    rw [hq.out_eq]
    rcases hexit with hnlt | hnone | ⟨p, b, hcb, hb, hoff, hz⟩
    · congr 1
      omega
    · have := hq.at_eof hnone
      rw [List.take_of_length_le (by rw [List.length_drop]; omega),
        List.take_of_length_le (by rw [List.length_drop]; omega)]
    · obtain ⟨b2, hb2, hpos, hoffle⟩ := hq.at_pos p hcb
      rw [hb] at hb2
      cases hb2
      by_cases hlt : rs1 < to_ssize size
      · have hocc : b.occupied = d1.offset := by
          simp only [read_chunk] at hz
          omega
        have hlast : p + 1 = f.block_list.length := by
          by_contra hne
          have hp := lt_of_getElem? _ _ _ hb
          have := dense_full f.block_list p b hd (by omega) hb
          omega
        have := contents_length_tail f p b hf hd hb hlast
        rw [List.take_of_length_le (by rw [List.length_drop]; omega),
          List.take_of_length_le (by rw [List.length_drop]; omega)]
      · congr 1
        omega
  have hlen : ((((contents f).drop r0).take size).length : Int) = rs1 := by
    rw [← hout, hq.out_eq, List.length_take, List.length_drop]
    omega
  rw [hlen, ← hout]
  exact ⟨d1, hl, hk⟩

/-! ## State-level consequences: appending writes and reads from the start -/

/-- A write through a descriptor standing at the end of its dense file appends the
bytes and returns their count. -/
theorem ufs_write_append (s : State) (fd : Int) (buf c0 : List Nat) (d0 : filedesc) (f : file)
    (h0 : 0 ≤ fd) (hd : s.file_descriptors[fd.toNat]? = some (some d0))
    (hf : s.files[d0.file]? = some (some f))
    (hperm : no_permissions (init_filedesc_current_block f d0) UFS_READ_WRITE UFS_WRITE_ONLY = false)
    (hp : appending c0 buf f (init_filedesc_current_block f d0) 0)
    (hsz : ((c0.length + buf.length : Nat) : Int) ≤ MAX_FILE_SIZE) :
    ∃ f1 d1, ufs_write s fd buf =
        .ok ({ s with
                files := s.files.set d0.file (some f1),
                file_descriptors := s.file_descriptors.set fd.toNat (some d1),
                ufs_error_code := .UFS_ERR_NO_ERR }, (buf.length : Int)) ∧
      contents f1 = c0 ++ buf ∧ dense f1.block_list ∧
      write_keeps f (init_filedesc_current_block f d0) f1 d1 := by
  obtain ⟨f1, d1, hl, ha, hc, hk⟩ :=
    ufs_write_loop_append c0 buf f (init_filedesc_current_block f d0) hp hsz
  refine ⟨f1, d1, ?_, hc, ha.dns, hk⟩
  rw [ufs_write_open s fd buf d0 f h0 hd hf, hperm, hl]
  simp

/-- A read through a descriptor standing at the start of its dense file returns the
first stored bytes of the file and their count. -/
theorem ufs_read_start (s : State) (fd : Int) (size : Nat) (d0 : filedesc) (f : file)
    (h0 : 0 ≤ fd) (hd : s.file_descriptors[fd.toNat]? = some (some d0))
    (hf : s.files[d0.file]? = some (some f))
    (hperm : no_permissions (init_filedesc_current_block f d0) UFS_READ_WRITE UFS_READ_ONLY = false)
    (hfok : file_ok f) (hdn : dense f.block_list) (hc : cursor_ok f d0) (hoff : d0.offset = 0)
    (hcur : d0.current_block = none ∨ d0.current_block = some 0) (hsz : size < 2 ^ 63) :
    ∃ d1, ufs_read s fd size =
        .ok ({ s with
                file_descriptors := s.file_descriptors.set fd.toNat (some d1),
                ufs_error_code := .UFS_ERR_NO_ERR },
          ((((contents f).take size).length : Nat) : Int), (contents f).take size) := by
  obtain ⟨hic, _, _, _⟩ := init_keeps f d0 hc
  have hinit_off : (init_filedesc_current_block f d0).offset = 0 := by
    unfold init_filedesc_current_block
    split <;> exact hoff
  have hinit_cur : ((init_filedesc_current_block f d0).current_block = none ∧ f.block_list = []) ∨
      ((init_filedesc_current_block f d0).current_block = some 0 ∧ f.block_list ≠ []) := by
    unfold init_filedesc_current_block
    by_cases hempty : f.block_list = []
    · rcases hcur with hcur | hcur
      · left
        simp [hempty, hcur]
      · exfalso
        have := (hc.2.2.2 0 hcur).1
        rw [hempty] at this
        simp at this
    · right
      rcases hcur with hcur | hcur
      · simp [hempty, hcur]
      · refine ⟨?_, hempty⟩
        simp [hcur]
  have hr : reading 0 size f (init_filedesc_current_block f d0) 0 [] := by
    refine ⟨hic, le_refl _, Or.inr rfl, by simp, by simp, ?_, ?_⟩
    · intro p hp
      rcases hinit_cur with ⟨h1, _⟩ | ⟨h1, h2⟩
      · rw [h1] at hp; cases hp
      · rw [h1] at hp
        cases hp
        obtain ⟨b, hb, hbm⟩ := getElem?_of_cursor f 0 (List.length_pos.mpr h2)
        refine ⟨b, hb, ?_, ?_⟩
        · rw [hinit_off]; simp
        · rw [hinit_off]; exact (hfok.2.2 b hbm).2.1
    · intro hn
      rcases hinit_cur with ⟨_, h2⟩ | ⟨h1, _⟩
      · simp [contents, h2]
      · rw [h1] at hn; cases hn
  obtain ⟨d1, hl, _⟩ := ufs_read_loop_dense 0 size f _ hfok hdn hr hsz
  refine ⟨d1, ?_⟩
  rw [ufs_read_open s fd size d0 f h0 hd hf, hperm]
  simp only [List.drop_zero] at hl
  rw [hl]
  simp

theorem no_permissions_init (f : file) (d : filedesc) (a b : Int) :
    no_permissions (init_filedesc_current_block f d) a b = no_permissions d a b := by
  unfold init_filedesc_current_block no_permissions
  split <;> rfl

theorem no_permissions_false (d : filedesc) (a b : Int)
    (h : Int.land d.permissions (Int.lor a b) ≠ 0) : no_permissions d a b = false := by
  unfold no_permissions
  simpa using h


/-! ## C1: round trip -/

theorem first_open (name : String) :
    ufs_open State.empty name UFS_CREATE =
      .ok (one_file_state { new_file name with refs := 1 }
        (fresh_desc (new_file name) 0 UFS_READ_WRITE 0) none 1, 0) := rfl

theorem second_open (f : file) (d0 : filedesc) (name : String) (flags : Int)
    (hname : f.name = name) :
    ufs_open (one_file_state f d0 none 1) name flags =
      .ok (one_file_state { f with refs := f.refs + 1 } d0
        (some (fresh_desc f 0 (open_permissions flags) 1)) 2, 1) := by
  simp [ufs_open, hname, find_file, State.file_at, create_filedesc, grown_table, one_file_state,
    State.file_descriptor_capacity, first_free_slot]

theorem appending_fresh (buf : List Nat) (f : file) (d : filedesc) (hf : f.block_list = [])
    (hcnt : f.blocks_count = 0) (hcur : d.current_block = none) (hoff : d.offset = 0)
    (hidx : -1 ≤ d.current_block_index) : appending [] buf f d 0 := by
  refine ⟨⟨by rw [hcnt, hf]; rfl, by rw [hcnt]; decide, by rw [hf]; intro b hb; cases hb⟩,
    ⟨by rw [hoff], by rw [hoff]; decide, hidx, by rw [hcur]; intro p hp; cases hp⟩, ?_, ?_,
    le_refl _, Or.inr rfl, ?_, ?_⟩
  · rw [hf]; intro b hb; cases hb
  · simp [contents, hf]
  · rw [hcur]; intro p hp; cases hp
  · intro _; rw [hf]; intro b hb; cases hb

/-- C1 (round trip). Starting from the empty filesystem, after
`fd1 = ufs_open(name, UFS_CREATE)` and `ufs_write(fd1, d, N)` with `N ≤ MAX_FILE_SIZE`
(which returns `N`), a second descriptor on the same file whose mode permits reading
and on which nothing was read or written — opened after the write, or before it while
the file had no block — reads back `N` bytes equal to `d`. -/
theorem C1_round_trip (name : String) (d : List Nat) (flags2 : Int)
    (hN : (d.length : Int) ≤ MAX_FILE_SIZE) (hperm : permits_read flags2) :
    (∃ s1 s2 s3 s4 fd1 fd2,
        ufs_open State.empty name UFS_CREATE = .ok (s1, fd1) ∧
        ufs_write s1 fd1 d = .ok (s2, (d.length : Int)) ∧
        ufs_open s2 name flags2 = .ok (s3, fd2) ∧ fd2 ≠ fd1 ∧
        ufs_read s3 fd2 d.length = .ok (s4, (d.length : Int), d)) ∧
      (∃ s1 s2 s3 s4 fd1 fd2,
        ufs_open State.empty name UFS_CREATE = .ok (s1, fd1) ∧
        ufs_open s1 name flags2 = .ok (s2, fd2) ∧ fd2 ≠ fd1 ∧
        ufs_write s2 fd1 d = .ok (s3, (d.length : Int)) ∧
        ufs_read s3 fd2 d.length = .ok (s4, (d.length : Int), d)) := by
  have hM := MAX_FILE_SIZE_eq
  have hsz : d.length < 2 ^ 63 := by omega
  have hrw : no_permissions (fresh_desc (new_file name) 0 UFS_READ_WRITE 0) UFS_READ_WRITE
      UFS_WRITE_ONLY = false := rfl
  constructor
  · -- the second descriptor is opened after the write
    obtain ⟨f1, d1, hw, hc, hdn, hk⟩ := ufs_write_append
      (one_file_state { new_file name with refs := 1 }
        (fresh_desc (new_file name) 0 UFS_READ_WRITE 0) none 1) 0 d []
      (fresh_desc (new_file name) 0 UFS_READ_WRITE 0) { new_file name with refs := 1 }
      (le_refl _) rfl rfl (by rw [no_permissions_init]; exact hrw)
      (appending_fresh d _ _ rfl rfl rfl rfl (by show (-1 : Int) ≤ -1; decide)) (by simpa using hN)
    have hname : f1.name = name := hk.name_eq
    have ho2 := second_open f1 d1 name flags2 hname
    obtain ⟨d2, hr⟩ := ufs_read_start
      (one_file_state { f1 with refs := f1.refs + 1 } d1
        (some (fresh_desc f1 0 (open_permissions flags2) 1)) 2) 1 d.length
      (fresh_desc f1 0 (open_permissions flags2) 1) { f1 with refs := f1.refs + 1 }
      (by decide) rfl rfl
      (by rw [no_permissions_init]; exact no_permissions_false _ _ _ hperm)
      hk.fok hdn (fresh_desc_cursor f1 _ 0 _ 1 rfl) rfl
      (by simp only [fresh_desc]; split <;> simp) hsz
    have hcont : contents { f1 with refs := f1.refs + 1 } = d := by
      show contents f1 = d
      rw [hc]; rfl
    rw [hcont, List.take_length] at hr
    exact ⟨_, _, _, _, 0, 1, first_open name, hw, ho2, by decide, hr⟩
  · -- the second descriptor is opened before the write, on the file without blocks
    have ho2 := second_open { new_file name with refs := 1 }
      (fresh_desc (new_file name) 0 UFS_READ_WRITE 0) name flags2 rfl
    obtain ⟨f1, d1, hw, hc, hdn, hk⟩ := ufs_write_append
      (one_file_state { new_file name with refs := 2 }
        (fresh_desc (new_file name) 0 UFS_READ_WRITE 0)
        (some (fresh_desc { new_file name with refs := 1 } 0 (open_permissions flags2) 1)) 2)
      0 d [] (fresh_desc (new_file name) 0 UFS_READ_WRITE 0) { new_file name with refs := 2 }
      (le_refl _) rfl rfl (by rw [no_permissions_init]; exact hrw)
      (appending_fresh d _ _ rfl rfl rfl rfl (by show (-1 : Int) ≤ -1; decide)) (by simpa using hN)
    obtain ⟨d2, hr⟩ := ufs_read_start
      (one_file_state f1 d1
        (some (fresh_desc { new_file name with refs := 1 } 0 (open_permissions flags2) 1)) 2)
      1 d.length
      (fresh_desc { new_file name with refs := 1 } 0 (open_permissions flags2) 1) f1
      (by decide) rfl rfl
      (by rw [no_permissions_init]; exact no_permissions_false _ _ _ hperm)
      hk.fok hdn
      ⟨le_refl _, by show (0 : Int) ≤ BLOCK_SIZE; decide, by show (-1 : Int) ≤ -1; decide,
        by intro p hp; cases hp⟩ rfl (Or.inl rfl) hsz
    rw [hc, List.nil_append, List.take_length] at hr
    exact ⟨_, _, _, _, 0, 1, first_open name, ho2, by decide, hw, hr⟩

/-- Witness of C1: the name "f", the bytes 1, 2, 3 and a read-only second descriptor. -/
theorem C1_round_trip_witness :
    (([1, 2, 3] : List Nat).length : Int) ≤ MAX_FILE_SIZE ∧ permits_read UFS_READ_ONLY ∧
      ((∃ s1 s2 s3 s4 fd1 fd2,
        ufs_open State.empty "f" UFS_CREATE = .ok (s1, fd1) ∧
        ufs_write s1 fd1 [1, 2, 3] = .ok (s2, (([1, 2, 3] : List Nat).length : Int)) ∧
        ufs_open s2 "f" UFS_READ_ONLY = .ok (s3, fd2) ∧ fd2 ≠ fd1 ∧
        ufs_read s3 fd2 ([1, 2, 3] : List Nat).length =
          .ok (s4, (([1, 2, 3] : List Nat).length : Int), [1, 2, 3])) ∧
      (∃ s1 s2 s3 s4 fd1 fd2,
        ufs_open State.empty "f" UFS_CREATE = .ok (s1, fd1) ∧
        ufs_open s1 "f" UFS_READ_ONLY = .ok (s2, fd2) ∧ fd2 ≠ fd1 ∧
        ufs_write s2 fd1 [1, 2, 3] = .ok (s3, (([1, 2, 3] : List Nat).length : Int)) ∧
        ufs_read s3 fd2 ([1, 2, 3] : List Nat).length =
          .ok (s4, (([1, 2, 3] : List Nat).length : Int), [1, 2, 3]))) :=
  ⟨by decide, by decide, C1_round_trip "f" [1, 2, 3] UFS_READ_ONLY (by decide) (by decide)⟩

/-! ## C2: deferred deletion -/

theorem ufs_read_turn_mark (f : file) (d : filedesc) (p size : Nat) (rs : Int) (out : List Nat) :
    ufs_read_turn (mark_removed f) d p size rs out = ufs_read_turn f d p size rs out := rfl

theorem ufs_read_loop_mark (fuel : Nat) (f : file) (d : filedesc) (size : Nat) (rs : Int)
    (out : List Nat) :
    ufs_read_loop fuel (mark_removed f) d size rs out = ufs_read_loop fuel f d size rs out := by
  induction fuel generalizing d rs out with
  | zero => rfl
  | succ fuel ih =>
    unfold ufs_read_loop
    split
    · cases d.current_block with
      | none => rfl
      | some p =>
        simp only [ufs_read_turn_mark]
        cases ufs_read_turn f d p size rs out with
        | error e => rfl
        | ok r =>
          cases r with
          | stop => rfl
          | next d1 rs1 out1 => exact ih d1 rs1 out1
    · rfl

theorem ufs_write_grow_mark (f : file) (d : filedesc) :
    ufs_write_grow (mark_removed f) d =
      (ufs_write_grow f d).map (fun r => (mark_removed r.1, r.2)) := by
  unfold ufs_write_grow
  cases d.current_block with
  | some p => rfl
  | none =>
    simp only [mark_removed]
    split <;> rfl

theorem ufs_write_block_mark (f : file) (d : filedesc) (p : Nat) (buf : List Nat) (ws : Int) :
    ufs_write_block (mark_removed f) d p buf ws = mark_turn (ufs_write_block f d p buf ws) := by
  unfold ufs_write_block
  simp only [mark_removed]
  cases f.block_list[p]? with
  | none => rfl
  | some b =>
    simp only []
    split
    · rfl
    · split <;> rfl

theorem ufs_write_turn_mark (f : file) (d : filedesc) (buf : List Nat) (ws : Int) :
    ufs_write_turn (mark_removed f) d buf ws = mark_turn (ufs_write_turn f d buf ws) := by
  unfold ufs_write_turn
  rw [ufs_write_grow_mark]
  cases ufs_write_grow f d with
  | none => rfl
  | some r =>
    obtain ⟨f1, d1⟩ := r
    simp only [Option.map_some']
    cases d1.current_block with
    | none => rfl
    | some p => exact ufs_write_block_mark f1 d1 p buf ws

theorem ufs_write_loop_mark (fuel : Nat) (f : file) (d : filedesc) (buf : List Nat) (ws : Int) :
    ufs_write_loop fuel (mark_removed f) d buf ws = mark_loop (ufs_write_loop fuel f d buf ws) := by
  induction fuel generalizing f d ws with
  | zero => rfl
  | succ fuel ih =>
    unfold ufs_write_loop
    split
    · rw [ufs_write_turn_mark]
      cases ufs_write_turn f d buf ws with
      | error e => rfl
      | ok r =>
        cases r with
        | no_mem f1 d1 => rfl
        | next f1 d1 ws1 => exact ih f1 d1 ws1
    · rfl

theorem init_mark (f : file) (d : filedesc) :
    init_filedesc_current_block (mark_removed f) d = init_filedesc_current_block f d := rfl

/-- A read or write through a descriptor on a file deleted while open returns what it
returns had the file not been deleted, and leaves the same state up to the deletion. -/
theorem transfer_deleted_view (a : Nat) (s s1 : State) (fd : Int) (d0 : filedesc) (t : Transfer)
    (h : WF s) (hv : deleted_view a s s1) (h0 : 0 ≤ fd)
    (hd : s.file_descriptors[fd.toNat]? = some (some d0)) (hfile : d0.file = a) :
    ∃ s2 s3 ret out d1, transfer s fd t = .ok (s2, ret, out) ∧
      transfer s1 fd t = .ok (s3, ret, out) ∧ deleted_view a s2 s3 ∧ WF s2 ∧
      s2.file_descriptors[fd.toNat]? = some (some d1) ∧ d1.file = a := by
  obtain ⟨hv1, hv2, hv3, f, hf, hv4⟩ := hv
  subst hfile
  have halt : d0.file < s.files.length := lt_of_getElem? _ _ _ hf
  have hdlt : fd.toNat < s.file_descriptors.length := lt_of_getElem? _ _ _ hd
  have hd1 : s1.file_descriptors[fd.toNat]? = some (some d0) := by rw [hv1]; exact hd
  have hf1 : s1.files[d0.file]? = some (some (mark_removed f)) := by
    rw [hv4, List.getElem?_set_self halt]
  obtain ⟨_, g, hg, hc⟩ := h.desc_ok fd.toNat d0 hd
  rw [hf] at hg
  cases hg
  obtain ⟨hfok, _, _⟩ := h.files_ok d0.file f hf
  obtain ⟨hic, hifile, _, hifd⟩ := init_keeps f d0 hc
  cases t with
  | t_read size =>
    simp only [transfer]
    have hwf := ufs_read_WF s fd size
    rw [ufs_read_open s fd size d0 f h0 hd hf] at hwf ⊢
    rw [ufs_read_open s1 fd size d0 (mark_removed f) h0 hd1 hf1, init_mark, ufs_read_loop_mark]
    by_cases hp : no_permissions (init_filedesc_current_block f d0) UFS_READ_WRITE UFS_READ_ONLY
        = true
    · rw [if_pos hp] at hwf
      rw [if_pos hp, if_pos hp]
      refine ⟨_, _, _, _, init_filedesc_current_block f d0, rfl, rfl,
        ⟨by simp only [hv1], hv2, hv3, f, hf, hv4⟩, hwf _ _ _ h rfl, ?_, hifile⟩
      simp only
      rw [List.getElem?_set_self hdlt]
    · obtain ⟨d1, ret, out, hl, hk, _⟩ :=
        ufs_read_loop_total f (init_filedesc_current_block f d0) size hfok hic
      rw [if_neg hp, hl] at hwf
      rw [if_neg hp, if_neg hp, hl]
      refine ⟨_, _, _, _, d1, rfl, rfl, ⟨by simp only [hv1], hv2, hv3, f, hf, hv4⟩,
        hwf _ _ _ h rfl, ?_, by rw [hk.file_eq, hifile]⟩
      simp only
      rw [List.getElem?_set_self hdlt]
  | t_write buf =>
    simp only [transfer]
    have hwf := ufs_write_WF s fd buf
    rw [ufs_write_open s fd buf d0 f h0 hd hf] at hwf ⊢
    rw [ufs_write_open s1 fd buf d0 (mark_removed f) h0 hd1 hf1, init_mark, ufs_write_loop_mark]
    by_cases hp : no_permissions (init_filedesc_current_block f d0) UFS_READ_WRITE UFS_WRITE_ONLY
        = true
    · rw [if_pos hp] at hwf
      rw [if_pos hp, if_pos hp]
      refine ⟨_, _, _, _, init_filedesc_current_block f d0, rfl, rfl,
        ⟨by simp only [hv1], hv2, hv3, f, hf, hv4⟩, hwf _ _ h rfl, ?_, hifile⟩
      simp only
      rw [List.getElem?_set_self hdlt]
    · obtain ⟨f1, d1, ret, err, hl, hk, _⟩ :=
        ufs_write_loop_total f (init_filedesc_current_block f d0) buf hfok hic
      rw [if_neg hp, hl] at hwf
      rw [if_neg hp, if_neg hp, hl]
      refine ⟨_, _, _, _, d1, rfl, rfl, ⟨by simp only [hv1], hv2, hv3, f1, ?_, ?_⟩,
        hwf _ _ h rfl, ?_, by rw [hk.file_eq, hifile]⟩
      · simp only
        rw [List.getElem?_set_self halt]
      · simp only
        rw [hv4, List.set_set, List.set_set]
      · simp only
        rw [List.getElem?_set_self hdlt]

theorem transfers_deleted_view (a : Nat) (fd : Int) (ts : List Transfer) (h0 : 0 ≤ fd) :
    ∀ (s s1 : State) (d0 : filedesc), WF s → deleted_view a s s1 →
      s.file_descriptors[fd.toNat]? = some (some d0) → d0.file = a →
      ∃ s2 s3 rs d1, transfers s fd ts = .ok (s2, rs) ∧ transfers s1 fd ts = .ok (s3, rs) ∧
        deleted_view a s2 s3 ∧ WF s2 ∧
        s2.file_descriptors[fd.toNat]? = some (some d1) ∧ d1.file = a := by
  induction ts with
  | nil =>
    intro s s1 d0 h hv hd hfile
    exact ⟨s, s1, [], d0, rfl, rfl, hv, h, hd, hfile⟩
  | cons t ts ih =>
    intro s s1 d0 h hv hd hfile
    obtain ⟨s2, s3, ret, out, d1, ht, ht1, hv2, hw2, hd2, hf2⟩ :=
      transfer_deleted_view a s s1 fd d0 t h hv h0 hd hfile
    obtain ⟨s4, s5, rs, d2, hts, hts1, hv4, hw4, hd4, hf4⟩ := ih s2 s3 d1 hw2 hv2 hd2 hf2
    refine ⟨s4, s5, (ret, out) :: rs, d2, ?_, ?_, hv4, hw4, hd4, hf4⟩
    · simp only [transfers, ht, hts]
    · simp only [transfers, ht1, hts1]

theorem find_file_inv (s : State) (l : List Nat) (filename : String) (a : Nat)
    (h : find_file s l filename = .ok (some a)) :
    a ∈ l ∧ ∃ f, s.files[a]? = some (some f) ∧ f.name = filename := by
  induction l with
  | nil => simp [find_file] at h
  | cons b rest ih =>
    unfold find_file at h
    cases hb : s.file_at b with
    | error e => rw [hb] at h; cases h
    | ok f =>
      rw [hb] at h
      simp only at h
      by_cases hn : f.name = filename
      · rw [if_pos hn] at h
        cases h
        exact ⟨List.mem_cons_self _ _, f, file_at_inv s a f hb, hn⟩
      · rw [if_neg hn] at h
        obtain ⟨h1, h2⟩ := ih h
        exact ⟨List.mem_cons_of_mem _ h1, h2⟩

/-- C2 (deferred deletion). In every reachable state in which descriptor `A` is open on
the file the name resolves to, ufs_delete of the name returns 0; afterwards ufs_open of
the name without the create bit returns -1 with UFS_ERR_NO_FILE; every sequence of
reads and writes through `A` returns the same values and bytes as without the delete
and leaves the same state up to the deletion; the file stays allocated through them,
and closing `A` then releases it exactly when `A` is its last descriptor. -/
theorem C2_deferred_deletion (s : State) (A : Int) (dA : filedesc) (name : String)
    (hs : Reachable s) (h0 : 0 ≤ A) (hA : s.file_descriptors[A.toNat]? = some (some dA))
    (hname : find_file s s.file_list name = .ok (some dA.file)) :
    ∃ s1, ufs_delete s name = .ok (s1, 0) ∧
      (∀ flags, needs_file_creation flags = false →
        ufs_open s1 name flags = .ok ({ s1 with ufs_error_code := .UFS_ERR_NO_FILE }, -1)) ∧
      ∀ ts, ∃ s2 s3 rs, transfers s A ts = .ok (s2, rs) ∧ transfers s1 A ts = .ok (s3, rs) ∧
        deleted_view dA.file s2 s3 ∧ (∃ f, s3.files[dA.file]? = some (some f)) ∧
        ∃ s4, ufs_close s3 A = .ok (s4, 0) ∧
          (s4.files[dA.file]? = some none ↔ ref_count dA.file s3.file_descriptors = 1) := by
  have h := Reachable_WF s hs
  obtain ⟨hin, f, hf, hfn⟩ := find_file_inv s s.file_list name dA.file hname
  obtain ⟨hfok, hrefs, _⟩ := h.files_ok dA.file f hf
  have hpos := ref_count_pos_of_mem dA.file s.file_descriptors A.toNat dA hA rfl
  have hne : f.refs ≠ 0 := by omega
  have hdel := ufs_delete_found s name dA.file f hname hf
  rw [if_neg hne] at hdel
  obtain ⟨s1v, hdv, hw1⟩ := ufs_delete_valid s name dA.file f h hname hin hf
  rw [hdel] at hdv
  injection hdv with hdv
  injection hdv with hdv _
  refine ⟨_, hdel, ?_, ?_⟩
  · intro flags hc
    rw [← hdv] at hw1
    rcases ufs_open_cases _ name flags hw1 with
      ⟨a, g, _, ha, hg, hgn, _⟩ | ⟨_, _, ho⟩ | ⟨_, hc2, _⟩
    · exfalso
      have hmem := (h.list_nodup.mem_erase_iff (a := a) (b := dA.file)).mp ha
      have halt : dA.file < s.files.length := lt_of_getElem? _ _ _ hf
      have hg0 : s.files[a]? = some (some g) := by
        simp only at hg
        rw [List.getElem?_set_ne (fun e => hmem.1 e.symm)] at hg
        exact hg
      exact hmem.1 (h.list_names a hmem.2 dA.file hin g f hg0 hf (by rw [hgn, hfn]))
    · exact ho
    · rw [hc] at hc2; cases hc2
  · intro ts
    have hv : deleted_view dA.file s
        { s with
          files := s.files.set dA.file (some { f with is_removed := true }),
          file_list := s.file_list.erase dA.file,
          ufs_error_code := .UFS_ERR_NO_ERR } := ⟨rfl, rfl, rfl, f, hf, rfl⟩
    obtain ⟨s2, s3, rs, d1, ht, ht1, hv2, hw2, hd2, hf2⟩ :=
      transfers_deleted_view dA.file A ts h0 s _ dA h hv hA rfl
    obtain ⟨hv21, _, _, f2, hf2a, hv24⟩ := hv2
    have halt : dA.file < s2.files.length := lt_of_getElem? _ _ _ hf2a
    have hf3 : s3.files[dA.file]? = some (some (mark_removed f2)) := by
      rw [hv24, List.getElem?_set_self halt]
    have hd3 : s3.file_descriptors[A.toNat]? = some (some d1) := by rw [hv21]; exact hd2
    refine ⟨s2, s3, rs, ht, ht1, ⟨hv21, by assumption, by assumption, f2, hf2a, hv24⟩,
      ⟨_, hf3⟩, ?_⟩
    rw [← hf2] at hf3
    rw [ufs_close_open s3 A d1 (mark_removed f2) h0 hd3 hf3]
    refine ⟨_, rfl, ?_⟩
    obtain ⟨_, hrefs2, _⟩ := hw2.files_ok dA.file f2 hf2a
    have halt3 : dA.file < s3.files.length := by
      rw [hv24, List.length_set]; exact halt
    rw [hv21]
    simp only [hf2]
    by_cases hone : f2.refs - 1 = 0
    · have hcond : (mark_removed f2).is_removed = true ∧ (mark_removed f2).refs - 1 = 0 :=
        ⟨rfl, hone⟩
      rw [if_pos hcond, List.getElem?_set_self halt3]
      constructor
      · intro _
        have : (f2.refs : Int) = 1 := by omega
        omega
      · intro _; rfl
    · have hcond : ¬ ((mark_removed f2).is_removed = true ∧ (mark_removed f2).refs - 1 = 0) :=
        fun e => hone e.2
      rw [if_neg hcond, List.getElem?_set_self halt3]
      constructor
      · intro e; cases e
      · intro e
        exfalso
        apply hone
        omega

theorem demo_reachable : Reachable demo_state :=
  Reachable.call State.empty demo_state (.c_open "f" UFS_CREATE) Reachable.init rfl

/-- Witness of C2: descriptor 0 open on the file "f" right after its creation. -/
theorem C2_deferred_deletion_witness :
    Reachable demo_state ∧ (0 : Int) ≤ 0 ∧
      demo_state.file_descriptors[(0 : Int).toNat]? =
        some (some (fresh_desc (new_file "f") 0 UFS_READ_WRITE 0)) ∧
      find_file demo_state demo_state.file_list "f" =
        .ok (some (fresh_desc (new_file "f") 0 UFS_READ_WRITE 0).file) ∧
      ∃ s1, ufs_delete demo_state "f" = .ok (s1, 0) ∧
        (∀ flags, needs_file_creation flags = false →
          ufs_open s1 "f" flags = .ok ({ s1 with ufs_error_code := .UFS_ERR_NO_FILE }, -1)) ∧
        ∀ ts, ∃ s2 s3 rs, transfers demo_state 0 ts = .ok (s2, rs) ∧
          transfers s1 0 ts = .ok (s3, rs) ∧
          deleted_view (fresh_desc (new_file "f") 0 UFS_READ_WRITE 0).file s2 s3 ∧
          (∃ f, s3.files[(fresh_desc (new_file "f") 0 UFS_READ_WRITE 0).file]? = some (some f)) ∧
          ∃ s4, ufs_close s3 0 = .ok (s4, 0) ∧
            (s4.files[(fresh_desc (new_file "f") 0 UFS_READ_WRITE 0).file]? = some none ↔
              ref_count (fresh_desc (new_file "f") 0 UFS_READ_WRITE 0).file
                s3.file_descriptors = 1) :=
  ⟨demo_reachable, le_refl _, rfl, rfl,
    C2_deferred_deletion demo_state 0 (fresh_desc (new_file "f") 0 UFS_READ_WRITE 0) "f"
      demo_reachable (le_refl _) rfl rfl⟩

/-! ## C3: the growth ceiling -/

theorem set_same {α : Type} (l : List α) (i : Nat) (x : α) (h : l[i]? = some x) :
    l.set i x = l := by
  induction l generalizing i with
  | nil => rfl
  | cons y rest ih =>
    cases i with
    | zero => simp at h; simp [h]
    | succ i => simp at h; simp [ih i h]

theorem find_file_congr (s s1 : State) (l : List Nat) (filename : String)
    (h : s1.files = s.files) : find_file s1 l filename = find_file s l filename := by
  induction l with
  | nil => rfl
  | cons a rest ih =>
    unfold find_file State.file_at
    rw [h, ih]

theorem dense_of_all_full (l : List block) (h : all_full l) : dense l :=
  fun b hb => h b (List.mem_of_mem_dropLast hb)

/-- At the block ceiling, with the cursor at the end of the full tail block, the write
loop stops at once: the file is as it was, the cursor has left the tail block. -/
theorem ufs_write_loop_ceiling (f : file) (d : filedesc) (buf : List Nat) (fuel : Nat)
    (hf : file_ok f) (hc : cursor_ok f d)
    (hcount : f.blocks_count = MAX_FILE_SIZE / BLOCK_SIZE)
    (hcur : d.current_block = some (f.block_list.length - 1)) (hoff : d.offset = BLOCK_SIZE)
    (hlen : 0 < to_ssize buf.length) :
    ufs_write_loop (fuel + 2) f d buf 0 =
      .ok (f, { d with
                current_block := none,
                current_block_index := d.current_block_index + 1,
                offset := 0 }, -1, .UFS_ERR_NO_MEM) := by
  have hB := BLOCK_SIZE_eq
  have hpl := (hc.2.2.2 _ hcur).1
  have hnext : block_next f (f.block_list.length - 1) = none := by
    simp only [block_next]
    rw [if_neg (by omega)]
  have ht1 : ufs_write_turn f d buf 0 = .ok (.next f
      { d with
        current_block := none,
        current_block_index := d.current_block_index + 1,
        offset := 0 } 0) := by
    rcases ufs_write_turn_cases f d buf 0 hf hc with
      ⟨hn, _, _⟩ | ⟨p, hcb, _, ht⟩ | ⟨p, b, _, _, hlt, _⟩ | ⟨hn, _, _⟩
    · rw [hcur] at hn; cases hn
    · rw [hcur] at hcb
      cases hcb
      rw [ht, hnext]
    · omega
    · rw [hcur] at hn; cases hn
  have ht2 : ufs_write_turn f
      { d with
        current_block := none,
        current_block_index := d.current_block_index + 1,
        offset := 0 } buf 0 =
      .ok (.no_mem f
        { d with
          current_block := none,
          current_block_index := d.current_block_index + 1,
          offset := 0 }) := by
    simp only [ufs_write_turn, ufs_write_grow]
    rw [if_pos (by omega)]
  unfold ufs_write_loop
  rw [if_pos hlen, ht1]
  simp only []
  unfold ufs_write_loop
  rw [if_pos hlen, ht2]

/-- A descriptor opened on a linked dense file with a mode that permits reading reads
the stored bytes of the file from the start. -/
theorem open_read_start (s : State) (a : Nat) (f : file) (name : String) (flags : Int)
    (size : Nat) (hw : WF s) (hf : s.files[a]? = some (some f))
    (hfind : find_file s s.file_list name = .ok (some a)) (hdn : dense f.block_list)
    (hpr : permits_read flags) (hsz : size < 2 ^ 63) :
    ∃ s2 fd2 s3, ufs_open s name flags = .ok (s2, fd2) ∧
      ufs_read s2 fd2 size =
        .ok (s3, ((((contents f).take size).length : Nat) : Int), (contents f).take size) := by
  obtain ⟨hfok, _, _⟩ := hw.files_ok a f hf
  obtain ⟨hlt, hcr, hw2⟩ := create_filedesc_spec { s with ufs_error_code := .UFS_ERR_NO_ERR } a
    (open_permissions flags) f (WF_set_err s .UFS_ERR_NO_ERR hw) hf
  have hop : ufs_open s name flags = create_filedesc { s with ufs_error_code := .UFS_ERR_NO_ERR } a
      (open_permissions flags) := by
    simp only [ufs_open, hfind]
  rw [hcr] at hop
  obtain ⟨d2, hr⟩ := ufs_read_start
    { s with
      files := s.files.set a (some { f with refs := f.refs + 1 }),
      file_descriptors :=
        (grown_table { s with ufs_error_code := .UFS_ERR_NO_ERR }).set
          (first_free_slot (grown_table { s with ufs_error_code := .UFS_ERR_NO_ERR }))
          (some (fresh_desc f a (open_permissions flags)
            (first_free_slot (grown_table { s with ufs_error_code := .UFS_ERR_NO_ERR })))),
      file_descriptor_count := s.file_descriptor_count + 1,
      ufs_error_code := .UFS_ERR_NO_ERR }
    (first_free_slot (grown_table { s with ufs_error_code := .UFS_ERR_NO_ERR }) : Nat) size
    (fresh_desc f a (open_permissions flags)
      (first_free_slot (grown_table { s with ufs_error_code := .UFS_ERR_NO_ERR })))
    { f with refs := f.refs + 1 }
    (Int.ofNat_nonneg _) (List.getElem?_set_self (by simpa using hlt))
    (List.getElem?_set_self (lt_of_getElem? _ _ _ hf))
    (by rw [no_permissions_init]; exact no_permissions_false _ _ _ hpr)
    hfok hdn (fresh_desc_cursor f _ a _ _ rfl) rfl
    (by simp only [fresh_desc]; split <;> simp) hsz
  exact ⟨_, _, _, hop, hr⟩

/-- The write at the block ceiling: -1 with UFS_ERR_NO_MEM, files and registry as they
were, the state still well formed. -/
theorem ufs_write_ceiling (s : State) (fd : Int) (d0 : filedesc) (f : file) (buf : List Nat)
    (hw : WF s) (h0 : 0 ≤ fd) (hd : s.file_descriptors[fd.toNat]? = some (some d0))
    (hf : s.files[d0.file]? = some (some f))
    (hcount : f.blocks_count = MAX_FILE_SIZE / BLOCK_SIZE)
    (hcur : d0.current_block = some (f.block_list.length - 1)) (hoff : d0.offset = BLOCK_SIZE)
    (hperm : no_permissions d0 UFS_READ_WRITE UFS_WRITE_ONLY = false)
    (hne : buf ≠ []) (hsz : buf.length < 2 ^ 63) :
    ufs_write s fd buf =
      .ok ({ s with
              file_descriptors := s.file_descriptors.set fd.toNat
                (some { d0 with
                        current_block := none,
                        current_block_index := d0.current_block_index + 1,
                        offset := 0 }),
              ufs_error_code := .UFS_ERR_NO_MEM }, -1) := by
  obtain ⟨_, g, hg, hc⟩ := hw.desc_ok fd.toNat d0 hd
  rw [hf] at hg
  cases hg
  obtain ⟨hfok, _, _⟩ := hw.files_ok d0.file f hf
  have hinit : init_filedesc_current_block f d0 = d0 := by
    unfold init_filedesc_current_block
    rw [hcur]
    simp
  have hpos : 0 < to_ssize buf.length := by
    rw [to_ssize_of_lt _ hsz]
    have := List.length_pos.mpr hne
    omega
  have hloop := ufs_write_loop_ceiling f d0 buf (2 * buf.length) hfok hc hcount hcur hoff hpos
  have hwr := ufs_write_open s fd buf d0 f h0 hd hf
  rw [hinit, hperm, hloop] at hwr
  simp only [Bool.false_eq_true, if_false] at hwr
  rw [set_same s.files d0.file (some f) hf] at hwr
  exact hwr

/-- C3 (growth ceiling). In every well-formed state (every reachable state is one) in
which a file holds MAX_FILE_SIZE / BLOCK_SIZE full blocks and a writable descriptor
stands in the tail block at offset BLOCK_SIZE, ufs_write of non-empty data through that
descriptor returns -1 with UFS_ERR_NO_MEM and leaves every file, hence the bytes and
the occupied count of every block, unchanged; a descriptor then opened on the file with
a mode that permits reading reads back all MAX_FILE_SIZE stored bytes. -/
theorem C3_growth_ceiling (s : State) (fd : Int) (d0 : filedesc) (f : file) (buf : List Nat)
    (hw : WF s) (h0 : 0 ≤ fd) (hd : s.file_descriptors[fd.toNat]? = some (some d0))
    (hf : s.files[d0.file]? = some (some f))
    (hcount : f.blocks_count = MAX_FILE_SIZE / BLOCK_SIZE) (hfull : all_full f.block_list)
    (hcur : d0.current_block = some (f.block_list.length - 1)) (hoff : d0.offset = BLOCK_SIZE)
    (hperm : no_permissions d0 UFS_READ_WRITE UFS_WRITE_ONLY = false)
    (hne : buf ≠ []) (hsz : buf.length < 2 ^ 63) :
    ∃ s1, ufs_write s fd buf = .ok (s1, -1) ∧ ufs_errno s1 = .UFS_ERR_NO_MEM ∧
      s1.files = s.files ∧ s1.file_list = s.file_list ∧
      (((contents f).length : Nat) : Int) = MAX_FILE_SIZE ∧
      ∀ name flags, find_file s s.file_list name = .ok (some d0.file) → permits_read flags →
        ∃ s2 fd2 s3, ufs_open s1 name flags = .ok (s2, fd2) ∧
          ufs_read s2 fd2 MAX_FILE_SIZE.toNat = .ok (s3, MAX_FILE_SIZE, contents f) := by
  obtain ⟨hfok, _, _⟩ := hw.files_ok d0.file f hf
  have hM := MAX_FILE_SIZE_eq
  have hB := BLOCK_SIZE_eq
  have hceil := ceiling_eq
  have hwr := ufs_write_ceiling s fd d0 f buf hw h0 hd hf hcount hcur hoff hperm hne hsz
  have hw1 := ufs_write_WF s fd buf _ _ hw hwr
  have hlen : (((contents f).length : Nat) : Int) = MAX_FILE_SIZE := by
    have := full_bytes_length f.block_list hfull hfok.2.2
    have hcnt := hfok.1
    unfold contents
    rw [this, ← hcnt, hcount, hceil, hB, hM]
    rfl
  refine ⟨_, hwr, rfl, rfl, rfl, hlen, ?_⟩
  intro name flags hfind hpr
  obtain ⟨s2, fd2, s3, hop, hr⟩ := open_read_start _ d0.file f name flags MAX_FILE_SIZE.toNat hw1
    hf (by rw [← hfind]; exact find_file_congr s _ s.file_list name rfl)
    (dense_of_all_full _ hfull) hpr (by rw [hM]; decide)
  rw [List.take_of_length_le (by omega), hlen] at hr
  exact ⟨s2, fd2, s3, hop, hr⟩

/-- A state with one linked file and one descriptor on it is well formed when file and
cursor are. -/
theorem one_file_state_WF (f : file) (d0 : filedesc) (hfok : file_ok f) (hc : cursor_ok f d0)
    (hfile : d0.file = 0) (hfd : d0.fd = 0) (hrefs : f.refs = 1) (hrem : f.is_removed = false) :
    WF (one_file_state f d0 none 1) := by
  have hfiles : ∀ (a : Nat) (g : file), (one_file_state f d0 none 1).files[a]? = some (some g) →
      a = 0 ∧ g = f := by
    intro a g hg
    cases a with
    | zero => simp [one_file_state] at hg; exact ⟨rfl, hg.symm⟩
    | succ a => simp [one_file_state] at hg
  refine ⟨by simp [one_file_state], by simp [one_file_state, open_count], ?_, ?_, ?_, ?_, ?_⟩
  · intro i d hd
    match i with
    | 0 =>
      simp [one_file_state] at hd
      subst hd
      exact ⟨by simpa using hfd, f, by simp [one_file_state, hfile], hc⟩
    | 1 => simp [one_file_state] at hd
    | 2 => simp [one_file_state] at hd
    | 3 => simp [one_file_state] at hd
    | n + 4 => simp [one_file_state] at hd
  · simp [one_file_state]
  · intro a ha
    simp only [one_file_state, List.mem_singleton] at ha
    subst ha
    exact ⟨f, rfl, hrem⟩
  · intro a ha b hb _ _ _ _ _
    simp only [one_file_state, List.mem_singleton] at ha hb
    rw [ha, hb]
  · intro a g hg
    obtain ⟨e1, e2⟩ := hfiles a g hg
    subst e1; subst e2
    refine ⟨hfok, ?_, ?_⟩
    · simp [one_file_state, ref_count, hfile, hrefs]
    · intro hnot
      exfalso
      apply hnot
      simp [one_file_state]

theorem full_block_ok : block_ok full_block :=
  ⟨List.length_replicate _ _, by decide, le_refl _⟩

theorem ceiling_length : ceiling_file.block_list.length = 204800 :=
  List.length_replicate _ _

theorem ceiling_all_full : all_full ceiling_file.block_list := by
  intro b hb
  have hb2 : b ∈ List.replicate 204800 full_block := hb
  rw [List.eq_of_mem_replicate hb2]
  rfl

theorem ceiling_cursor : ceiling_desc.current_block = some (ceiling_file.block_list.length - 1) := by
  rw [ceiling_length]
  rfl

theorem ceiling_state_WF : WF ceiling_state := by
  apply one_file_state_WF
  · refine ⟨?_, by decide, ?_⟩
    · rw [ceiling_length]; rfl
    · intro b hb
      have hb2 : b ∈ List.replicate 204800 full_block := hb
      rw [List.eq_of_mem_replicate hb2]
      exact full_block_ok
  · refine ⟨?_, ?_, ?_, ?_⟩
    · decide
    · exact le_refl _
    · decide
    · intro p hp
      have hp2 : (204799 : Nat) = p := by
        simpa [ceiling_desc] using hp
      subst hp2
      exact ⟨by rw [ceiling_length]; decide, by decide⟩
  · rfl
  · rfl
  · rfl
  · rfl

/-- Witness of C3: the state `ceiling_state` and a write of one byte. -/
theorem C3_growth_ceiling_witness :
    WF ceiling_state ∧ (0 : Int) ≤ 0 ∧
      ceiling_state.file_descriptors[(0 : Int).toNat]? = some (some ceiling_desc) ∧
      ceiling_state.files[ceiling_desc.file]? = some (some ceiling_file) ∧
      ceiling_file.blocks_count = MAX_FILE_SIZE / BLOCK_SIZE ∧
      all_full ceiling_file.block_list ∧
      ceiling_desc.current_block = some (ceiling_file.block_list.length - 1) ∧
      ceiling_desc.offset = BLOCK_SIZE ∧
      no_permissions ceiling_desc UFS_READ_WRITE UFS_WRITE_ONLY = false ∧
      ([1] : List Nat) ≠ [] ∧ ([1] : List Nat).length < 2 ^ 63 ∧
      ∃ s1, ufs_write ceiling_state 0 [1] = .ok (s1, -1) ∧ ufs_errno s1 = .UFS_ERR_NO_MEM ∧
        s1.files = ceiling_state.files ∧ s1.file_list = ceiling_state.file_list ∧
        (((contents ceiling_file).length : Nat) : Int) = MAX_FILE_SIZE ∧
        ∀ name flags,
          find_file ceiling_state ceiling_state.file_list name = .ok (some ceiling_desc.file) →
          permits_read flags →
          ∃ s2 fd2 s3, ufs_open s1 name flags = .ok (s2, fd2) ∧
            ufs_read s2 fd2 MAX_FILE_SIZE.toNat =
              .ok (s3, MAX_FILE_SIZE, contents ceiling_file) :=
  ⟨ceiling_state_WF, le_refl _, rfl, rfl, by decide, ceiling_all_full, ceiling_cursor, rfl,
    by decide, by decide, by decide,
    C3_growth_ceiling ceiling_state 0 ceiling_desc ceiling_file [1] ceiling_state_WF (le_refl _)
      rfl rfl (by decide) ceiling_all_full ceiling_cursor rfl (by decide) (by decide)
      (by decide)⟩

/-! ## C4: re-clamping after a shrink -/

set_option maxRecDepth 1000000 in
/-- C4 (shrink re-clamping), the code at a failing input. A file of three blocks (1029
bytes) with descriptor 0 in block index 2 at offset 5 is resized to 512 bytes, one
block. The resize moves the cursor to the remaining block, whose occupied count is 512,
but leaves the offset at 5 (the minimum of the old offset and the occupied count), and
the next read of 100 bytes returns 100 bytes, not 0. -/
theorem C4_shrink_keeps_offset :
    run_cursor [.c_open "f" UFS_CREATE, .c_write 0 (List.replicate 1029 7)] 0 =
        some (some 2, 2, 5) ∧
      run_occupied [.c_open "f" UFS_CREATE, .c_write 0 (List.replicate 1029 7)] 0 =
        some [512, 512, 5] ∧
      run_cursor [.c_open "f" UFS_CREATE, .c_write 0 (List.replicate 1029 7),
        .c_resize 0 512] 0 = some (some 0, 0, 5) ∧
      run_occupied [.c_open "f" UFS_CREATE, .c_write 0 (List.replicate 1029 7),
        .c_resize 0 512] 0 = some [512] ∧
      run_then_read [.c_open "f" UFS_CREATE, .c_write 0 (List.replicate 1029 7),
        .c_resize 0 512] 0 100 = some (100, List.replicate 100 7, .UFS_ERR_NO_ERR) := by
  refine ⟨?_, ?_, ?_, ?_, ?_⟩ <;> decide

set_option maxRecDepth 100000 in
/-- C1, counterexample to the claim as stated: after `ufs_open("f", UFS_CREATE)` and a
write of three bytes through descriptor 0, descriptor 1 opened on the same file with
UFS_WRITE_ONLY, on which nothing was read or written, does not read the bytes back:
ufs_read returns -1 with UFS_ERR_NO_PERMISSION. -/
theorem C1_write_only_counterexample :
    run_then_read [.c_open "f" UFS_CREATE, .c_write 0 [1, 2, 3],
      .c_open "f" UFS_WRITE_ONLY] 1 3 = some (-1, [], .UFS_ERR_NO_PERMISSION) := by
  decide

/-! ## Successful opens -/

/-- A successful ufs_open on a well-formed state: the descriptor goes into the first free
slot of the (possibly grown) table, with the permissions of the flags and a cursor at
the start, on the linked file of that name or on a new empty one; the error code is reset
and the state stays well formed. -/
theorem ufs_open_success (s : State) (name : String) (flags : Int) (s1 : State) (fd : Int)
    (h : WF s) (hopen : ufs_open s name flags = .ok (s1, fd)) (hfd : fd ≠ -1) :
    ∃ a f, fd = (first_free_slot (grown_table s) : Nat) ∧
      first_free_slot (grown_table s) < (grown_table s).length ∧
      s1.file_descriptors = (grown_table s).set (first_free_slot (grown_table s))
        (some (fresh_desc f a (open_permissions flags) (first_free_slot (grown_table s)))) ∧
      s1.files[a]? = some (some { f with refs := f.refs + 1 }) ∧ f.name = name ∧
      s1.ufs_error_code = .UFS_ERR_NO_ERR ∧ WF s1 ∧ file_ok f ∧
      ((find_file s s.file_list name = .ok (some a) ∧ s.files[a]? = some (some f) ∧
          s1.files = s.files.set a (some { f with refs := f.refs + 1 }) ∧
          s1.file_list = s.file_list) ∨
        (find_file s s.file_list name = .ok none ∧ needs_file_creation flags = true ∧
          a = s.files.length ∧ f = new_file name ∧
          s1.files = s.files ++ [some { new_file name with refs := 1 }] ∧
          s1.file_list = s.file_list ++ [s.files.length])) := by
  rcases ufs_open_cases s name flags h with
    ⟨a, f, hfind, _, hf, hn, ho⟩ | ⟨_, _, ho⟩ | ⟨hfind, hc, hnew, ho⟩
  · obtain ⟨hlt, hcr, hw⟩ := create_filedesc_spec { s with ufs_error_code := .UFS_ERR_NO_ERR } a
      (open_permissions flags) f (WF_set_err s _ h) hf
    rw [ho, hcr] at hopen
    injection hopen with hopen
    injection hopen with e1 e2
    subst e1 e2
    have halt := lt_of_getElem? _ _ _ hf
    exact ⟨a, f, rfl, hlt, rfl, List.getElem?_set_self halt, hn, rfl, hw, (h.files_ok a f hf).1,
      Or.inl ⟨hfind, hf, rfl, rfl⟩⟩
  · rw [ho] at hopen
    injection hopen with hopen
    injection hopen with _ e2
    exact absurd e2.symm hfd
  · obtain ⟨hw1, _, hcell⟩ := add_file_WF s name h hnew
    obtain ⟨hlt, hcr, hw⟩ := create_filedesc_spec
      { (add_file s name).1 with ufs_error_code := .UFS_ERR_NO_ERR } s.files.length
      (open_permissions flags) (new_file name) (WF_set_err _ _ hw1) hcell
    rw [ho, hcr] at hopen
    injection hopen with hopen
    injection hopen with e1 e2
    subst e1 e2
    refine ⟨s.files.length, new_file name, rfl, hlt, rfl, ?_, rfl, rfl, hw,
      ⟨rfl, by show (0 : Int) ≤ MAX_FILE_SIZE / BLOCK_SIZE; decide, by intro b hb; cases hb⟩,
      Or.inr ⟨hfind, hc, rfl, rfl, ?_, rfl⟩⟩
    · show ((s.files ++ [some (new_file name)]).set s.files.length _)[s.files.length]? = _
      rw [List.getElem?_set_self (by simp)]
    · show (s.files ++ [some (new_file name)]).set s.files.length _ = _
      rw [List.set_append_right _ _ (le_refl _)]
      simp [new_file]

/-! ## C5: permission enforcement -/

/-- The outcome of ufs_read through an open descriptor of a well-formed state: -1 with
UFS_ERR_NO_PERMISSION and no byte when the mode fails the test, a count of at least 0
with UFS_ERR_NO_ERR otherwise. -/
theorem ufs_read_outcome (s : State) (fd : Int) (size : Nat) (d0 : filedesc) (h : WF s)
    (h0 : 0 ≤ fd) (hd : s.file_descriptors[fd.toNat]? = some (some d0)) :
    ∃ s1 ret out, ufs_read s fd size = .ok (s1, ret, out) ∧
      ((no_permissions d0 UFS_READ_WRITE UFS_READ_ONLY = true ∧ ret = -1 ∧ out = [] ∧
          ufs_errno s1 = .UFS_ERR_NO_PERMISSION) ∨
        (no_permissions d0 UFS_READ_WRITE UFS_READ_ONLY = false ∧ 0 ≤ ret ∧
          (out.length : Int) = ret ∧ ufs_errno s1 = .UFS_ERR_NO_ERR)) := by
  obtain ⟨_, f, hf, hc⟩ := h.desc_ok fd.toNat d0 hd
  obtain ⟨hfok, _, _⟩ := h.files_ok d0.file f hf
  obtain ⟨hic, _, _, _⟩ := init_keeps f d0 hc
  rw [ufs_read_open s fd size d0 f h0 hd hf, no_permissions_init]
  cases hp : no_permissions d0 UFS_READ_WRITE UFS_READ_ONLY with
  | true =>
    rw [if_pos rfl]
    exact ⟨_, _, _, rfl, Or.inl ⟨rfl, rfl, rfl, rfl⟩⟩
  | false =>
    obtain ⟨d1, ret, out, hl, _, hlen, hret, _⟩ :=
      ufs_read_loop_total f (init_filedesc_current_block f d0) size hfok hic
    rw [if_neg (by simp), hl]
    exact ⟨_, _, _, rfl, Or.inr ⟨rfl, hret, hlen, rfl⟩⟩

/-- The outcome of ufs_write through an open descriptor of a well-formed state: -1 with
UFS_ERR_NO_PERMISSION when the mode fails the test; otherwise a count of at least 0 with
UFS_ERR_NO_ERR, or -1 with UFS_ERR_NO_MEM. -/
theorem ufs_write_outcome (s : State) (fd : Int) (buf : List Nat) (d0 : filedesc) (h : WF s)
    (h0 : 0 ≤ fd) (hd : s.file_descriptors[fd.toNat]? = some (some d0)) :
    ∃ s1 ret, ufs_write s fd buf = .ok (s1, ret) ∧
      ((no_permissions d0 UFS_READ_WRITE UFS_WRITE_ONLY = true ∧ ret = -1 ∧
          ufs_errno s1 = .UFS_ERR_NO_PERMISSION) ∨
        (no_permissions d0 UFS_READ_WRITE UFS_WRITE_ONLY = false ∧
          ((0 ≤ ret ∧ ufs_errno s1 = .UFS_ERR_NO_ERR) ∨
            (ret = -1 ∧ ufs_errno s1 = .UFS_ERR_NO_MEM)))) := by
  obtain ⟨_, f, hf, hc⟩ := h.desc_ok fd.toNat d0 hd
  obtain ⟨hfok, _, _⟩ := h.files_ok d0.file f hf
  obtain ⟨hic, _, _, _⟩ := init_keeps f d0 hc
  rw [ufs_write_open s fd buf d0 f h0 hd hf, no_permissions_init]
  cases hp : no_permissions d0 UFS_READ_WRITE UFS_WRITE_ONLY with
  | true =>
    rw [if_pos rfl]
    exact ⟨_, _, rfl, Or.inl ⟨rfl, rfl, rfl⟩⟩
  | false =>
    obtain ⟨f1, d1, ret, err, hl, _, hres⟩ :=
      ufs_write_loop_total f (init_filedesc_current_block f d0) buf hfok hic
    rw [if_neg (by simp), hl]
    refine ⟨_, _, rfl, Or.inr ⟨rfl, ?_⟩⟩
    rcases hres with ⟨he, hr, _⟩ | ⟨he, hr, _⟩
    · exact Or.inl ⟨hr, he⟩
    · exact Or.inr ⟨hr, he⟩

theorem ufs_read_loop_no_cursor (fuel : Nat) (f : file) (d : filedesc) (size : Nat) (rs : Int)
    (out : List Nat) (hcur : d.current_block = none) :
    ufs_read_loop (fuel + 1) f d size rs out = .ok (d, rs, out) := by
  unfold ufs_read_loop
  split
  · rw [hcur]
  · rfl

theorem no_permissions_iff (d : filedesc) (flags : Int)
    (hp : d.permissions = open_permissions flags) :
    no_permissions d UFS_READ_WRITE UFS_READ_ONLY = false ↔ permits_read flags := by
  unfold no_permissions permits_read
  rw [hp]
  simp

/-- C6 (creation gating). In every reachable state, for a name no linked file has:
ufs_open without the create bit returns -1, sets UFS_ERR_NO_FILE and changes nothing
else, so adds neither a file nor a descriptor; with the create bit it returns a
descriptor in a slot that was free, on a new linked file of that name with zero blocks,
and a read of any size through it hands back no byte, returning 0 when the mode permits
reading (and -1 with UFS_ERR_NO_PERMISSION when it does not). -/
theorem C6_creation_gating (s : State) (name : String) (flags : Int) (size : Nat)
    (hs : Reachable s) (hmiss : find_file s s.file_list name = .ok none) :
    (needs_file_creation flags = false →
        ufs_open s name flags = .ok ({ s with ufs_error_code := .UFS_ERR_NO_FILE }, -1)) ∧
      (needs_file_creation flags = true →
        ∃ s1 fd d f, ufs_open s name flags = .ok (s1, fd) ∧ 0 ≤ fd ∧
          (∀ d0, s.file_descriptors[fd.toNat]? ≠ some (some d0)) ∧
          s1.file_descriptors[fd.toNat]? = some (some d) ∧
          d.file = s.files.length ∧ d.file ∈ s1.file_list ∧
          s1.files[d.file]? = some (some f) ∧ f.name = name ∧ f.block_list = [] ∧
          f.blocks_count = 0 ∧
          ∃ s2 ret, ufs_read s1 fd size = .ok (s2, ret, []) ∧
            (permits_read flags → ret = 0 ∧ ufs_errno s2 = .UFS_ERR_NO_ERR) ∧
            (¬ permits_read flags → ret = -1 ∧ ufs_errno s2 = .UFS_ERR_NO_PERMISSION)) := by
  have h := Reachable_WF s hs
  constructor
  · intro hc
    simp [ufs_open, hmiss, hc]
  · intro hc
    have hex : ∃ (s1 : State) (n : Nat), ufs_open s name flags = .ok (s1, (n : Int)) := by
      rcases ufs_open_cases s name flags h with
        ⟨a, f, hfind, _⟩ | ⟨_, hc2, _⟩ | ⟨_, _, hnew, ho⟩
      · rw [hmiss] at hfind; cases hfind
      · rw [hc] at hc2; cases hc2
      · obtain ⟨hw1, _, hcell⟩ := add_file_WF s name h hnew
        obtain ⟨_, hcr, _⟩ := create_filedesc_spec
          { (add_file s name).1 with ufs_error_code := .UFS_ERR_NO_ERR } s.files.length
          (open_permissions flags) (new_file name) (WF_set_err _ _ hw1) hcell
        exact ⟨_, _, ho.trans hcr⟩
    obtain ⟨s1, n, hopen⟩ := hex
    have hfd : (n : Int) ≠ -1 := by omega
    generalize (n : Int) = fd at hopen hfd
    obtain ⟨a, f, hfd0, hlt, hfds, hcell, hname, _, _, _, hcase⟩ :=
      ufs_open_success s name flags s1 fd h hopen hfd
    rcases hcase with ⟨hfound, _⟩ | ⟨_, _, ha, hf, hfiles, hlist⟩
    · rw [hmiss] at hfound; cases hfound
    · subst ha hf
      have h0 : 0 ≤ fd := by rw [hfd0]; exact Int.ofNat_nonneg _
      have htn : fd.toNat = first_free_slot (grown_table s) := by rw [hfd0]; rfl
      have hd : s1.file_descriptors[fd.toNat]? = some (some
          (fresh_desc (new_file name) s.files.length (open_permissions flags)
            (first_free_slot (grown_table s)))) := by
        rw [hfds, htn]
        exact List.getElem?_set_self hlt
      have hfree : ∀ d0, s.file_descriptors[fd.toNat]? ≠ some (some d0) := by
        intro d0 hd0
        obtain ⟨_, _, _, hg4⟩ := grown_table_spec s h
        have := (first_free_slot_spec (grown_table s)).2.1 hlt
        rw [htn, ← hg4, this] at hd0
        cases hd0
      refine ⟨s1, fd, _, _, hopen, h0, hfree, hd, rfl, ?_, hcell, rfl, rfl, rfl, ?_⟩
      · rw [hlist]
        simp [fresh_desc]
      · have hro := ufs_read_open s1 fd size _ _ h0 hd hcell
        have hinit : init_filedesc_current_block { new_file name with refs := (new_file name).refs + 1 }
            (fresh_desc (new_file name) s.files.length (open_permissions flags)
              (first_free_slot (grown_table s))) =
            fresh_desc (new_file name) s.files.length (open_permissions flags)
              (first_free_slot (grown_table s)) := rfl
        rw [hinit, ufs_read_loop_no_cursor _ _ _ _ _ _ rfl] at hro
        have hiff := no_permissions_iff (fresh_desc (new_file name) s.files.length
          (open_permissions flags) (first_free_slot (grown_table s))) flags rfl
        cases hp : no_permissions (fresh_desc (new_file name) s.files.length
            (open_permissions flags) (first_free_slot (grown_table s)))
            UFS_READ_WRITE UFS_READ_ONLY with
        | true =>
          rw [hp, if_pos rfl] at hro
          refine ⟨_, _, hro, ?_, fun _ => ⟨rfl, rfl⟩⟩
          intro hpr
          rw [hiff.mpr hpr] at hp
          cases hp
        | false =>
          rw [hp, if_neg (by simp)] at hro
          refine ⟨_, _, hro, fun _ => ⟨rfl, rfl⟩, ?_⟩
          intro hnp
          exact absurd (hiff.mp hp) hnp

/-- Witness of C6: the name "missing" on the empty filesystem, opened with
UFS_READ_ONLY or-ed with UFS_CREATE, and a read of 10 bytes. -/
theorem C6_creation_gating_witness :
    Reachable State.empty ∧
      find_file State.empty State.empty.file_list "missing" = .ok none ∧
      ((needs_file_creation (Int.lor UFS_READ_ONLY UFS_CREATE) = false →
        ufs_open State.empty "missing" (Int.lor UFS_READ_ONLY UFS_CREATE) =
          .ok ({ State.empty with ufs_error_code := .UFS_ERR_NO_FILE }, -1)) ∧
      (needs_file_creation (Int.lor UFS_READ_ONLY UFS_CREATE) = true →
        ∃ s1 fd d f,
          ufs_open State.empty "missing" (Int.lor UFS_READ_ONLY UFS_CREATE) = .ok (s1, fd) ∧
          0 ≤ fd ∧ (∀ d0, State.empty.file_descriptors[fd.toNat]? ≠ some (some d0)) ∧
          s1.file_descriptors[fd.toNat]? = some (some d) ∧
          d.file = State.empty.files.length ∧ d.file ∈ s1.file_list ∧
          s1.files[d.file]? = some (some f) ∧ f.name = "missing" ∧ f.block_list = [] ∧
          f.blocks_count = 0 ∧
          ∃ s2 ret, ufs_read s1 fd 10 = .ok (s2, ret, []) ∧
            (permits_read (Int.lor UFS_READ_ONLY UFS_CREATE) →
              ret = 0 ∧ ufs_errno s2 = .UFS_ERR_NO_ERR) ∧
            (¬ permits_read (Int.lor UFS_READ_ONLY UFS_CREATE) →
              ret = -1 ∧ ufs_errno s2 = .UFS_ERR_NO_PERMISSION))) :=
  ⟨Reachable.init, rfl,
    C6_creation_gating State.empty "missing" (Int.lor UFS_READ_ONLY UFS_CREATE) 10
      Reachable.init rfl⟩

/-! ## C7: closing twice -/

/-- C8 (descriptor id reuse). In every reachable state the id a successful ufs_open
returns is the smallest non-negative integer that is not the id of an open descriptor:
no open descriptor has that id, and every smaller non-negative integer is the id of
one. -/
theorem C8_descriptor_id_reuse (s s1 : State) (name : String) (flags : Int) (id : Int)
    (hs : Reachable s) (hopen : ufs_open s name flags = .ok (s1, id)) (hid : id ≠ -1) :
    0 ≤ id ∧
      (∀ (i : Nat) (d : filedesc), s.file_descriptors[i]? = some (some d) → d.fd ≠ id) ∧
      ∀ j : Int, 0 ≤ j → j < id →
        ∃ (i : Nat) (d : filedesc), s.file_descriptors[i]? = some (some d) ∧ d.fd = j := by
  have h := Reachable_WF s hs
  obtain ⟨a, f, hfd0, hlt, _⟩ := ufs_open_success s name flags s1 id h hopen hid
  obtain ⟨_, _, _, hg4⟩ := grown_table_spec s h
  obtain ⟨hs1, hs2, _, _⟩ := first_free_slot_spec (grown_table s)
  refine ⟨by rw [hfd0]; exact Int.ofNat_nonneg _, ?_, ?_⟩
  · intro i d hd hfd
    obtain ⟨hfdi, _⟩ := h.desc_ok i d hd
    have hi : i = first_free_slot (grown_table s) := by omega
    have hfree := hs2 hlt
    rw [← hi, (hg4 i d).mpr hd] at hfree
    cases hfree
  · intro j hj0 hjlt
    obtain ⟨d, hd⟩ := hs1 j.toNat (by omega)
    have hd2 := (hg4 j.toNat d).mp hd
    obtain ⟨hfdj, _⟩ := h.desc_ok j.toNat d hd2
    exact ⟨j.toNat, d, hd2, by omega⟩

set_option maxRecDepth 100000 in
theorem reuse_reachable :
    Reachable (state_after [.c_open "a" UFS_CREATE, .c_open "b" UFS_CREATE,
      .c_open "c" UFS_CREATE, .c_close 1]) :=
  run_Reachable [.c_open "a" UFS_CREATE, .c_open "b" UFS_CREATE, .c_open "c" UFS_CREATE,
    .c_close 1] State.empty _ Reachable.init rfl

set_option maxRecDepth 100000 in
/-- Witness of C8: with the ids 0, 1 and 2 open, 1 is closed; the next ufs_open returns 1. -/
theorem C8_descriptor_id_reuse_witness :
    Reachable (state_after [.c_open "a" UFS_CREATE, .c_open "b" UFS_CREATE,
        .c_open "c" UFS_CREATE, .c_close 1]) ∧
      ufs_open (state_after [.c_open "a" UFS_CREATE, .c_open "b" UFS_CREATE,
        .c_open "c" UFS_CREATE, .c_close 1]) "d" UFS_CREATE =
        .ok (state_opened (state_after [.c_open "a" UFS_CREATE, .c_open "b" UFS_CREATE,
          .c_open "c" UFS_CREATE, .c_close 1]) "d" UFS_CREATE, 1) ∧
      (1 : Int) ≠ -1 ∧
      ((0 : Int) ≤ 1 ∧
        (∀ (i : Nat) (d : filedesc),
          (state_after [.c_open "a" UFS_CREATE, .c_open "b" UFS_CREATE,
            .c_open "c" UFS_CREATE, .c_close 1]).file_descriptors[i]? = some (some d) →
          d.fd ≠ 1) ∧
        ∀ j : Int, 0 ≤ j → j < 1 →
          ∃ (i : Nat) (d : filedesc),
            (state_after [.c_open "a" UFS_CREATE, .c_open "b" UFS_CREATE,
              .c_open "c" UFS_CREATE, .c_close 1]).file_descriptors[i]? = some (some d) ∧
            d.fd = j) :=
  ⟨reuse_reachable, rfl, by decide,
    C8_descriptor_id_reuse _ _ "d" UFS_CREATE 1 reuse_reachable rfl (by decide)⟩

/-! ## C9: streaming reads -/

set_option maxRecDepth 1000000 in
/-- C9 (streaming read), the code at a failing input. The file "f" holds one full block
of 512 bytes; descriptor 1 is opened on it read-only. A read of 600 bytes returns the
512 stored bytes, fewer than requested, and leaves the cursor without a current block;
the next read of 10 bytes does not return 0: init_filedesc_current_block sends the
cursor back to the first block (with block index 2) and the read returns the first 10
bytes again. So the reads of 600 and of 10 bytes return 522 bytes together, while a
single read of 610 bytes from the same state returns 512. -/
theorem C9_read_restarts_after_end :
    run_then_read [.c_open "f" UFS_CREATE, .c_write 0 (List.replicate 512 7),
        .c_open "f" UFS_READ_ONLY] 1 600 =
        some (512, List.replicate 512 7, .UFS_ERR_NO_ERR) ∧
      run_cursor [.c_open "f" UFS_CREATE, .c_write 0 (List.replicate 512 7),
        .c_open "f" UFS_READ_ONLY, .c_read 1 600] 1 = some (none, 1, 0) ∧
      run_then_read [.c_open "f" UFS_CREATE, .c_write 0 (List.replicate 512 7),
        .c_open "f" UFS_READ_ONLY, .c_read 1 600] 1 10 =
        some (10, List.replicate 10 7, .UFS_ERR_NO_ERR) ∧
      run_cursor [.c_open "f" UFS_CREATE, .c_write 0 (List.replicate 512 7),
        .c_open "f" UFS_READ_ONLY, .c_read 1 600, .c_read 1 10] 1 = some (some 0, 2, 10) ∧
      run_then_read [.c_open "f" UFS_CREATE, .c_write 0 (List.replicate 512 7),
        .c_open "f" UFS_READ_ONLY] 1 610 =
        some (512, List.replicate 512 7, .UFS_ERR_NO_ERR) := by
  refine ⟨?_, ?_, ?_, ?_, ?_⟩ <;> decide

/-! ## C10: what a failed call leaves -/

theorem create_filedesc_nonneg (s : State) (a : Nat) (permissions : Int) (s1 : State) (r : Int)
    (h : create_filedesc s a permissions = .ok (s1, r)) : 0 ≤ r := by
  unfold create_filedesc at h
  simp only at h
  split at h
  · split at h
    · cases h
    · cases h
      exact Int.ofNat_nonneg _
  · cases h

/-- A failed ufs_open changes the error code only. -/
theorem ufs_open_failure (s : State) (filename : String) (flags : Int) (s1 : State)
    (h : ufs_open s filename flags = .ok (s1, -1)) :
    s1 = { s with ufs_error_code := .UFS_ERR_NO_FILE } := by
  unfold ufs_open at h
  split at h
  · cases h
  · exact absurd (create_filedesc_nonneg _ _ _ _ _ h) (by decide)
  · split at h
    · cases h
      rfl
    · exact absurd (create_filedesc_nonneg _ _ _ _ _ h) (by decide)

/-- A write that appends a non-empty buffer leaves the cursor in a block: the turn that
copied the last bytes left it there. -/
theorem ufs_write_loop_append_cursor (c0 buf : List Nat) (f : file) (d : filedesc)
    (hp : appending c0 buf f d 0) (hsz : ((c0.length + buf.length : Nat) : Int) ≤ MAX_FILE_SIZE)
    (hne : buf ≠ []) :
    ∃ f1 d1, ufs_write_loop (2 * buf.length + 2) f d buf 0 =
        .ok (f1, d1, (buf.length : Int), .UFS_ERR_NO_ERR) ∧
      appending c0 buf f1 d1 buf.length ∧ write_keeps f d f1 d1 ∧
      ∃ p, d1.current_block = some p := by
  have hM := MAX_FILE_SIZE_eq
  have hL : to_ssize buf.length = buf.length := to_ssize_of_lt _ (by omega)
  have hpos : 0 < buf.length := List.length_pos.mpr hne
  obtain ⟨f1, d1, hl, ha, _, hk⟩ := ufs_write_loop_append c0 buf f d hp hsz
  refine ⟨f1, d1, hl, ha, hk, ?_⟩
  have h := ufs_write_loop_induct buf
    (fun f1 d1 ws => appending c0 buf f1 d1 ws ∧
      (d1.current_block = none → ws < to_ssize buf.length))
    (fun f1 d1 ws hq => ⟨hq.1.fok, hq.1.cok⟩)
    (by
      intro f1 d1 ws f2 d2 ws2 hq hlt ht
      refine ⟨ufs_write_turn_appending c0 buf f1 d1 ws f2 d2 ws2 hq.1 hlt ht, ?_⟩
      rcases ufs_write_turn_cases f1 d1 buf ws hq.1.fok hq.1.cok with
        ⟨_, _, e⟩ | ⟨p, _, _, e⟩ | ⟨p, b, hcur, _, _, e⟩ | ⟨_, _, e⟩
      · rw [e] at ht; cases ht
      · rw [e] at ht
        cases ht
        intro _
        exact hlt
      · rw [e] at ht
        cases ht
        intro hn
        rw [hcur] at hn
        cases hn
      · rw [e] at ht
        cases ht
        intro hn
        cases hn)
    (2 * buf.length + 2) f d 0 ⟨hp, fun _ => by rw [hL]; exact_mod_cast hpos⟩
    (write_measure_init d buf)
  obtain ⟨f2, d2, ws2, ⟨_, hcur⟩, hres⟩ := h
  rcases hres with ⟨hl2, hnlt⟩ | ⟨hl2, _⟩
  · rw [hl] at hl2
    cases hl2
    cases hc : d1.current_block with
    | none => exact absurd (hcur hc) hnlt
    | some p => exact ⟨p, rfl⟩
  · rw [hl] at hl2
    cases hl2

theorem bytes_length_le (l : List block) (hok : ∀ b ∈ l, block_ok b) :
    (((l.map block_bytes).flatten.length : Nat) : Int) ≤ BLOCK_SIZE * l.length := by
  induction l with
  | nil => simp
  | cons b rest ih =>
    have h1 := ih (fun c hc => hok c (List.mem_cons_of_mem _ hc))
    have h2 := block_bytes_length b (hok b (List.mem_cons_self _ _))
    have h3 := (hok b (List.mem_cons_self _ _)).2.2
    have hB := BLOCK_SIZE_eq
    simp only [List.map_cons, List.flatten_cons, List.length_append, List.length_cons]
    push_cast
    rw [hB] at h1 h3 ⊢
    omega

/-- A write appending a non-empty buffer to a dense file, within MAX_FILE_SIZE: the
state it leaves, with the cursor in the tail block. -/
theorem ufs_write_append_cursor (s : State) (fd : Int) (buf c0 : List Nat) (d0 : filedesc)
    (f : file) (h0 : 0 ≤ fd) (hd : s.file_descriptors[fd.toNat]? = some (some d0))
    (hf : s.files[d0.file]? = some (some f))
    (hperm : no_permissions (init_filedesc_current_block f d0) UFS_READ_WRITE UFS_WRITE_ONLY = false)
    (hp : appending c0 buf f (init_filedesc_current_block f d0) 0)
    (hsz : ((c0.length + buf.length : Nat) : Int) ≤ MAX_FILE_SIZE) (hne : buf ≠ []) :
    ∃ f1 d1, ufs_write s fd buf =
        .ok ({ s with
                files := s.files.set d0.file (some f1),
                file_descriptors := s.file_descriptors.set fd.toNat (some d1),
                ufs_error_code := .UFS_ERR_NO_ERR }, (buf.length : Int)) ∧
      appending c0 buf f1 d1 buf.length ∧
      write_keeps f (init_filedesc_current_block f d0) f1 d1 ∧
      ∃ p, d1.current_block = some p := by
  obtain ⟨f1, d1, hl, ha, hk, hcur⟩ :=
    ufs_write_loop_append_cursor c0 buf f (init_filedesc_current_block f d0) hp hsz hne
  refine ⟨f1, d1, ?_, ha, hk, hcur⟩
  rw [ufs_write_open s fd buf d0 f h0 hd hf, hperm, hl]
  simp

theorem stored_size_le (l : List block) (hok : ∀ b ∈ l, block_ok b) :
    (l.map fun b => b.occupied).sum ≤ BLOCK_SIZE * l.length := by
  induction l with
  | nil => simp
  | cons b rest ih =>
    have h1 := ih (fun c hc => hok c (List.mem_cons_of_mem _ hc))
    have h3 := (hok b (List.mem_cons_self _ _)).2.2
    have hB := BLOCK_SIZE_eq
    simp only [List.map_cons, List.sum_cons, List.length_cons]
    push_cast
    rw [hB] at h1 h3 ⊢
    omega

theorem stored_size_nonneg (l : List block) (hok : ∀ b ∈ l, block_ok b) :
    0 ≤ (l.map fun b => b.occupied).sum := by
  induction l with
  | nil => simp
  | cons b rest ih =>
    have h1 := ih (fun c hc => hok c (List.mem_cons_of_mem _ hc))
    have h3 := (hok b (List.mem_cons_self _ _)).2.1
    simp only [List.map_cons, List.sum_cons]
    omega

/-- The file a successful ufs_resize leaves, by the path taken. -/
theorem ufs_resize_file (s : State) (fd : Int) (new_size : Nat) (d : filedesc) (f : file)
    (hw : WF s) (h0 : 0 ≤ fd) (hd : s.file_descriptors[fd.toNat]? = some (some d))
    (hf : s.files[d.file]? = some (some f)) (hsz : (new_size : Int) ≤ MAX_FILE_SIZE) :
    ∃ s1 f1, ufs_resize s fd new_size = .ok (s1, 0) ∧ s1.files[d.file]? = some (some f1) ∧
      ufs_errno s1 = .UFS_ERR_NO_ERR ∧
      (new_blocks_count new_size ≥ f.blocks_count →
        f1 = grow_blocks (new_blocks_count new_size - f.blocks_count).toNat f) ∧
      (new_blocks_count new_size < f.blocks_count →
        f1.block_list.length = max 1 (new_blocks_count new_size).toNat ∧
        f1.blocks_count = f1.block_list.length ∧
        ∃ b, f1.block_list.getLast? = some b ∧ b.occupied = occupied_remainder new_size) := by
  obtain ⟨hfok, _, _⟩ := hw.files_ok d.file f hf
  have hcnt := hfok.1
  have hlt := lt_of_getElem? _ _ _ hf
  have hnb := new_blocks_count_bounds new_size hsz
  rw [ufs_resize_open s fd new_size d f h0 hd hf hsz]
  by_cases hge : new_blocks_count new_size ≥ f.blocks_count
  · rw [if_pos hge]
    refine ⟨_, _, rfl, ?_, rfl, fun _ => rfl, fun h => absurd hge (not_le.mpr h)⟩
    show (List.set _ _ _)[d.file]? = _
    simp [hlt]
  · rw [if_neg hge]
    have hne : f.block_list ≠ [] := by
      intro e
      rw [e] at hcnt
      simp only [List.length_nil] at hcnt
      omega
    obtain ⟨hr0, hr1⟩ := occupied_remainder_bounds new_size
    obtain ⟨f1, hsh, hok1, hne1, hlen1, _, _, _⟩ :=
      shrunk_file_ok f (f.blocks_count - new_blocks_count new_size).toNat
        (occupied_remainder new_size) hfok hne hr0 hr1
    obtain ⟨f2, hsh2, hbl2, _⟩ :=
      shrink_blocks_spec (f.blocks_count - new_blocks_count new_size).toNat f hne
    rw [hsh] at hsh2
    cases hsh2
    have hpos : 0 < f.block_list.length := List.length_pos.mpr hne
    have hl := congrArg List.length hbl2
    rw [List.length_take] at hl
    have hne2 : f1.block_list ≠ [] := by
      intro e
      rw [e] at hl
      simp only [List.length_nil] at hl
      omega
    rw [hsh]
    refine ⟨_, _, rfl, ?_, rfl, fun h => absurd h hge, fun _ => ⟨?_, hok1.1, ?_⟩⟩
    · show (List.set _ _ _)[d.file]? = _
      simp [hlt]
    · rw [hlen1]
      omega
    · exact set_last_occupied_last f1 _ hne2
set_option maxRecDepth 1000000 in
theorem small_reachable : Reachable small_state :=
  Reachable.call demo_state small_state (.c_write 0 (List.replicate 500 7)) demo_reachable rfl

/-- C11 (truncation), as the code has it. In a reachable state, ufs_resize through an
open descriptor to a size within MAX_FILE_SIZE returns 0. A size below the stored size of
the file needs no more blocks than the file has. When it needs fewer blocks, the tail
block afterwards has `occupied_remainder new_size` as its occupied count: the remainder
of `new_size` by BLOCK_SIZE, or BLOCK_SIZE when `new_size > 0` and the remainder is 0.
When it needs as many blocks as the file has, the file is left as it was: nothing is
truncated. -/
theorem C11_truncation (s : State) (fd : Int) (new_size : Nat) (d : filedesc) (f : file)
    (hs : Reachable s) (h0 : 0 ≤ fd) (hd : s.file_descriptors[fd.toNat]? = some (some d))
    (hf : s.files[d.file]? = some (some f)) (hsz : (new_size : Int) ≤ MAX_FILE_SIZE) :
    ∃ s1 f1, ufs_resize s fd new_size = .ok (s1, 0) ∧ s1.files[d.file]? = some (some f1) ∧
      ((new_size : Int) < stored_size f → new_blocks_count new_size ≤ f.blocks_count) ∧
      (new_blocks_count new_size < f.blocks_count →
        ∃ b, f1.block_list.getLast? = some b ∧ b.occupied = occupied_remainder new_size) ∧
      (new_blocks_count new_size = f.blocks_count → f1 = f) := by
  have hw := Reachable_WF s hs
  obtain ⟨hfok, _, _⟩ := hw.files_ok d.file f hf
  obtain ⟨s1, f1, hr, hf1, _, hgrow, hshrink⟩ :=
    ufs_resize_file s fd new_size d f hw h0 hd hf hsz
  refine ⟨s1, f1, hr, hf1, ?_, fun h => (hshrink h).2.2, ?_⟩
  · intro hlt
    have hle := stored_size_le f.block_list hfok.2.2
    have hcnt := hfok.1
    have hB := BLOCK_SIZE_eq
    unfold stored_size at hlt
    unfold new_blocks_count
    rw [hB] at hle ⊢
    split <;> omega
  · intro he
    rw [hgrow (le_of_eq he.symm), he]
    simp [grow_blocks]

set_option maxRecDepth 1000000 in
/-- Witness of C11: the file "f" holds 500 bytes in one block and is resized to 100
bytes through descriptor 0. The call returns 0 and the block keeps its occupied count
500. -/
theorem C11_truncation_witness :
    Reachable small_state ∧ (0 : Int) ≤ 0 ∧
      small_state.file_descriptors[(0 : Int).toNat]? = some (some small_desc) ∧
      small_state.files[small_desc.file]? = some (some small_file) ∧
      ((100 : Nat) : Int) ≤ MAX_FILE_SIZE ∧
      run_then_resize [.c_open "f" UFS_CREATE, .c_write 0 (List.replicate 500 7)] 0 100 =
        some (0, .UFS_ERR_NO_ERR) ∧
      run_occupied [.c_open "f" UFS_CREATE, .c_write 0 (List.replicate 500 7),
        .c_resize 0 100] 0 = some [500] ∧
      ∃ s1 f1, ufs_resize small_state 0 100 = .ok (s1, 0) ∧
        s1.files[small_desc.file]? = some (some f1) ∧
        (((100 : Nat) : Int) < stored_size small_file →
          new_blocks_count 100 ≤ small_file.blocks_count) ∧
        (new_blocks_count 100 < small_file.blocks_count →
          ∃ b, f1.block_list.getLast? = some b ∧ b.occupied = occupied_remainder 100) ∧
        (new_blocks_count 100 = small_file.blocks_count → f1 = small_file) :=
  ⟨small_reachable, le_refl _, rfl, rfl, by decide, by decide, by decide,
    C11_truncation small_state 0 100 small_desc small_file small_reachable (le_refl _) rfl rfl
      (by decide)⟩

/-! ## C12: the block count after ufs_resize -/

/-- C12 (resize block count), as the code has it. `new_blocks_count new_size` is the
ceiling of `new_size / BLOCK_SIZE`. In a reachable state, ufs_resize through an open
descriptor returns -1 with UFS_ERR_NO_MEM for a size above MAX_FILE_SIZE and returns 0
otherwise. After it the file has `new_blocks_count new_size` blocks, in its counter and
in its block list, when `new_size > 0` or the file had no block. A resize to 0 of a
file that has blocks leaves one block, with occupied count 0, and `blocks_count = 1`:
the shrinking loop frees the tail only while it has a predecessor. -/
theorem C12_resize_block_count (s : State) (fd : Int) (new_size : Nat) (d : filedesc) (f : file)
    (hs : Reachable s) (h0 : 0 ≤ fd) (hd : s.file_descriptors[fd.toNat]? = some (some d))
    (hf : s.files[d.file]? = some (some f)) :
    new_blocks_count new_size = ((new_size : Int) + BLOCK_SIZE - 1) / BLOCK_SIZE ∧
      ((new_size : Int) > MAX_FILE_SIZE →
        ufs_resize s fd new_size = .ok ({ s with ufs_error_code := .UFS_ERR_NO_MEM }, -1)) ∧
      ((new_size : Int) ≤ MAX_FILE_SIZE →
        ∃ s1 f1, ufs_resize s fd new_size = .ok (s1, 0) ∧
          s1.files[d.file]? = some (some f1) ∧
          (0 < new_size ∨ f.blocks_count = 0 →
            f1.blocks_count = new_blocks_count new_size ∧
            (f1.block_list.length : Int) = new_blocks_count new_size) ∧
          (new_size = 0 → 0 < f.blocks_count →
            f1.blocks_count = 1 ∧ ∃ b, f1.block_list = [b] ∧ b.occupied = 0)) := by
  have hw := Reachable_WF s hs
  obtain ⟨hfok, _, _⟩ := hw.files_ok d.file f hf
  have hcnt := hfok.1
  have hB := BLOCK_SIZE_eq
  refine ⟨?_, ?_, ?_⟩
  · unfold new_blocks_count
    rw [hB]
    split <;> omega
  · intro hgt
    unfold ufs_resize
    rw [handle_err_no_file_some s fd d h0 hd]
    simp only
    rw [if_pos hgt]
  · intro hsz
    obtain ⟨hn0, _⟩ := new_blocks_count_bounds new_size hsz
    obtain ⟨s1, f1, hr, hf1, _, hgrow, hshrink⟩ :=
      ufs_resize_file s fd new_size d f hw h0 hd hf hsz
    refine ⟨s1, f1, hr, hf1, ?_, ?_⟩
    · intro hcase
      by_cases hge : new_blocks_count new_size ≥ f.blocks_count
      · obtain ⟨hbl, hbc, _⟩ :=
          grow_blocks_spec (new_blocks_count new_size - f.blocks_count).toNat f
        rw [hgrow hge, hbl, hbc, List.length_append, List.length_replicate]
        push_cast
        omega
      · obtain ⟨hlen, hbc, _⟩ := hshrink (not_le.mp hge)
        have hpos : 0 < new_blocks_count new_size := by
          rcases hcase with h | h
          · unfold new_blocks_count
            rw [hB]
            split <;> omega
          · omega
        rw [hbc, hlen]
        omega
    · intro hz hpos
      subst hz
      have hnz : new_blocks_count 0 = 0 := by decide
      obtain ⟨hlen, hbc, b, hb, hocc⟩ := hshrink (by rw [hnz]; exact hpos)
      rw [hnz] at hlen
      have hlen1 : f1.block_list.length = 1 := hlen
      refine ⟨by rw [hbc, hlen1]; rfl, b, ?_, by rw [hocc]; decide⟩
      match hl : f1.block_list, hlen1, hb with
      | [x], _, hb2 =>
        simp at hb2
        rw [hb2]

set_option maxRecDepth 1000000 in
/-- Witness of C12: the file "f" holds 500 bytes in one block and is resized to 0 bytes
through descriptor 0. The call returns 0 and the file keeps one block, with occupied
count 0. -/
theorem C12_resize_block_count_witness :
    Reachable small_state ∧ (0 : Int) ≤ 0 ∧
      small_state.file_descriptors[(0 : Int).toNat]? = some (some small_desc) ∧
      small_state.files[small_desc.file]? = some (some small_file) ∧
      run_then_resize [.c_open "f" UFS_CREATE, .c_write 0 (List.replicate 500 7)] 0 0 =
        some (0, .UFS_ERR_NO_ERR) ∧
      run_blocks_count [.c_open "f" UFS_CREATE, .c_write 0 (List.replicate 500 7),
        .c_resize 0 0] 0 = some 1 ∧
      run_occupied [.c_open "f" UFS_CREATE, .c_write 0 (List.replicate 500 7),
        .c_resize 0 0] 0 = some [0] ∧
      new_blocks_count 0 = (((0 : Nat) : Int) + BLOCK_SIZE - 1) / BLOCK_SIZE ∧
      ((((0 : Nat) : Int)) > MAX_FILE_SIZE →
        ufs_resize small_state 0 0 =
          .ok ({ small_state with ufs_error_code := .UFS_ERR_NO_MEM }, -1)) ∧
      ((((0 : Nat) : Int)) ≤ MAX_FILE_SIZE →
        ∃ s1 f1, ufs_resize small_state 0 0 = .ok (s1, 0) ∧
          s1.files[small_desc.file]? = some (some f1) ∧
          (0 < 0 ∨ small_file.blocks_count = 0 →
            f1.blocks_count = new_blocks_count 0 ∧
            (f1.block_list.length : Int) = new_blocks_count 0) ∧
          (0 = 0 → 0 < small_file.blocks_count →
            f1.blocks_count = 1 ∧ ∃ b, f1.block_list = [b] ∧ b.occupied = 0)) :=
  ⟨small_reachable, le_refl _, rfl, rfl, by decide, by decide, by decide,
    C12_resize_block_count small_state 0 0 small_desc small_file small_reachable (le_refl _)
      rfl rfl⟩

/-! ## C13: return value and error code -/

/-- The macro handle_err_no_file lets `fd == file_descriptor_capacity` through and reads
the table one slot past its end. -/
theorem handle_err_no_file_capacity (s : State) :
    handle_err_no_file s s.file_descriptor_capacity = .error .undefined_behaviour := by
  unfold handle_err_no_file State.file_descriptor_capacity
  have h1 : ¬ (((s.file_descriptors.length : Nat) : Int) < 0 ∨
      ((s.file_descriptors.length : Nat) : Int) > ((s.file_descriptors.length : Nat) : Int)) := by
    omega
  rw [if_neg h1]
  have h2 : s.file_descriptors[((s.file_descriptors.length : Nat) : Int).toNat]? = none := by
    rw [Int.toNat_ofNat]
    exact List.getElem?_eq_none (le_refl _)
  rw [h2]

theorem handle_err_no_file_total (s : State) (fd : Int)
    (hne : fd ≠ s.file_descriptor_capacity) :
    handle_err_no_file s fd = .ok none ∨
      ∃ d, 0 ≤ fd ∧ s.file_descriptors[fd.toNat]? = some (some d) := by
  unfold State.file_descriptor_capacity at hne
  by_cases hr : fd < 0 ∨ fd > s.file_descriptor_capacity
  · left
    unfold handle_err_no_file
    rw [if_pos hr]
  · unfold State.file_descriptor_capacity at hr
    have hlt : fd.toNat < s.file_descriptors.length := by omega
    cases hx : s.file_descriptors[fd.toNat]? with
    | none =>
      rw [List.getElem?_eq_none_iff] at hx
      omega
    | some x =>
      cases x with
      | none =>
        left
        exact handle_err_no_file_closed s fd (by omega) hx
      | some d => exact Or.inr ⟨d, by omega, rfl⟩

theorem create_filedesc_errno (s : State) (a : Nat) (permissions : Int) (s1 : State) (r : Int)
    (h : create_filedesc s a permissions = .ok (s1, r)) :
    s1.ufs_error_code = s.ufs_error_code := by
  unfold create_filedesc at h
  simp only at h
  split at h
  · split at h
    · cases h
    · cases h
      rfl
  · cases h

/-- The two outcomes of ufs_open. -/
theorem ufs_open_errno (s : State) (filename : String) (flags : Int) (s1 : State) (ret : Int)
    (h : ufs_open s filename flags = .ok (s1, ret)) :
    (ret = -1 ∧ ufs_errno s1 = .UFS_ERR_NO_FILE) ∨ (0 ≤ ret ∧ ufs_errno s1 = .UFS_ERR_NO_ERR) := by
  unfold ufs_open at h
  split at h
  · cases h
  · exact Or.inr ⟨create_filedesc_nonneg _ _ _ _ _ h, create_filedesc_errno _ _ _ _ _ h⟩
  · split at h
    · cases h
      exact Or.inl ⟨rfl, rfl⟩
    · exact Or.inr ⟨create_filedesc_nonneg _ _ _ _ _ h, create_filedesc_errno _ _ _ _ _ h⟩
/-- C13 (error reporting), as the code has it. In a reachable state, a call of ufs_read,
ufs_write, ufs_resize or ufs_close whose descriptor number equals
`file_descriptor_capacity` has no defined result: handle_err_no_file reads the table one
slot past its end. Every other call of the six entry points returns; it returns a
negative value, which is -1, exactly when the error code it leaves differs from
UFS_ERR_NO_ERR, whatever error code was stored before. -/
theorem C13_error_reporting (s : State) (c : Call) (hs : Reachable s) :
    (c.fd = some s.file_descriptor_capacity → call s c = .error .undefined_behaviour) ∧
      (c.fd ≠ some s.file_descriptor_capacity →
        ∃ s1 ret, call s c = .ok (s1, ret) ∧
          (ret < 0 ↔ ufs_errno s1 ≠ .UFS_ERR_NO_ERR) ∧ (ret < 0 → ret = -1)) := by
  have hw := Reachable_WF s hs
  cases c with
  | c_open filename flags =>
    refine ⟨fun h => (by cases h), fun _ => ?_⟩
    obtain ⟨s1, ret, ho, _⟩ := ufs_open_valid s filename flags hw
    refine ⟨s1, ret, ho, ?_⟩
    rcases ufs_open_errno s filename flags s1 ret ho with ⟨hr, he⟩ | ⟨hr, he⟩
    · rw [hr, he]
      simp
    · rw [he]
      exact ⟨⟨fun h => by omega, fun h => absurd rfl h⟩, fun h => by omega⟩
  | c_read fd size =>
    constructor
    · intro h
      cases h
      simp only [call, ufs_read, handle_err_no_file_capacity]
    · intro hne
      have hne2 : fd ≠ s.file_descriptor_capacity := fun e => hne (by rw [e]; rfl)
      rcases handle_err_no_file_total s fd hne2 with hn | ⟨d, h0, hd⟩
      · refine ⟨{ s with ufs_error_code := .UFS_ERR_NO_FILE }, -1, ?_, ?_⟩
        · simp only [call, ufs_read, hn]
        · simp [ufs_errno]
      · obtain ⟨s1, ret, out, hr, hout⟩ := ufs_read_outcome s fd size d hw h0 hd
        refine ⟨s1, ret, by simp only [call, hr], ?_⟩
        rcases hout with ⟨_, hret, _, he⟩ | ⟨_, hge, _, he⟩
        · rw [hret, he]
          simp
        · rw [he]
          exact ⟨⟨fun h => by omega, fun h => absurd rfl h⟩, fun h => by omega⟩
  | c_write fd buf =>
    constructor
    · intro h
      cases h
      simp only [call, ufs_write, handle_err_no_file_capacity]
    · intro hne
      have hne2 : fd ≠ s.file_descriptor_capacity := fun e => hne (by rw [e]; rfl)
      rcases handle_err_no_file_total s fd hne2 with hn | ⟨d, h0, hd⟩
      · refine ⟨{ s with ufs_error_code := .UFS_ERR_NO_FILE }, -1, ?_, ?_⟩
        · simp only [call, ufs_write, hn]
        · simp [ufs_errno]
      · obtain ⟨s1, ret, hr, hout⟩ := ufs_write_outcome s fd buf d hw h0 hd
        refine ⟨s1, ret, hr, ?_⟩
        rcases hout with ⟨_, hret, he⟩ | ⟨_, ⟨hge, he⟩ | ⟨hret, he⟩⟩
        · rw [hret, he]
          simp
        · rw [he]
          exact ⟨⟨fun h => by omega, fun h => absurd rfl h⟩, fun h => by omega⟩
        · rw [hret, he]
          simp
  | c_resize fd new_size =>
    constructor
    · intro h
      cases h
      simp only [call, ufs_resize, handle_err_no_file_capacity]
    · intro hne
      have hne2 : fd ≠ s.file_descriptor_capacity := fun e => hne (by rw [e]; rfl)
      rcases handle_err_no_file_total s fd hne2 with hn | ⟨d, h0, hd⟩
      · refine ⟨{ s with ufs_error_code := .UFS_ERR_NO_FILE }, -1, ?_, ?_⟩
        · simp only [call, ufs_resize, hn]
        · simp [ufs_errno]
      · obtain ⟨_, f, hf, _⟩ := hw.desc_ok fd.toNat d hd
        by_cases hsz : (new_size : Int) ≤ MAX_FILE_SIZE
        · obtain ⟨s1, f1, hr, _, he, _⟩ := ufs_resize_file s fd new_size d f hw h0 hd hf hsz
          refine ⟨s1, 0, hr, ?_⟩
          rw [he]
          simp
        · refine ⟨{ s with ufs_error_code := .UFS_ERR_NO_MEM }, -1, ?_, ?_⟩
          · simp only [call, ufs_resize, handle_err_no_file_some s fd d h0 hd]
            rw [if_pos (not_le.mp hsz)]
          · simp [ufs_errno]
  | c_close fd =>
    constructor
    · intro h
      cases h
      simp only [call, ufs_close, handle_err_no_file_capacity]
    · intro hne
      have hne2 : fd ≠ s.file_descriptor_capacity := fun e => hne (by rw [e]; rfl)
      rcases handle_err_no_file_total s fd hne2 with hn | ⟨d, h0, hd⟩
      · refine ⟨{ s with ufs_error_code := .UFS_ERR_NO_FILE }, -1, ?_, ?_⟩
        · simp only [call, ufs_close, hn]
        · simp [ufs_errno]
      · obtain ⟨_, f, hf, _⟩ := hw.desc_ok fd.toNat d hd
        refine ⟨_, 0, ufs_close_open s fd d f h0 hd hf, ?_⟩
        simp [ufs_errno]
  | c_delete filename =>
    refine ⟨fun h => (by cases h), fun _ => ?_⟩
    rcases find_file_spec s filename s.file_list
        (fun a ha => (hw.list_live a ha).imp fun f hf => hf.1) with
      ⟨a, f, hfind, _, hf, _⟩ | ⟨hfind, _⟩
    · refine ⟨_, 0, ufs_delete_found s filename a f hfind hf, ?_⟩
      simp [ufs_errno]
    · refine ⟨{ s with ufs_error_code := .UFS_ERR_NO_FILE }, -1, ?_, ?_⟩
      · simp only [call, ufs_delete, hfind]
      · simp [ufs_errno]

/-- Witness of C13: ufs_close(0) as the first call on the empty filesystem, whose
descriptor table is not allocated. -/
theorem C13_error_reporting_witness :
    Reachable State.empty ∧
      ((Call.c_close 0).fd = some State.empty.file_descriptor_capacity →
        call State.empty (.c_close 0) = .error .undefined_behaviour) ∧
      ((Call.c_close 0).fd ≠ some State.empty.file_descriptor_capacity →
        ∃ s1 ret, call State.empty (.c_close 0) = .ok (s1, ret) ∧
          (ret < 0 ↔ ufs_errno s1 ≠ .UFS_ERR_NO_ERR) ∧ (ret < 0 → ret = -1)) :=
  ⟨Reachable.init, C13_error_reporting State.empty (.c_close 0) Reachable.init⟩

/-! ## C15: the cursor and the block count -/

/-- C17 (reference counts). In a reachable state the `refs` of every live file is the
number of open descriptors bound to it, the file is marked removed exactly when it is
no longer linked in the file list, and no live file is marked removed with `refs = 0`. -/
theorem C17_reference_count (s : State) (a : Nat) (f : file) (hs : Reachable s)
    (hf : s.files[a]? = some (some f)) :
    f.refs = ref_count a s.file_descriptors ∧ (f.is_removed = true ↔ a ∉ s.file_list) ∧
      ¬ (f.is_removed = true ∧ f.refs = 0) := by
  have hw := Reachable_WF s hs
  obtain ⟨_, hrefs, hout⟩ := hw.files_ok a f hf
  have hiff : f.is_removed = true ↔ a ∉ s.file_list := by
    constructor
    · intro hr hin
      obtain ⟨g, hg, hlive⟩ := hw.list_live a hin
      rw [hf] at hg
      cases hg
      rw [hlive] at hr
      cases hr
    · intro hin
      exact (hout hin).1
  refine ⟨hrefs, hiff, ?_⟩
  rintro ⟨hr, h0⟩
  have := (hout (hiff.mp hr)).2
  omega

/-- Witness of C17: the file "f" with descriptor 0 open on it. -/
theorem C17_reference_count_witness :
    Reachable small_state ∧ small_state.files[0]? = some (some small_file) ∧
      small_file.refs = ref_count 0 small_state.file_descriptors ∧
      (small_file.is_removed = true ↔ 0 ∉ small_state.file_list) ∧
      ¬ (small_file.is_removed = true ∧ small_file.refs = 0) :=
  ⟨small_reachable, rfl, C17_reference_count small_state 0 small_file small_reachable rfl⟩

/-! ## C18: the size ceiling -/

/-- C18 (size ceiling). In a reachable state every file has at most
MAX_FILE_SIZE / BLOCK_SIZE = 204800 blocks, its counter being the length of its block
list, every block has an occupied count between 0 and BLOCK_SIZE, and the stored size of
the file is at most MAX_FILE_SIZE. -/
theorem C18_size_ceiling (s : State) (a : Nat) (f : file) (hs : Reachable s)
    (hf : s.files[a]? = some (some f)) :
    f.blocks_count = f.block_list.length ∧ f.blocks_count ≤ MAX_FILE_SIZE / BLOCK_SIZE ∧
      MAX_FILE_SIZE / BLOCK_SIZE = 204800 ∧
      (∀ b ∈ f.block_list, 0 ≤ b.occupied ∧ b.occupied ≤ BLOCK_SIZE) ∧
      0 ≤ stored_size f ∧ stored_size f ≤ MAX_FILE_SIZE := by
  have hw := Reachable_WF s hs
  obtain ⟨⟨hcnt, hle, hblocks⟩, _, _⟩ := hw.files_ok a f hf
  have hsum := stored_size_le f.block_list hblocks
  have hc := ceiling_eq
  have hM := MAX_FILE_SIZE_eq
  have hB := BLOCK_SIZE_eq
  refine ⟨hcnt, hle, hc, fun b hb => (hblocks b hb).2, stored_size_nonneg _ hblocks, ?_⟩
  unfold stored_size
  rw [hB] at hsum
  omega

/-- Witness of C18: the file "f" holding 500 bytes. -/
theorem C18_size_ceiling_witness :
    Reachable small_state ∧ small_state.files[0]? = some (some small_file) ∧
      small_file.blocks_count = small_file.block_list.length ∧
      small_file.blocks_count ≤ MAX_FILE_SIZE / BLOCK_SIZE ∧
      MAX_FILE_SIZE / BLOCK_SIZE = 204800 ∧
      (∀ b ∈ small_file.block_list, 0 ≤ b.occupied ∧ b.occupied ≤ BLOCK_SIZE) ∧
      0 ≤ stored_size small_file ∧ stored_size small_file ≤ MAX_FILE_SIZE :=
  ⟨small_reachable, rfl, C18_size_ceiling small_state 0 small_file small_reachable rfl⟩

/-! ## C19: the slot search of create_filedesc -/

theorem create_filedesc_count (s : State) (a : Nat) (permissions : Int) (s1 : State) (r : Int)
    (h : create_filedesc s a permissions = .ok (s1, r)) :
    s1.file_descriptor_count = s.file_descriptor_count + 1 ∧ r < s1.file_descriptor_capacity := by
  unfold create_filedesc at h
  simp only at h
  split at h
  · split at h
    · cases h
    · cases h
      refine ⟨rfl, ?_⟩
      simp only [State.file_descriptor_capacity, List.length_set]
      omega
  · cases h

theorem ufs_close_count (s : State) (fd : Int) (s1 : State) (ret : Int)
    (h : ufs_close s fd = .ok (s1, ret)) :
    s1.file_descriptor_count = s.file_descriptor_count := by
  unfold ufs_close at h
  split at h
  · cases h
  · cases h
    rfl
  · split at h
    · cases h
    · cases h
      dsimp only
      split <;> rfl

theorem ufs_open_count (s : State) (filename : String) (flags : Int) (s1 : State) (ret : Int)
    (h : ufs_open s filename flags = .ok (s1, ret)) (hret : 0 ≤ ret) :
    s1.file_descriptor_count = s.file_descriptor_count + 1 ∧
      ret < s1.file_descriptor_capacity := by
  unfold ufs_open at h
  split at h
  · cases h
  · have := create_filedesc_count _ _ _ _ _ h
    exact this
  · split at h
    · cases h
      omega
    · have := create_filedesc_count _ _ _ _ _ h
      exact this

/-- C19 (descriptor table safety). In a reachable state the open descriptors are at most
`file_descriptor_count`, which is at most `file_descriptor_capacity`; the slot search of
create_filedesc, run on the table as lines 132 to 137 leave it, stops at an empty slot
whose index is below the capacity of that table. ufs_close leaves
`file_descriptor_count` as it was and a successful ufs_open adds one to it and returns
a descriptor number below the capacity. -/
theorem C19_slot_search (s : State) (hs : Reachable s) :
    (open_count s.file_descriptors : Int) ≤ s.file_descriptor_count ∧
      s.file_descriptor_count ≤ s.file_descriptor_capacity ∧
      first_free_slot (grown_table s) < (grown_table s).length ∧
      (grown_table s)[first_free_slot (grown_table s)]? = some none ∧
      (∀ fd s1 ret, ufs_close s fd = .ok (s1, ret) →
        s1.file_descriptor_count = s.file_descriptor_count) ∧
      (∀ filename flags s1 ret, ufs_open s filename flags = .ok (s1, ret) → 0 ≤ ret →
        s1.file_descriptor_count = s.file_descriptor_count + 1 ∧
        ret < s1.file_descriptor_capacity) := by
  have hw := Reachable_WF s hs
  obtain ⟨hoc, _, hlen, _⟩ := grown_table_spec s hw
  obtain ⟨_, hnone, _, hfree⟩ := first_free_slot_spec (grown_table s)
  have hopen := hw.open_le
  have hlt : first_free_slot (grown_table s) < (grown_table s).length := by
    apply hfree
    rw [hoc]
    omega
  exact ⟨hopen, by unfold State.file_descriptor_capacity; exact hw.count_le, hlt, hnone hlt,
    fun fd s1 ret h => ufs_close_count s fd s1 ret h,
    fun filename flags s1 ret h hret => ufs_open_count s filename flags s1 ret h hret⟩

/-- Witness of C19: the state with the file "f" and descriptor 0 in a table of four
slots. -/
theorem C19_slot_search_witness :
    Reachable small_state ∧
      (open_count small_state.file_descriptors : Int) ≤ small_state.file_descriptor_count ∧
      small_state.file_descriptor_count ≤ small_state.file_descriptor_capacity ∧
      first_free_slot (grown_table small_state) < (grown_table small_state).length ∧
      (grown_table small_state)[first_free_slot (grown_table small_state)]? = some none ∧
      (∀ fd s1 ret, ufs_close small_state fd = .ok (s1, ret) →
        s1.file_descriptor_count = small_state.file_descriptor_count) ∧
      (∀ filename flags s1 ret, ufs_open small_state filename flags = .ok (s1, ret) →
        0 ≤ ret →
        s1.file_descriptor_count = small_state.file_descriptor_count + 1 ∧
        ret < s1.file_descriptor_capacity) :=
  ⟨small_reachable, C19_slot_search small_state small_reachable⟩

/-! ## Writing inside the stored bytes overwrites them -/

theorem take_splice (mem src : List Nat) (o n m : Nat) (hsrc : src.length = n)
    (hm : o + n ≤ m) (hmem : m ≤ mem.length) :
    (mem.take o ++ src ++ mem.drop (o + n)).take m =
      (mem.take m).take o ++ src ++ (mem.take m).drop (o + n) := by
  have h1 : (mem.take o ++ src).length = o + n := by
    simp only [List.length_append, List.length_take, hsrc]
    omega
  rw [List.take_append_eq_append_take, h1, List.take_of_length_le (by omega), List.take_take,
    List.drop_take]
  have e : min o m = o := by omega
  rw [e]

/-- The block a copying turn leaves when the bytes it stores end within the occupied
part: the occupied count stays and the stored bytes are replaced in place. -/
theorem written_block_over (b : block) (off : Int) (buf : List Nat) (ws : Int)
    (hb : block_ok b) (h0 : 0 ≤ off) (hoff : off < BLOCK_SIZE) (hws : 0 ≤ ws)
    (hlt : ws < to_ssize buf.length) (hle : off + write_chunk off buf ws ≤ b.occupied) :
    (written_block b off buf ws).occupied = b.occupied ∧
      block_bytes (written_block b off buf ws) =
        (block_bytes b).take off.toNat ++
          (buf.drop ws.toNat).take (write_chunk off buf ws).toNat ++
          (block_bytes b).drop (off.toNat + (write_chunk off buf ws).toNat) := by
  obtain ⟨hm, ho0, ho1⟩ := hb
  have hB := BLOCK_SIZE_eq
  have hBn := BLOCK_SIZE_toNat
  have hsl := to_ssize_le buf.length
  have hpos := write_chunk_pos off buf ws hoff hlt
  have hcl := write_chunk_le off buf ws
  have hocc : (written_block b off buf ws).occupied = b.occupied := by
    simp only [written_block, write_chunk] at hle ⊢
    omega
  refine ⟨hocc, ?_⟩
  unfold block_bytes
  rw [hocc]
  simp only [written_block, write_chunk] at hpos hcl hle ⊢
  exact take_splice b.memory _ off.toNat _ b.occupied.toNat
    (by simp only [List.length_take, List.length_drop]; omega) (by omega) (by omega)

theorem splice_contents (C pre bb post X Y src : List Nat) (o n : Nat)
    (hC : C = pre ++ bb ++ post) (hXY : C = X ++ Y) (hX : X.length = pre.length + o)
    (hon : o + n ≤ bb.length) :
    pre ++ (bb.take o ++ src ++ bb.drop (o + n)) ++ post = X ++ src ++ Y.drop n := by
  have h1 : pre ++ bb.take o = X := by
    have hl : (X ++ Y).take (pre.length + o) = X := List.take_left' hX
    have hr : (pre ++ bb ++ post).take (pre.length + o) = pre ++ bb.take o := by
      rw [List.append_assoc, List.take_append, List.take_append_of_le_length (by omega)]
    rw [← hr, ← hC, hXY, hl]
  have h2 : bb.drop (o + n) ++ post = Y.drop n := by
    have hl : (X ++ Y).drop (pre.length + o + n) = Y.drop n := by
      rw [← hX, List.drop_append]
    have hr : (pre ++ bb ++ post).drop (pre.length + o + n) = bb.drop (o + n) ++ post := by
      rw [List.append_assoc, Nat.add_assoc, List.drop_append,
        List.drop_append_of_le_length hon]
    rw [← hr, ← hC, hXY, hl]
  rw [← h1, ← h2]
  simp only [List.append_assoc]
theorem dense_of_index (l : List block)
    (h : ∀ (i : Nat) (b : block), i + 1 < l.length → l[i]? = some b → b.occupied = BLOCK_SIZE) :
    dense l := by
  intro b hb
  obtain ⟨i, hi⟩ := List.mem_iff_getElem?.mp hb
  rw [List.getElem?_dropLast] at hi
  split at hi
  · exact h i b (by omega) hi
  · cases hi

theorem dense_of_occ (l1 l2 : List block)
    (h : (l1.map fun b => b.occupied) = l2.map fun b => b.occupied) (hd : dense l2) :
    dense l1 := by
  have hlen : l1.length = l2.length := by
    have := congrArg List.length h
    simpa using this
  apply dense_of_index
  intro i b hi hb
  have h1 := congrArg (fun l => l[i]?) h
  simp only [List.getElem?_map, hb, Option.map_some'] at h1
  cases h2 : l2[i]? with
  | none =>
    rw [h2] at h1
    cases h1
  | some b2 =>
    rw [h2] at h1
    simp only [Option.map_some', Option.some.injEq] at h1
    rw [h1]
    exact dense_full l2 i b2 hd (by omega) h2

theorem set_split (l : List block) (p : Nat) (b b1 : block) (h : l[p]? = some b) :
    l.set p b1 = l.take p ++ b1 :: l.drop (p + 1) := by
  have hp := lt_of_getElem? _ _ _ h
  conv_lhs => rw [split_at l p b h]
  rw [List.set_append_right _ _ (by simp)]
  simp only [List.length_take]
  have e : p - min p l.length = 0 := by omega
  rw [e]
  rfl

theorem occ_set (l : List block) (p : Nat) (b b1 : block) (h : l[p]? = some b)
    (ho : b1.occupied = b.occupied) :
    ((l.set p b1).map fun b => b.occupied) = l.map fun b => b.occupied := by
  rw [List.map_set]
  apply set_same
  rw [List.getElem?_map, h, ho]
  rfl
/-- A turn of the write loop keeps the overwriting invariant while the buffer is no
longer than the stored bytes. -/
theorem ufs_write_turn_overwriting (c buf : List Nat) (f0 f : file) (d : filedesc) (ws : Int)
    (f1 : file) (d1 : filedesc) (ws1 : Int) (hp : overwriting c buf f0 f d ws)
    (hk : buf.length ≤ c.length) (hL : to_ssize buf.length = buf.length)
    (hlt : ws < to_ssize buf.length)
    (ht : ufs_write_turn f d buf ws = .ok (.next f1 d1 ws1)) :
    overwriting c buf f0 f1 d1 ws1 := by
  obtain ⟨hkp, hle1, hle2⟩ := ufs_write_turn_keeps f d buf f d ws f1 d1 ws1
    (write_keeps_refl f d hp.fok hp.cok) hp.ws_nonneg hlt ht
  have hB := BLOCK_SIZE_eq
  have hws := hp.ws_nonneg
  have hwl := hp.ws_le
  have hN : (((contents f).length : Nat) : Int) = c.length := by
    rw [hp.bytes]
    simp only [List.length_append, List.length_take, List.length_drop]
    omega
  rcases ufs_write_turn_cases f d buf ws hp.fok hp.cok with
    ⟨_, _, ht2⟩ | ⟨p, hcb, hoff, ht2⟩ | ⟨p, b, hcb, hb, hoff, ht2⟩ | ⟨hn, _, ht2⟩
  · rw [ht2] at ht; cases ht
  · rw [ht2] at ht
    injection ht with ht; injection ht with e1 e2 e3
    subst e1 e2 e3
    obtain ⟨b, hb, hpos, hob⟩ := hp.at_pos p hcb
    have hpl := lt_of_getElem? _ _ _ hb
    have hbok := hp.fok.2.2 b (List.getElem?_mem hb)
    refine ⟨hkp.fok, hkp.cok, hp.dns, hp.bytes, hp.occ, hp.ws_nonneg, hp.ws_le, ?_, ?_⟩
    · intro q hq
      simp only [block_next] at hq
      split at hq
      · cases hq
        rename_i hlt2
        refine ⟨f.block_list[p + 1], List.getElem?_eq_getElem hlt2, ?_, ?_⟩
        · simp only
          push_cast
          rw [hB] at hpos hoff ⊢
          omega
        · exact (hp.fok.2.2 _ (List.getElem_mem hlt2)).2.1
      · cases hq
    · intro hq
      simp only [block_next] at hq
      split at hq
      · cases hq
      · rename_i hnl
        have hlen := contents_length_tail f p b hp.fok hp.dns hb (by omega)
        have ho1 := hbok.2.2
        rw [hB] at hlen hpos hoff ho1
        omega
  · rw [ht2] at ht
    injection ht with ht; injection ht with e1 e2 e3
    subst e1 e2 e3
    obtain ⟨b2, hb2, hpos, hob⟩ := hp.at_pos p hcb
    rw [hb] at hb2
    cases hb2
    have hpl := lt_of_getElem? _ _ _ hb
    have hbok := hp.fok.2.2 b (List.getElem?_mem hb)
    have h0off := hp.cok.1
    have hcl := write_chunk_le d.offset buf ws
    have hpos2 := write_chunk_pos d.offset buf ws hoff hlt
    have hle : d.offset + write_chunk d.offset buf ws ≤ b.occupied := by
      by_cases hpn : p + 1 < f.block_list.length
      · rw [dense_full f.block_list p b hp.dns hpn hb]
        exact hcl.1
      · have hlen := contents_length_tail f p b hp.fok hp.dns hb (by omega)
        rw [hB] at hlen hpos
        omega
    obtain ⟨hocc, hbytes⟩ := written_block_over b d.offset buf ws hbok h0off hoff hws hlt hle
    have hoccs := occ_set f.block_list p b (written_block b d.offset buf ws) hb hocc
    obtain ⟨hsplit, hpre⟩ := contents_split f p b hp.fok hp.dns hb
    have hbl := block_bytes_length b hbok
    refine ⟨hkp.fok, hkp.cok, ?_, ?_, ?_, by omega, by omega, ?_, ?_⟩
    · exact dense_of_occ _ _ hoccs hp.dns
    · have hc1 : contents { f with
          block_list := f.block_list.set p (written_block b d.offset buf ws) } =
          ((f.block_list.take p).map block_bytes).flatten ++
            block_bytes (written_block b d.offset buf ws) ++
            ((f.block_list.drop (p + 1)).map block_bytes).flatten := by
        unfold contents
        simp only [set_split f.block_list p b _ hb, List.map_append, List.flatten_append,
          List.map_cons, List.flatten_cons, List.append_assoc]
      rw [hc1, hbytes]
      have hsp := splice_contents (contents f)
        ((f.block_list.take p).map block_bytes).flatten (block_bytes b)
        ((f.block_list.drop (p + 1)).map block_bytes).flatten
        (buf.take ws.toNat) (c.drop ws.toNat)
        ((buf.drop ws.toNat).take (write_chunk d.offset buf ws).toNat)
        d.offset.toNat (write_chunk d.offset buf ws).toNat hsplit hp.bytes
        (by
          simp only [List.length_take]
          rw [hB] at hpre hpos
          omega)
        (by omega)
      rw [hsp, take_step buf ws _ hws (le_of_lt hpos2), List.drop_drop]
      congr 2
      omega
    · rw [hoccs]
      exact hp.occ
    · intro q hq
      simp only at hq
      rw [hcb] at hq
      cases hq
      refine ⟨written_block b d.offset buf ws, ?_, ?_, ?_⟩
      · simp only
        rw [List.getElem?_set_self hpl]
      · simp only
        omega
      · simp only
        rw [hocc]
        exact hle
    · intro hq
      simp only at hq
      rw [hcb] at hq
      cases hq
  · exfalso
    have := hp.at_eof hn
    omega
theorem init_start (f : file) (d0 : filedesc) (hc : cursor_ok f d0) (hoff : d0.offset = 0)
    (hcur : d0.current_block = none ∨ d0.current_block = some 0) :
    (init_filedesc_current_block f d0).offset = 0 ∧
      (((init_filedesc_current_block f d0).current_block = none ∧ f.block_list = []) ∨
        ((init_filedesc_current_block f d0).current_block = some 0 ∧ f.block_list ≠ [])) := by
  constructor
  · unfold init_filedesc_current_block
    split <;> exact hoff
  · unfold init_filedesc_current_block
    by_cases hempty : f.block_list = []
    · rcases hcur with hcur | hcur
      · left
        simp [hempty, hcur]
      · exfalso
        have := (hc.2.2.2 0 hcur).1
        rw [hempty] at this
        simp at this
    · right
      rcases hcur with hcur | hcur
      · simp [hempty, hcur]
      · refine ⟨?_, hempty⟩
        simp [hcur]

/-- Writing `buf` from the start of a dense file holding `c`, `buf` being no longer than
`c`: the loop takes every byte, the file then holds `buf` followed by the rest of `c`,
and every block keeps its occupied count. -/
theorem ufs_write_loop_overwrite (c buf : List Nat) (f : file) (d : filedesc)
    (hp : overwriting c buf f f d 0) (hk : buf.length ≤ c.length) (hsz : buf.length < 2 ^ 63) :
    ∃ f1 d1, ufs_write_loop (2 * buf.length + 2) f d buf 0 =
        .ok (f1, d1, (buf.length : Int), .UFS_ERR_NO_ERR) ∧
      overwriting c buf f f1 d1 buf.length ∧ contents f1 = buf ++ c.drop buf.length ∧
      write_keeps f d f1 d1 := by
  have hL : to_ssize buf.length = buf.length := to_ssize_of_lt _ hsz
  have h := ufs_write_loop_induct buf
    (fun f1 d1 ws => overwriting c buf f f1 d1 ws ∧ write_keeps f d f1 d1)
    (fun f1 d1 ws hq => ⟨hq.1.fok, hq.1.cok⟩)
    (by
      intro f1 d1 ws f2 d2 ws2 hq hlt ht
      exact ⟨ufs_write_turn_overwriting c buf f f1 d1 ws f2 d2 ws2 hq.1 hk hL hlt ht,
        (ufs_write_turn_keeps f d buf f1 d1 ws f2 d2 ws2 hq.2 hq.1.ws_nonneg hlt ht).1⟩)
    (2 * buf.length + 2) f d 0 ⟨hp, write_keeps_refl f d hp.fok hp.cok⟩
    (write_measure_init d buf)
  obtain ⟨f1, d1, ws1, ⟨ha, hkp⟩, hres⟩ := h
  rcases hres with ⟨hl, hnlt⟩ | ⟨hl, hlt, hn, hge⟩
  · have hws : ws1 = buf.length := by
      have h2 := ha.ws_le
      omega
    subst hws
    refine ⟨f1, d1, hl, ha, ?_, hkp⟩
    rw [ha.bytes]
    simp
  · exfalso
    have := ha.at_eof hn
    omega

/-- A write through a descriptor standing at the start of its dense file, of a buffer
no longer than the stored bytes: the state it leaves. -/
theorem ufs_write_overwrite (s : State) (fd : Int) (buf : List Nat) (d0 : filedesc) (f : file)
    (hw : WF s) (h0 : 0 ≤ fd) (hd : s.file_descriptors[fd.toNat]? = some (some d0))
    (hf : s.files[d0.file]? = some (some f))
    (hperm : no_permissions d0 UFS_READ_WRITE UFS_WRITE_ONLY = false)
    (hdn : dense f.block_list) (hoff : d0.offset = 0)
    (hcur : d0.current_block = none ∨ d0.current_block = some 0)
    (hk : buf.length ≤ (contents f).length) :
    ∃ f1 d1, ufs_write s fd buf =
        .ok ({ s with
                files := s.files.set d0.file (some f1),
                file_descriptors := s.file_descriptors.set fd.toNat (some d1),
                ufs_error_code := .UFS_ERR_NO_ERR }, (buf.length : Int)) ∧
      contents f1 = buf ++ (contents f).drop buf.length ∧
      (f1.block_list.map fun b => b.occupied) = (f.block_list.map fun b => b.occupied) ∧
      write_keeps f (init_filedesc_current_block f d0) f1 d1 := by
  obtain ⟨_, f2, hf2, hc⟩ := hw.desc_ok fd.toNat d0 hd
  rw [hf] at hf2
  cases hf2
  obtain ⟨hfok, _, _⟩ := hw.files_ok d0.file f hf
  obtain ⟨hic, _, _, _⟩ := init_keeps f d0 hc
  obtain ⟨hinit_off, hinit_cur⟩ := init_start f d0 hc hoff hcur
  have hsz : buf.length < 2 ^ 63 := by
    have h1 := bytes_length_le f.block_list hfok.2.2
    have h2 := hfok.1
    have h3 := hfok.2.1
    have hB := BLOCK_SIZE_eq
    have hc := ceiling_eq
    unfold contents at hk
    rw [hB] at h1
    rw [hc] at h3
    omega
  have hp : overwriting (contents f) buf f f (init_filedesc_current_block f d0) 0 := by
    refine ⟨hfok, hic, hdn, by simp, rfl, le_refl _, by omega, ?_, ?_⟩
    · intro p hp
      rcases hinit_cur with ⟨h1, _⟩ | ⟨h1, h2⟩
      · rw [h1] at hp; cases hp
      · rw [h1] at hp
        cases hp
        obtain ⟨b, hb, hbm⟩ := getElem?_of_cursor f 0 (List.length_pos.mpr h2)
        refine ⟨b, hb, ?_, ?_⟩
        · rw [hinit_off]; simp
        · rw [hinit_off]; exact (hfok.2.2 b hbm).2.1
    · intro hn
      rcases hinit_cur with ⟨_, h2⟩ | ⟨h1, _⟩
      · simp [contents, h2]
      · rw [h1] at hn; cases hn
  obtain ⟨f1, d1, hl, ha, hcont, hkp⟩ :=
    ufs_write_loop_overwrite (contents f) buf f _ hp hk hsz
  refine ⟨f1, d1, ?_, hcont, ha.occ, hkp⟩
  rw [ufs_write_open s fd buf d0 f h0 hd hf, no_permissions_init, hperm, hl]
  simp

/-! ## C14: overwriting keeps the stored size -/

set_option maxRecDepth 1000000 in
theorem overwrite_reachable : Reachable overwrite_state :=
  Reachable.call small_state overwrite_state (.c_open "f" UFS_WRITE_ONLY) small_reachable rfl

theorem overwrite_dense : dense ({ small_file with refs := 2 } : file).block_list := by
  intro b hb
  cases hb

/-- C14 (overwrite), as the code has it. In a reachable state, let a file have every
block but the last full and hold the bytes `c`, and let a writable descriptor stand at
its start: in the first block at offset 0, or without a current block and with block
index -1. A write of `buf`, no longer than `c`, returns the length of `buf` with
UFS_ERR_NO_ERR; every block keeps its occupied count, so the stored size stays, and the
file then holds `buf` followed by the bytes of `c` from position `buf.length` on. -/
theorem C14_overwrite (s : State) (fd : Int) (buf : List Nat) (d0 : filedesc) (f : file)
    (hs : Reachable s) (h0 : 0 ≤ fd) (hd : s.file_descriptors[fd.toNat]? = some (some d0))
    (hf : s.files[d0.file]? = some (some f))
    (hperm : no_permissions d0 UFS_READ_WRITE UFS_WRITE_ONLY = false)
    (hdn : dense f.block_list) (hoff : d0.offset = 0)
    (hcur : d0.current_block = some 0 ∨
      (d0.current_block = none ∧ d0.current_block_index = -1))
    (hk : buf.length ≤ (contents f).length) :
    ∃ s1 f1, ufs_write s fd buf = .ok (s1, (buf.length : Int)) ∧
      ufs_errno s1 = .UFS_ERR_NO_ERR ∧ s1.files[d0.file]? = some (some f1) ∧
      (f1.block_list.map fun b => b.occupied) = (f.block_list.map fun b => b.occupied) ∧
      stored_size f1 = stored_size f ∧ (contents f1).length = (contents f).length ∧
      contents f1 = buf ++ (contents f).drop buf.length := by
  have hw := Reachable_WF s hs
  have hlt := lt_of_getElem? _ _ _ hf
  obtain ⟨f1, d1, hwr, hc, hocc, _⟩ := ufs_write_overwrite s fd buf d0 f hw h0 hd hf hperm hdn
    hoff (hcur.elim Or.inr fun h => Or.inl h.1) hk
  refine ⟨_, f1, hwr, rfl, ?_, hocc, ?_, ?_, hc⟩
  · show (List.set _ _ _)[d0.file]? = _
    simp [hlt]
  · unfold stored_size
    rw [hocc]
  · rw [hc]
    simp only [List.length_append, List.length_drop]
    omega

set_option maxRecDepth 1000000 in
/-- Witness of C14: the file "f" holds 500 bytes 7 in one block and descriptor 1,
write-only, stands at its start; it writes 3 bytes. -/
theorem C14_overwrite_witness :
    Reachable overwrite_state ∧ (0 : Int) ≤ 1 ∧
      overwrite_state.file_descriptors[(1 : Int).toNat]? =
        some (some (fresh_desc small_file 0 UFS_WRITE_ONLY 1)) ∧
      overwrite_state.files[(fresh_desc small_file 0 UFS_WRITE_ONLY 1).file]? =
        some (some { small_file with refs := 2 }) ∧
      no_permissions (fresh_desc small_file 0 UFS_WRITE_ONLY 1) UFS_READ_WRITE UFS_WRITE_ONLY =
        false ∧
      dense ({ small_file with refs := 2 } : file).block_list ∧
      (fresh_desc small_file 0 UFS_WRITE_ONLY 1).offset = 0 ∧
      ((fresh_desc small_file 0 UFS_WRITE_ONLY 1).current_block = some 0 ∨
        ((fresh_desc small_file 0 UFS_WRITE_ONLY 1).current_block = none ∧
          (fresh_desc small_file 0 UFS_WRITE_ONLY 1).current_block_index = -1)) ∧
      ([1, 2, 3] : List Nat).length ≤ (contents { small_file with refs := 2 }).length ∧
      ∃ s1 f1, ufs_write overwrite_state 1 [1, 2, 3] =
          .ok (s1, (([1, 2, 3] : List Nat).length : Int)) ∧
        ufs_errno s1 = .UFS_ERR_NO_ERR ∧
        s1.files[(fresh_desc small_file 0 UFS_WRITE_ONLY 1).file]? = some (some f1) ∧
        (f1.block_list.map fun b => b.occupied) =
          (({ small_file with refs := 2 } : file).block_list.map fun b => b.occupied) ∧
        stored_size f1 = stored_size { small_file with refs := 2 } ∧
        (contents f1).length = (contents { small_file with refs := 2 }).length ∧
        contents f1 = [1, 2, 3] ++ (contents { small_file with refs := 2 }).drop
          ([1, 2, 3] : List Nat).length :=
  ⟨overwrite_reachable, by decide, rfl, rfl, rfl, overwrite_dense, rfl, Or.inl rfl, by decide,
    C14_overwrite overwrite_state 1 [1, 2, 3] (fresh_desc small_file 0 UFS_WRITE_ONLY 1)
      { small_file with refs := 2 } overwrite_reachable (by decide) rfl rfl rfl overwrite_dense
      rfl (Or.inl rfl) (by decide)⟩

set_option maxRecDepth 1000000 in
/-- C14 (overwrite) fails on the code for a file with a block that is not full before
its last block. "f" is created, 100 bytes are written, ufs_resize to 1536 bytes adds two
empty blocks and ufs_resize to 1024 bytes frees one and sets the occupied count of the
new tail to 512: the blocks hold 100 and 512 bytes, 612 in all. Descriptor 1, opened
write-only, stands at the start. Its write of 200 bytes returns 200 and raises the
occupied count of the first block to 200: the file then holds 712 bytes, the 200
written bytes followed by the 512 bytes of the second block. -/
theorem C14_overwrite_grows_gap_file :
    run_occupied [.c_open "f" UFS_CREATE, .c_write 0 (List.replicate 100 7), .c_resize 0 1536,
        .c_resize 0 1024, .c_open "f" UFS_WRITE_ONLY] 0 = some [100, 512] ∧
      run_contents [.c_open "f" UFS_CREATE, .c_write 0 (List.replicate 100 7), .c_resize 0 1536,
        .c_resize 0 1024, .c_open "f" UFS_WRITE_ONLY] 0 =
        some (List.replicate 100 7 ++ List.replicate 512 0) ∧
      run_cursor [.c_open "f" UFS_CREATE, .c_write 0 (List.replicate 100 7), .c_resize 0 1536,
        .c_resize 0 1024, .c_open "f" UFS_WRITE_ONLY] 1 = some (some 0, 0, 0) ∧
      run_then_write [.c_open "f" UFS_CREATE, .c_write 0 (List.replicate 100 7),
        .c_resize 0 1536, .c_resize 0 1024, .c_open "f" UFS_WRITE_ONLY] 1
        (List.replicate 200 9) = some (200, .UFS_ERR_NO_ERR) ∧
      run_occupied [.c_open "f" UFS_CREATE, .c_write 0 (List.replicate 100 7), .c_resize 0 1536,
        .c_resize 0 1024, .c_open "f" UFS_WRITE_ONLY, .c_write 1 (List.replicate 200 9)] 0 =
        some [200, 512] ∧
      run_contents [.c_open "f" UFS_CREATE, .c_write 0 (List.replicate 100 7), .c_resize 0 1536,
        .c_resize 0 1024, .c_open "f" UFS_WRITE_ONLY, .c_write 1 (List.replicate 200 9)] 0 =
        some (List.replicate 200 9 ++ List.replicate 512 0) := by
  refine ⟨?_, ?_, ?_, ?_, ?_, ?_⟩ <;> decide

/-! ## C20: writing again after the block ceiling was met -/

/-- A reachable state at the block ceiling: descriptor 0 has written `buf`, of
MAX_FILE_SIZE bytes, to the new file "f" and stands at the end of its last block. -/
theorem ceiling_reachable (buf : List Nat) (hlen : buf.length = 104857600) :
    ∃ s d0 f, Reachable s ∧ s.file_descriptors[(0 : Int).toNat]? = some (some d0) ∧
      d0.file = 0 ∧ s.files[d0.file]? = some (some f) ∧ contents f = buf ∧
      f.blocks_count = MAX_FILE_SIZE / BLOCK_SIZE ∧ all_full f.block_list ∧
      d0.current_block = some (f.block_list.length - 1) ∧ d0.offset = BLOCK_SIZE ∧
      no_permissions d0 UFS_READ_WRITE UFS_WRITE_ONLY = false := by
  have hM := MAX_FILE_SIZE_eq
  have hB := BLOCK_SIZE_eq
  have hc := ceiling_eq
  have hne : buf ≠ [] := by
    intro e
    rw [e] at hlen
    cases hlen
  obtain ⟨f1, d1, hw, ha, hk, p, hcur⟩ := ufs_write_append_cursor demo_state 0 buf []
    (fresh_desc (new_file "f") 0 UFS_READ_WRITE 0) { new_file "f" with refs := 1 }
    (le_refl _) rfl rfl (by rw [no_permissions_init]; rfl)
    (appending_fresh buf _ _ rfl rfl rfl rfl (by show (-1 : Int) ≤ -1; decide))
    (by rw [hM]; simp only [List.length_nil]; omega) hne
  have hbytes : contents f1 = buf := by
    rw [ha.bytes]
    simp
  have hperm : no_permissions d1 UFS_READ_WRITE UFS_WRITE_ONLY = false := by
    show (Int.land d1.permissions (Int.lor UFS_READ_WRITE UFS_WRITE_ONLY) == 0) = false
    rw [hk.perm_eq]
    rfl
  have hfile : d1.file = 0 := hk.file_eq
  obtain ⟨hpn, b, hb, hob⟩ := ha.at_tail p hcur
  have hbok := ha.fok.2.2 b (List.getElem?_mem hb)
  have hcl := contents_length_tail f1 p b ha.fok ha.dns hb hpn
  have hcnt := ha.fok.1
  have hceil := ha.fok.2.1
  have ho1 := hbok.2.2
  rw [hbytes, hlen, hB] at hcl
  rw [hc] at hceil
  rw [hB] at ho1
  push_cast at hcl
  have hocc : b.occupied = BLOCK_SIZE := by
    rw [hB]
    omega
  have hp : p = f1.block_list.length - 1 := by omega
  have hex : ∃ s1 : State, ufs_write demo_state 0 buf = .ok (s1, (buf.length : Int)) ∧
      s1.file_descriptors[(0 : Int).toNat]? = some (some d1) ∧
      s1.files[0]? = some (some f1) := ⟨_, hw, rfl, rfl⟩
  obtain ⟨s1, hw1, hd1, hf1⟩ := hex
  refine ⟨s1, d1, f1, ?_, hd1, hfile, ?_, hbytes, ?_,
    all_full_of_tail f1.block_list p b ha.dns hpn hb hocc, ?_, ?_, hperm⟩
  · exact Reachable.call demo_state s1 (.c_write 0 buf) demo_reachable
      (by show (ufs_write demo_state 0 buf).map Prod.fst = _; rw [hw1]; rfl)
  · rw [hfile]
    exact hf1
  · rw [hc]
    omega
  · rw [hcur, hp]
  · rw [hob, hocc]

/-- A non-empty write through a descriptor at the end of a file at the block ceiling
fails, and a second write through it of `buf2`, within MAX_FILE_SIZE bytes, starts again
at the first block: it returns the length of `buf2` and stores `buf2` over the first
bytes of the file. -/
theorem ufs_write_after_ceiling (s : State) (fd : Int) (d0 : filedesc) (f : file)
    (buf buf2 : List Nat) (hw : WF s) (h0 : 0 ≤ fd)
    (hd : s.file_descriptors[fd.toNat]? = some (some d0))
    (hf : s.files[d0.file]? = some (some f))
    (hcount : f.blocks_count = MAX_FILE_SIZE / BLOCK_SIZE) (hfull : all_full f.block_list)
    (hcur : d0.current_block = some (f.block_list.length - 1)) (hoff : d0.offset = BLOCK_SIZE)
    (hperm : no_permissions d0 UFS_READ_WRITE UFS_WRITE_ONLY = false)
    (hne : buf ≠ []) (hsz : buf.length < 2 ^ 63) (hk : (buf2.length : Int) ≤ MAX_FILE_SIZE) :
    ∃ s1 s2 f2, ufs_write s fd buf = .ok (s1, -1) ∧ ufs_errno s1 = .UFS_ERR_NO_MEM ∧
      s1.files = s.files ∧
      ufs_write s1 fd buf2 = .ok (s2, (buf2.length : Int)) ∧
      ufs_errno s2 = .UFS_ERR_NO_ERR ∧ s2.files[d0.file]? = some (some f2) ∧
      contents f2 = buf2 ++ (contents f).drop buf2.length := by
  obtain ⟨hfok, _, _⟩ := hw.files_ok d0.file f hf
  have hM := MAX_FILE_SIZE_eq
  have hB := BLOCK_SIZE_eq
  have hceil := ceiling_eq
  have hlt := lt_of_getElem? _ _ _ hf
  have hltd := lt_of_getElem? _ _ _ hd
  have hwr := ufs_write_ceiling s fd d0 f buf hw h0 hd hf hcount hcur hoff hperm hne hsz
  have hw1 := ufs_write_WF s fd buf _ _ hw hwr
  have hlen : (((contents f).length : Nat) : Int) = MAX_FILE_SIZE := by
    have := full_bytes_length f.block_list hfull hfok.2.2
    have hcnt := hfok.1
    unfold contents
    rw [this, ← hcnt, hcount, hceil, hB, hM]
    rfl
  obtain ⟨f2, d2, hwr2, hc2, _, _⟩ := ufs_write_overwrite _ fd buf2
    { d0 with current_block := none, current_block_index := d0.current_block_index + 1,
              offset := 0 } f hw1 h0
    (by
      show (List.set _ _ _)[fd.toNat]? = _
      rw [List.getElem?_set_self hltd])
    hf hperm (dense_of_all_full _ hfull) rfl (Or.inl rfl) (by omega)
  refine ⟨_, _, f2, hwr, rfl, rfl, hwr2, rfl, ?_, hc2⟩
  show (List.set _ _ _)[d0.file]? = _
  simp [hlt]
/-- C20 (sticky ceiling), the code at a failing input. Descriptor 0 creates "f" and
writes MAX_FILE_SIZE bytes 7: the file has MAX_FILE_SIZE / BLOCK_SIZE full blocks and the
descriptor stands at the end of the last one. A write of one byte 9 returns -1 with
UFS_ERR_NO_MEM and leaves the file as it was. The same write repeated returns 1 with
UFS_ERR_NO_ERR: the failed write left the descriptor without a current block,
init_filedesc_current_block sends it back to the first block, and the byte 9 replaces
the first stored byte of the file. -/
theorem C20_repeated_write_overwrites :
    ∃ s s1 s2 d0 f f2, Reachable s ∧ s.file_descriptors[0]? = some (some d0) ∧
      s.files[0]? = some (some f) ∧ f.blocks_count = MAX_FILE_SIZE / BLOCK_SIZE ∧
      all_full f.block_list ∧ d0.current_block = some (f.block_list.length - 1) ∧
      d0.offset = BLOCK_SIZE ∧ (contents f).length = 104857600 ∧
      (∀ x ∈ contents f, x = 7) ∧
      ufs_write s 0 [9] = .ok (s1, -1) ∧ ufs_errno s1 = .UFS_ERR_NO_MEM ∧
      s1.files = s.files ∧
      ufs_write s1 0 [9] = .ok (s2, 1) ∧ ufs_errno s2 = .UFS_ERR_NO_ERR ∧
      s2.files[0]? = some (some f2) ∧ contents f2 = 9 :: (contents f).drop 1 := by
  obtain ⟨s, d0, f, hs, hd, hfile, hf, hc, hcount, hfull, hcur, hoff, hperm⟩ :=
    ceiling_reachable (List.replicate 104857600 7) (List.length_replicate _ _)
  obtain ⟨s1, s2, f2, hw1, he1, hfs, hw2, he2, hf2, hc2⟩ :=
    ufs_write_after_ceiling s 0 d0 f [9] [9] (Reachable_WF s hs) (le_refl _) hd hf hcount hfull
      hcur hoff hperm (by intro e; cases e) (by decide) (by rw [MAX_FILE_SIZE_eq]; decide)
  rw [hfile] at hf hf2
  refine ⟨s, s1, s2, d0, f, f2, hs, hd, hf, hcount, hfull, hcur, hoff, ?_, ?_, hw1, he1, hfs,
    hw2, he2, hf2, hc2⟩
  · rw [hc]
    exact List.length_replicate _ _
  · intro x hx
    rw [hc] at hx
    exact List.eq_of_mem_replicate hx

/-! ## C16: files without gaps -/

theorem cursor_within_none (f : file) (d : filedesc) (h : d.current_block = none) :
    cursor_within f d ↔ d.offset = 0 := by
  unfold cursor_within
  rw [h]

theorem cursor_within_some (f : file) (d : filedesc) (p : Nat) (h : d.current_block = some p) :
    cursor_within f d ↔ ∀ b, f.block_list[p]? = some b → d.offset ≤ b.occupied := by
  unfold cursor_within
  rw [h]

theorem cursor_within_congr (f f1 : file) (d : filedesc) (hbl : f1.block_list = f.block_list)
    (h : cursor_within f d) : cursor_within f1 d := by
  unfold cursor_within at h ⊢
  rw [hbl]
  exact h

theorem cursor_within_zero (f : file) (d : filedesc) (hf : file_ok f) (h0 : d.offset = 0) :
    cursor_within f d := by
  cases hcb : d.current_block with
  | none => exact (cursor_within_none f d hcb).mpr h0
  | some p =>
    rw [cursor_within_some f d p hcb]
    intro b hb
    rw [h0]
    exact (hf.2.2 b (List.getElem?_mem hb)).2.1

theorem cursor_within_empty (f f1 : file) (d : filedesc) (hbl : f1.block_list = [])
    (h : cursor_within f d) : cursor_within f1 d := by
  cases hcb : d.current_block with
  | none => exact (cursor_within_none f1 d hcb).mpr ((cursor_within_none f d hcb).mp h)
  | some p =>
    rw [cursor_within_some f1 d p hcb]
    intro b hb
    rw [hbl] at hb
    cases hb

/-- A call that leaves the blocks of every file and the cursor of every old descriptor
as they were, and new descriptors at offset 0, keeps a state without gaps. -/
theorem no_gap_frame (s s1 : State) (h : no_gap s) (hw1 : WF s1)
    (hfiles : ∀ (a : Nat) (f1 : file), s1.files[a]? = some (some f1) →
      f1.block_list = [] ∨ ∃ f, s.files[a]? = some (some f) ∧ f1.block_list = f.block_list)
    (hdescs : ∀ (i : Nat) (d : filedesc), s1.file_descriptors[i]? = some (some d) →
      d.offset = 0 ∨ s.file_descriptors[i]? = some (some d)) : no_gap s1 := by
  refine ⟨hw1, ?_, ?_⟩
  · intro a f1 hf1
    rcases hfiles a f1 hf1 with he | ⟨f, hf, hbl⟩
    · rw [he]
      intro b hb
      cases hb
    · rw [hbl]
      exact h.dns a f hf
  · intro i d f1 hd hf1
    obtain ⟨hfok1, _, _⟩ := hw1.files_ok d.file f1 hf1
    rcases hdescs i d hd with h0 | hold
    · exact cursor_within_zero f1 d hfok1 h0
    · obtain ⟨_, f, hf, _⟩ := h.wf.desc_ok i d hold
      have hwi := h.within i d f hold hf
      rcases hfiles d.file f1 hf1 with he | ⟨f2, hf2, hbl⟩
      · exact cursor_within_empty f f1 d he hwi
      · rw [hf] at hf2
        cases hf2
        exact cursor_within_congr f f1 d hbl hwi

theorem no_gap_set_err (s : State) (e : ufs_error_code) (h : no_gap s) :
    no_gap { s with ufs_error_code := e } :=
  no_gap_frame s _ h (WF_set_err s e h.wf) (fun _ f1 hf1 => Or.inr ⟨f1, hf1, rfl⟩)
    (fun _ _ hd => Or.inr hd)

theorem no_gap_empty : no_gap State.empty :=
  ⟨WF_empty, fun _ _ hf => by simp [State.empty] at hf,
    fun _ _ _ hd _ => by simp [State.empty] at hd⟩
theorem getElem?_set_blocks (l : List (Option file)) (a : Nat) (f g : file)
    (hf : l[a]? = some (some f)) (a1 : Nat) (f1 : file)
    (h1 : (l.set a (some g))[a1]? = some (some f1)) (hbl : g.block_list = f.block_list) :
    ∃ f2, l[a1]? = some (some f2) ∧ f1.block_list = f2.block_list := by
  rcases getElem?_set_cases l a a1 (some g) (some f1) h1 with ⟨e1, e2⟩ | ⟨_, hold⟩
  · subst e1
    cases e2
    exact ⟨f, hf, hbl⟩
  · exact ⟨f1, hold, rfl⟩

theorem getElem?_set_none_blocks (l : List (Option file)) (a : Nat)
    (a1 : Nat) (f1 : file) (h1 : (l.set a none)[a1]? = some (some f1)) :
    l[a1]? = some (some f1) := by
  rcases getElem?_set_cases l a a1 none (some f1) h1 with ⟨_, e2⟩ | ⟨_, hold⟩
  · cases e2
  · exact hold

theorem ufs_open_no_gap (s : State) (filename : String) (flags : Int) (s1 : State) (ret : Int)
    (h : no_gap s) (ho : ufs_open s filename flags = .ok (s1, ret)) : no_gap s1 := by
  have hw1 := ufs_open_WF s filename flags s1 ret h.wf ho
  by_cases hret : ret = -1
  · subst hret
    rw [ufs_open_failure s filename flags s1 ho]
    exact no_gap_set_err s _ h
  · obtain ⟨a, f, _, _, hfds, _, _, _, _, _, hcase⟩ :=
      ufs_open_success s filename flags s1 ret h.wf ho hret
    obtain ⟨_, _, _, hgrown⟩ := grown_table_spec s h.wf
    apply no_gap_frame s s1 h hw1
    · intro a1 f1 hf1
      rcases hcase with ⟨_, hf, hfiles, _⟩ | ⟨_, _, _, _, hfiles, _⟩
      · rw [hfiles] at hf1
        exact Or.inr (getElem?_set_blocks s.files a f _ hf a1 f1 hf1 rfl)
      · rw [hfiles] at hf1
        by_cases hlt : a1 < s.files.length
        · rw [List.getElem?_append_left hlt] at hf1
          exact Or.inr ⟨f1, hf1, rfl⟩
        · rw [List.getElem?_append_right (by omega)] at hf1
          left
          cases hi : a1 - s.files.length with
          | zero =>
            rw [hi] at hf1
            simp only [List.getElem?_cons_zero, Option.some.injEq] at hf1
            rw [← hf1]
            rfl
          | succ n =>
            rw [hi] at hf1
            simp at hf1
    · intro i d hd
      rw [hfds] at hd
      rcases getElem?_set_cases _ _ i _ _ hd with ⟨_, e2⟩ | ⟨_, hold⟩
      · cases e2
        exact Or.inl rfl
      · exact Or.inr ((hgrown i d).mp hold)

theorem ufs_close_no_gap (s : State) (fd : Int) (s1 : State) (ret : Int)
    (h : no_gap s) (ho : ufs_close s fd = .ok (s1, ret)) : no_gap s1 := by
  have hw1 := ufs_close_WF s fd s1 ret h.wf ho
  cases hh : handle_err_no_file s fd with
  | error e =>
    unfold ufs_close at ho
    rw [hh] at ho
    cases ho
  | ok o =>
    cases o with
    | none =>
      unfold ufs_close at ho
      rw [hh] at ho
      cases ho
      exact no_gap_set_err s _ h
    | some d =>
      obtain ⟨h0, hd⟩ := handle_err_no_file_inv s fd d hh
      obtain ⟨_, f, hf, _⟩ := h.wf.desc_ok fd.toNat d hd
      rw [ufs_close_open s fd d f h0 hd hf] at ho
      cases ho
      apply no_gap_frame s _ h hw1
      · intro a1 f1 hf1
        right
        simp only at hf1
        split at hf1
        · exact ⟨f1, getElem?_set_none_blocks _ _ a1 f1 hf1, rfl⟩
        · exact getElem?_set_blocks s.files d.file f _ hf a1 f1 hf1 rfl
      · intro i d1 hd1
        right
        rcases getElem?_set_cases _ _ i _ _ hd1 with ⟨_, e2⟩ | ⟨_, hold⟩
        · cases e2
        · exact hold

theorem ufs_delete_no_gap (s : State) (filename : String) (s1 : State) (ret : Int)
    (h : no_gap s) (ho : ufs_delete s filename = .ok (s1, ret)) : no_gap s1 := by
  have hw1 := ufs_delete_WF s filename s1 ret h.wf ho
  rcases find_file_spec s filename s.file_list
      (fun a ha => (h.wf.list_live a ha).imp fun f hf => hf.1) with
    ⟨a, f, hfind, _, hf, _⟩ | ⟨hfind, _⟩
  · rw [ufs_delete_found s filename a f hfind hf] at ho
    cases ho
    apply no_gap_frame s _ h hw1
    · intro a1 f1 hf1
      right
      simp only at hf1
      split at hf1
      · exact ⟨f1, getElem?_set_none_blocks _ _ a1 f1 hf1, rfl⟩
      · exact getElem?_set_blocks s.files a f _ hf a1 f1 hf1 rfl
    · intro i d1 hd1
      exact Or.inr hd1
  · unfold ufs_delete at ho
    rw [hfind] at ho
    cases ho
    exact no_gap_set_err s _ h
theorem init_within (f : file) (d : filedesc) (hf : file_ok f) (h : cursor_within f d) :
    cursor_within f (init_filedesc_current_block f d) := by
  unfold init_filedesc_current_block
  split
  · rename_i hc
    have hn : d.current_block = none := by
      cases hcb : d.current_block with
      | none => rfl
      | some p =>
        rw [hcb] at hc
        simp at hc
    exact cursor_within_zero f _ hf ((cursor_within_none f d hn).mp h)
  · exact h

/-- The read loop leaves the cursor within the occupied part of its block. -/
theorem ufs_read_loop_within (f : file) (d : filedesc) (size : Nat) (hf : file_ok f)
    (hc : cursor_ok f d) (hwi : cursor_within f d) :
    ∃ d1 ret out, ufs_read_loop (2 * size + 2) f d size 0 [] = .ok (d1, ret, out) ∧
      read_keeps f d d1 ∧ cursor_within f d1 := by
  have h := ufs_read_loop_induct f size hf
    (fun d1 rs out => read_keeps f d d1 ∧ (out.length : Int) = rs ∧ cursor_within f d1)
    (fun d1 rs out hp => hp.1.cok)
    (by
      intro d1 p rs out d2 rs2 out2 hp hlt hcb ht
      obtain ⟨hk, hl, _, _⟩ :=
        ufs_read_turn_keeps f d size hf d1 p rs out d2 rs2 out2 hp.1 hp.2.1 hcb ht
      refine ⟨hk, hl, ?_⟩
      obtain ⟨b, hb, hcase⟩ := ufs_read_turn_cases f d1 p size rs out hf hp.1.cok hcb
      rcases hcase with ⟨_, ht2⟩ | ⟨_, _, ht2⟩ | ⟨_, hpos, ht2⟩
      · rw [ht2] at ht
        injection ht with ht; injection ht with e1 e2 e3
        subst e1 e2 e3
        exact cursor_within_zero f _ hf rfl
      · rw [ht2] at ht
        cases ht
      · rw [ht2] at ht
        injection ht with ht; injection ht with e1 e2 e3
        subst e1 e2 e3
        refine (cursor_within_some f
          { d1 with offset := d1.offset + read_chunk d1.offset b.occupied size rs } p hcb).mpr ?_
        intro b2 hb2
        rw [hb] at hb2
        cases hb2
        simp only [read_chunk]
        omega)
    (2 * size + 2) d 0 [] ⟨⟨hc, rfl, rfl, rfl⟩, rfl, hwi⟩
    (read_measure_init d size)
  obtain ⟨d1, rs1, out1, hl, ⟨hk, _, hw1⟩, _⟩ := h
  exact ⟨d1, rs1, out1, hl, hk, hw1⟩

/-- A call that puts a descriptor with its cursor within its block in the place of one
on the same file keeps a state without gaps. -/
theorem no_gap_set_desc (s : State) (fd : Nat) (d0 d1 : filedesc) (f : file)
    (e : ufs_error_code) (h : no_gap s)
    (hw1 : WF { s with file_descriptors := s.file_descriptors.set fd (some d1),
                       ufs_error_code := e })
    (hf : s.files[d0.file]? = some (some f))
    (hfile : d1.file = d0.file) (hwi : cursor_within f d1) :
    no_gap { s with file_descriptors := s.file_descriptors.set fd (some d1),
                    ufs_error_code := e } := by
  refine ⟨hw1, h.dns, ?_⟩
  intro i d f1 hdi hf1
  rcases getElem?_set_cases _ _ i _ _ hdi with ⟨_, e2⟩ | ⟨_, hold⟩
  · cases e2
    have hf2 : s.files[d1.file]? = some (some f1) := hf1
    rw [hfile, hf] at hf2
    cases hf2
    exact hwi
  · exact h.within i d f1 hold hf1

theorem ufs_read_no_gap (s : State) (fd : Int) (size : Nat) (s1 : State) (ret : Int)
    (out : List Nat) (h : no_gap s) (hr : ufs_read s fd size = .ok (s1, ret, out)) :
    no_gap s1 := by
  have hw1 := ufs_read_WF s fd size s1 ret out h.wf hr
  cases hh : handle_err_no_file s fd with
  | error e =>
    unfold ufs_read at hr
    rw [hh] at hr
    cases hr
  | ok o =>
    cases o with
    | none =>
      unfold ufs_read at hr
      rw [hh] at hr
      cases hr
      exact no_gap_set_err s _ h
    | some d0 =>
      obtain ⟨h0, hd⟩ := handle_err_no_file_inv s fd d0 hh
      obtain ⟨_, f, hf, hc⟩ := h.wf.desc_ok fd.toNat d0 hd
      obtain ⟨hfok, _, _⟩ := h.wf.files_ok d0.file f hf
      obtain ⟨hic, hifile, _, _⟩ := init_keeps f d0 hc
      have hiw := init_within f d0 hfok (h.within fd.toNat d0 f hd hf)
      rw [ufs_read_open s fd size d0 f h0 hd hf] at hr
      split at hr
      · cases hr
        exact no_gap_set_desc s fd.toNat d0 _ f _ h hw1 hf hifile hiw
      · obtain ⟨d1, ret1, out1, hl, hk, hwi⟩ :=
          ufs_read_loop_within f (init_filedesc_current_block f d0) size hfok hic hiw
        rw [hl] at hr
        cases hr
        exact no_gap_set_desc s fd.toNat d0 d1 f _ h hw1 hf (hk.file_eq.trans hifile) hwi

theorem init_none (f : file) (d : filedesc)
    (h : (init_filedesc_current_block f d).current_block = none) : f.block_list = [] := by
  unfold init_filedesc_current_block at h
  split at h
  · cases h
  · rename_i hc
    rw [h] at hc
    simpa using hc

/-- A turn of the write loop keeps a file without gaps. -/
theorem ufs_write_turn_packing (f0 f : file) (d : filedesc) (buf : List Nat) (ws : Int)
    (f1 : file) (d1 : filedesc) (ws1 : Int) (hp : packing f0 f d) (hws : 0 ≤ ws)
    (hlt : ws < to_ssize buf.length)
    (ht : ufs_write_turn f d buf ws = .ok (.next f1 d1 ws1)) : packing f0 f1 d1 := by
  obtain ⟨hkp, _, _⟩ := ufs_write_turn_keeps f d buf f d ws f1 d1 ws1
    (write_keeps_refl f d hp.fok hp.cok) hws hlt ht
  have hB := BLOCK_SIZE_eq
  rcases ufs_write_turn_cases f d buf ws hp.fok hp.cok with
    ⟨_, _, ht2⟩ | ⟨p, hcb, hoff, ht2⟩ | ⟨p, b, hcb, hb, hoff, ht2⟩ | ⟨hn, _, ht2⟩
  · rw [ht2] at ht; cases ht
  · rw [ht2] at ht
    injection ht with ht; injection ht with e1 e2 e3
    subst e1 e2 e3
    refine ⟨hkp.fok, hkp.cok, hp.dns, cursor_within_zero f _ hp.fok rfl, ?_, hp.mono⟩
    intro hq
    simp only [block_next] at hq
    split at hq
    · cases hq
    · rename_i hnl
      obtain ⟨hpl, _⟩ := hp.cok.2.2.2 p hcb
      obtain ⟨b, hb, hbm⟩ := getElem?_of_cursor f p hpl
      have hwi := (cursor_within_some f d p hcb).mp hp.within b hb
      have ho1 := (hp.fok.2.2 b hbm).2.2
      exact all_full_of_tail f.block_list p b hp.dns (by omega) hb (by omega)
  · rw [ht2] at ht
    injection ht with ht; injection ht with e1 e2 e3
    subst e1 e2 e3
    have hpl := lt_of_getElem? _ _ _ hb
    have hcl := write_chunk_le d.offset buf ws
    have hocc : (written_block b d.offset buf ws).occupied =
        max b.occupied (d.offset + write_chunk d.offset buf ws) := rfl
    refine ⟨hkp.fok, hkp.cok, ?_, ?_, ?_, ?_⟩
    · apply dense_of_index
      intro i bi hi hbi
      simp only [List.length_set] at hi
      rcases getElem?_set_cases _ _ i _ _ hbi with ⟨e1, e2⟩ | ⟨_, hold⟩
      · subst e1 e2
        have := dense_full f.block_list i b hp.dns hi hb
        rw [hocc]
        omega
      · exact dense_full f.block_list i bi hp.dns hi hold
    · refine (cursor_within_some _
        { d with offset := d.offset + write_chunk d.offset buf ws } p hcb).mpr ?_
      intro b2 hb2
      simp only at hb2
      rw [List.getElem?_set_self hpl] at hb2
      cases hb2
      rw [hocc]
      simp only
      omega
    · intro hq
      simp only at hq
      rw [hcb] at hq
      cases hq
    · intro q b0 hb0
      obtain ⟨b1, hb1, hle⟩ := hp.mono q b0 hb0
      by_cases hqp : q = p
      · subst hqp
        rw [hb] at hb1
        cases hb1
        refine ⟨written_block b d.offset buf ws, ?_, ?_⟩
        · simp only
          rw [List.getElem?_set_self hpl]
        · rw [hocc]
          omega
      · refine ⟨b1, ?_, hle⟩
        simp only
        rw [List.getElem?_set_ne (Ne.symm hqp)]
        exact hb1
  · rw [ht2] at ht
    injection ht with ht; injection ht with e1 e2 e3
    subst e1 e2 e3
    have hpos := write_chunk_pos 0 buf ws (by show (0 : Int) < BLOCK_SIZE; decide) hlt
    have hocc : (written_block zero_block 0 buf ws).occupied =
        max 0 (0 + write_chunk 0 buf ws) := rfl
    refine ⟨hkp.fok, hkp.cok, dense_snoc _ _ (hp.ran_off hn), ?_, ?_, ?_⟩
    · refine (cursor_within_some _
        { d with current_block := some f.block_list.length,
                 current_block_index := f.blocks_count,
                 offset := write_chunk 0 buf ws } f.block_list.length rfl).mpr ?_
      intro b2 hb2
      simp only at hb2
      rw [List.getElem?_append_right (le_refl _)] at hb2
      simp only [Nat.sub_self, List.getElem?_cons_zero, Option.some.injEq] at hb2
      rw [← hb2, hocc]
      simp only
      omega
    · intro hq
      cases hq
    · intro q b0 hb0
      obtain ⟨b1, hb1, hle⟩ := hp.mono q b0 hb0
      refine ⟨b1, ?_, hle⟩
      simp only
      rw [List.getElem?_append_left (lt_of_getElem? _ _ _ hb1)]
      exact hb1

/-- The write loop keeps a file without gaps. -/
theorem ufs_write_loop_packing (f : file) (d : filedesc) (buf : List Nat)
    (hp : packing f f d) :
    ∃ f1 d1 ret err, ufs_write_loop (2 * buf.length + 2) f d buf 0 = .ok (f1, d1, ret, err) ∧
      packing f f1 d1 ∧ write_keeps f d f1 d1 := by
  have h := ufs_write_loop_induct buf
    (fun f1 d1 ws => packing f f1 d1 ∧ write_keeps f d f1 d1 ∧ 0 ≤ ws)
    (fun f1 d1 ws hq => ⟨hq.1.fok, hq.1.cok⟩)
    (by
      intro f1 d1 ws f2 d2 ws2 hq hlt ht
      obtain ⟨hk2, hle, _⟩ := ufs_write_turn_keeps f d buf f1 d1 ws f2 d2 ws2 hq.2.1 hq.2.2 hlt ht
      exact ⟨ufs_write_turn_packing f f1 d1 buf ws f2 d2 ws2 hq.1 hq.2.2 hlt ht, hk2,
        by omega⟩)
    (2 * buf.length + 2) f d 0 ⟨hp, write_keeps_refl f d hp.fok hp.cok, le_refl _⟩
    (write_measure_init d buf)
  obtain ⟨f1, d1, ws1, ⟨ha, hk, _⟩, hres⟩ := h
  rcases hres with ⟨hl, _⟩ | ⟨hl, _⟩
  · exact ⟨f1, d1, _, _, hl, ha, hk⟩
  · exact ⟨f1, d1, _, _, hl, ha, hk⟩
theorem cursor_within_mono (f f1 : file) (d : filedesc) (hc : cursor_ok f d)
    (hmono : ∀ (p : Nat) (b : block), f.block_list[p]? = some b →
      ∃ b1, f1.block_list[p]? = some b1 ∧ b.occupied ≤ b1.occupied)
    (h : cursor_within f d) : cursor_within f1 d := by
  cases hcb : d.current_block with
  | none => exact (cursor_within_none f1 d hcb).mpr ((cursor_within_none f d hcb).mp h)
  | some p =>
    rw [cursor_within_some f1 d p hcb]
    intro b1 hb1
    obtain ⟨hpl, _⟩ := hc.2.2.2 p hcb
    obtain ⟨b, hb, _⟩ := getElem?_of_cursor f p hpl
    obtain ⟨b2, hb2, hle⟩ := hmono p b hb
    rw [hb1] at hb2
    cases hb2
    have := (cursor_within_some f d p hcb).mp h b hb
    omega

theorem ufs_write_no_gap (s : State) (fd : Int) (buf : List Nat) (s1 : State) (ret : Int)
    (h : no_gap s) (hr : ufs_write s fd buf = .ok (s1, ret)) : no_gap s1 := by
  have hw1 := ufs_write_WF s fd buf s1 ret h.wf hr
  cases hh : handle_err_no_file s fd with
  | error e =>
    unfold ufs_write at hr
    rw [hh] at hr
    cases hr
  | ok o =>
    cases o with
    | none =>
      unfold ufs_write at hr
      rw [hh] at hr
      cases hr
      exact no_gap_set_err s _ h
    | some d0 =>
      obtain ⟨h0, hd⟩ := handle_err_no_file_inv s fd d0 hh
      obtain ⟨_, f, hf, hc⟩ := h.wf.desc_ok fd.toNat d0 hd
      obtain ⟨hfok, _, _⟩ := h.wf.files_ok d0.file f hf
      obtain ⟨hic, hifile, _, _⟩ := init_keeps f d0 hc
      have hiw := init_within f d0 hfok (h.within fd.toNat d0 f hd hf)
      have hlt := lt_of_getElem? _ _ _ hf
      rw [ufs_write_open s fd buf d0 f h0 hd hf] at hr
      split at hr
      · cases hr
        exact no_gap_set_desc s fd.toNat d0 _ f _ h hw1 hf hifile hiw
      · have hp0 : packing f f (init_filedesc_current_block f d0) :=
          ⟨hfok, hic, h.dns d0.file f hf, hiw,
            fun hn => (by rw [init_none f d0 hn]; intro b hb; cases hb),
            fun p b hb => ⟨b, hb, le_refl _⟩⟩
        obtain ⟨f1, d1, ret1, err1, hl, hp, hk⟩ :=
          ufs_write_loop_packing f (init_filedesc_current_block f d0) buf hp0
        rw [hl] at hr
        cases hr
        refine ⟨hw1, ?_, ?_⟩
        · intro a g hg
          rcases getElem?_set_cases _ _ a _ _ hg with ⟨_, e2⟩ | ⟨_, hold⟩
          · cases e2
            exact hp.dns
          · exact h.dns a g hold
        · intro i d g hdi hg
          have hfile1 : d1.file = d0.file := hk.file_eq.trans hifile
          rcases getElem?_set_cases _ _ i _ _ hdi with ⟨_, e2⟩ | ⟨_, hold⟩
          · cases e2
            have hg2 : (s.files.set d0.file (some f1))[d1.file]? = some (some g) := hg
            rw [hfile1, List.getElem?_set_self hlt] at hg2
            cases hg2
            exact hp.within
          · have hg2 : (s.files.set d0.file (some f1))[d.file]? = some (some g) := hg
            obtain ⟨_, g0, hg0, hc0⟩ := h.wf.desc_ok i d hold
            have hw0 := h.within i d g0 hold hg0
            by_cases hsame : d.file = d0.file
            · rw [hsame, List.getElem?_set_self hlt] at hg2
              cases hg2
              rw [hsame, hf] at hg0
              cases hg0
              exact cursor_within_mono f f1 d hc0 hp.mono hw0
            · rw [List.getElem?_set_ne (Ne.symm hsame)] at hg2
              rw [hg0] at hg2
              cases hg2
              exact hw0

/-- The descriptor loop of ufs_resize leaves the cursor of a descriptor of the shrunk
file within the occupied part of its block. -/
theorem reclamp_within (a : Nat) (f f2 : file) (d d1 : filedesc) (tail : block)
    (hcnt : f2.blocks_count = f2.block_list.length) (hne : f2.block_list ≠ [])
    (hlast : f2.block_list.getLast? = some tail) (ht0 : 0 ≤ tail.occupied)
    (hsame : ∀ i, i + 1 < f2.block_list.length → f2.block_list[i]? = f.block_list[i]?)
    (hfa : d.file = a) (hc : cursor_ok f d) (hwi : cursor_within f d)
    (hre : reclamp a f2 (some d) = some d1) : cursor_within f2 d1 := by
  obtain ⟨h0, h1, h2, h3⟩ := hc
  have hpos := List.length_pos.mpr hne
  have hlb : last_block f2 = some (f2.block_list.length - 1) := by
    simp [last_block, hne]
  have htl : f2.block_list[f2.block_list.length - 1]? = some tail := by
    rw [← List.getLast?_eq_getElem?]
    exact hlast
  unfold reclamp at hre
  subst hfa
  simp only [if_true, hlast] at hre
  by_cases hge : d.current_block_index ≥ f2.blocks_count
  · simp only [hge, if_true, hlb] at hre
    cases hre
    refine (cursor_within_some f2 _ (f2.block_list.length - 1) rfl).mpr ?_
    intro b hb
    rw [htl] at hb
    cases hb
    simp only
    omega
  · simp only [hge, if_false] at hre
    split at hre
    · rename_i heq
      cases hre
      cases hcb : d.current_block with
      | none =>
        refine (cursor_within_none f2 _ rfl).mpr ?_
        have := (cursor_within_none f d hcb).mp hwi
        simp only
        omega
      | some p =>
        refine (cursor_within_some f2 _ p rfl).mpr ?_
        intro b hb
        have hp := h3 p hcb
        simp only
        by_cases hpl : p + 1 < f2.block_list.length
        · rw [hsame p hpl] at hb
          have := (cursor_within_some f d p hcb).mp hwi b hb
          omega
        · have hpe : p = f2.block_list.length - 1 := by omega
          rw [hpe, htl] at hb
          cases hb
          omega
    · rename_i hneq
      cases hre
      cases hcb : d.current_block with
      | none => exact (cursor_within_none f2 d hcb).mpr ((cursor_within_none f d hcb).mp hwi)
      | some p =>
        refine (cursor_within_some f2 d p hcb).mpr ?_
        intro b hb
        have hp := h3 p hcb
        rw [hsame p (by omega)] at hb
        exact (cursor_within_some f d p hcb).mp hwi b hb

/-- The blocks the shrinking path of ufs_resize leaves: the first blocks of the file,
the last of them with the new occupied count. -/
theorem shrunk_blocks (f : file) (n : Nat) (r : Int) (hf : file_ok f)
    (hne : f.block_list ≠ []) (hr0 : 0 ≤ r) (hr1 : r ≤ BLOCK_SIZE) :
    ∃ f1 tail, shrink_blocks n f = .ok f1 ∧ file_ok (set_last_occupied f1 r) ∧
      (set_last_occupied f1 r).block_list ≠ [] ∧
      (set_last_occupied f1 r).block_list.length ≤ f.block_list.length ∧
      (set_last_occupied f1 r).block_list.getLast? = some tail ∧ tail.occupied = r ∧
      ∀ i, i + 1 < (set_last_occupied f1 r).block_list.length →
        (set_last_occupied f1 r).block_list[i]? = f.block_list[i]? := by
  obtain ⟨f1, hsh, hok, hne2, hlen, _, _, _⟩ := shrunk_file_ok f n r hf hne hr0 hr1
  obtain ⟨f3, hsh3, hbl, _⟩ := shrink_blocks_spec n f hne
  rw [hsh] at hsh3
  cases hsh3
  have hpos := List.length_pos.mpr hne
  have hl1 := congrArg List.length hbl
  rw [List.length_take] at hl1
  have hne1 : f1.block_list ≠ [] := by
    intro e
    rw [e] at hl1
    simp only [List.length_nil] at hl1
    omega
  obtain ⟨b, _, hset, _⟩ := set_last_occupied_spec f1 r hne1
  obtain ⟨tail, htail, hocc⟩ := set_last_occupied_last f1 r hne1
  refine ⟨f1, tail, hsh, hok, hne2, by rw [hlen]; omega, htail, hocc, ?_⟩
  intro i hi
  rw [hset] at hi ⊢
  simp only [List.length_set] at hi
  rw [List.getElem?_set_ne (by omega), hbl, List.getElem?_take_of_lt (by omega)]
theorem ufs_resize_no_gap (s : State) (fd : Int) (new_size : Nat) (s1 : State) (ret : Int)
    (h : no_gap s) (hng : adds_block s (.c_resize fd new_size) = false)
    (hr : ufs_resize s fd new_size = .ok (s1, ret)) : no_gap s1 := by
  have hw1 := ufs_resize_WF s fd new_size s1 ret h.wf hr
  cases hh : handle_err_no_file s fd with
  | error e =>
    unfold ufs_resize at hr
    rw [hh] at hr
    cases hr
  | ok o =>
    cases o with
    | none =>
      unfold ufs_resize at hr
      rw [hh] at hr
      cases hr
      exact no_gap_set_err s _ h
    | some d =>
      obtain ⟨h0, hd⟩ := handle_err_no_file_inv s fd d hh
      obtain ⟨_, f, hf, hc⟩ := h.wf.desc_ok fd.toNat d hd
      obtain ⟨hfok, _, _⟩ := h.wf.files_ok d.file f hf
      have hlt := lt_of_getElem? _ _ _ hf
      by_cases hsz : (new_size : Int) ≤ MAX_FILE_SIZE
      · have hnot : ¬ new_blocks_count new_size > f.blocks_count := by
          simp only [adds_block, hh, file_at_some s d.file f hf, decide_eq_false_iff_not,
            not_and] at hng
          exact hng hsz
        rw [ufs_resize_open s fd new_size d f h0 hd hf hsz] at hr
        split at hr
        · rename_i hge
          have hz : (new_blocks_count new_size - f.blocks_count).toNat = 0 := by omega
          rw [hz] at hr
          cases hr
          apply no_gap_frame s _ h hw1
          · intro a1 f1 hf1
            exact Or.inr (getElem?_set_blocks s.files d.file f _ hf a1 f1 hf1 rfl)
          · intro i d1 hd1
            exact Or.inr hd1
        · rename_i hlt2
          have hne : f.block_list ≠ [] := by
            intro e
            have hcnt := hfok.1
            have hn0 := (new_blocks_count_bounds new_size hsz).1
            rw [e] at hcnt
            simp only [List.length_nil] at hcnt
            omega
          obtain ⟨hr0, hr1⟩ := occupied_remainder_bounds new_size
          obtain ⟨f1, tail, hsh, hok2, hne2, hlen2, hlast, hocc, hsame⟩ :=
            shrunk_blocks f (f.blocks_count - new_blocks_count new_size).toNat
              (occupied_remainder new_size) hfok hne hr0 hr1
          rw [hsh] at hr
          cases hr
          refine ⟨hw1, ?_, ?_⟩
          · intro a g hg
            rcases getElem?_set_cases _ _ a _ _ hg with ⟨_, e2⟩ | ⟨_, hold⟩
            · cases e2
              apply dense_of_index
              intro i b hi hb
              rw [hsame i hi] at hb
              exact dense_full f.block_list i b (h.dns d.file f hf) (by omega) hb
            · exact h.dns a g hold
          · intro i d1 g hdi hg
            obtain ⟨d0, hd0, hre⟩ := getElem?_reclamp _ _ _ i d1 hdi
            obtain ⟨_, g0, hg0, hc0⟩ := h.wf.desc_ok i d0 hd0
            have hw0 := h.within i d0 g0 hd0 hg0
            obtain ⟨d2, hre2, hfile2, _, _, hother, _⟩ :=
              reclamp_desc d.file g0 (set_last_occupied f1 (occupied_remainder new_size)) d0
                hok2.1 hne2 (fun b hb => (hok2.2.2 b hb).2.1) hc0
            rw [hre] at hre2
            cases hre2
            have hg2 : (s.files.set d.file
                (some (set_last_occupied f1 (occupied_remainder new_size))))[d1.file]? =
                some (some g) := hg
            by_cases hsame2 : d0.file = d.file
            · rw [hfile2, hsame2, List.getElem?_set_self hlt] at hg2
              cases hg2
              rw [hsame2, hf] at hg0
              cases hg0
              exact reclamp_within d.file f _ d0 d1 tail hok2.1 hne2 hlast
                (by rw [hocc]; exact hr0) hsame hsame2 hc0 hw0 hre
            · have hd1 := hother hsame2
              subst hd1
              rw [List.getElem?_set_ne (Ne.symm hsame2), hg0] at hg2
              cases hg2
              exact hw0
      · unfold ufs_resize at hr
        rw [hh] at hr
        simp only at hr
        rw [if_pos (not_le.mp hsz)] at hr
        cases hr
        exact no_gap_set_err s _ h

theorem step_no_gap (s s1 : State) (c : Call) (h : no_gap s) (hng : adds_block s c = false)
    (hs : step s c = .ok s1) : no_gap s1 := by
  cases c with
  | c_open filename flags =>
    simp only [step] at hs
    cases hr : ufs_open s filename flags with
    | error e => rw [hr] at hs; cases hs
    | ok r =>
      rw [hr] at hs
      cases hs
      exact ufs_open_no_gap s filename flags _ r.2 h hr
  | c_read fd size =>
    simp only [step] at hs
    cases hr : ufs_read s fd size with
    | error e => rw [hr] at hs; cases hs
    | ok r =>
      rw [hr] at hs
      cases hs
      exact ufs_read_no_gap s fd size _ r.2.1 r.2.2 h hr
  | c_write fd buf =>
    simp only [step] at hs
    cases hr : ufs_write s fd buf with
    | error e => rw [hr] at hs; cases hs
    | ok r =>
      rw [hr] at hs
      cases hs
      exact ufs_write_no_gap s fd buf _ r.2 h hr
  | c_resize fd new_size =>
    simp only [step] at hs
    cases hr : ufs_resize s fd new_size with
    | error e => rw [hr] at hs; cases hs
    | ok r =>
      rw [hr] at hs
      cases hs
      exact ufs_resize_no_gap s fd new_size _ r.2 h hng hr
  | c_close fd =>
    simp only [step] at hs
    cases hr : ufs_close s fd with
    | error e => rw [hr] at hs; cases hs
    | ok r =>
      rw [hr] at hs
      cases hs
      exact ufs_close_no_gap s fd _ r.2 h hr
  | c_delete filename =>
    simp only [step] at hs
    cases hr : ufs_delete s filename with
    | error e => rw [hr] at hs; cases hs
    | ok r =>
      rw [hr] at hs
      cases hs
      exact ufs_delete_no_gap s filename _ r.2 h hr

theorem Reachable_without_growth_no_gap (s : State) (h : Reachable_without_growth s) :
    no_gap s := by
  induction h with
  | init => exact no_gap_empty
  | call s s1 c _ hng hs ih => exact step_no_gap s s1 c ih hng hs

theorem Reachable_of_without_growth (s : State) (h : Reachable_without_growth s) :
    Reachable s := by
  induction h with
  | init => exact Reachable.init
  | call s s1 c _ _ hs ih => exact Reachable.call s s1 c ih hs

/-- C16 (no gap), as the code has it. In every state reachable from the empty filesystem
by calls of the six entry points among which no ufs_resize adds a block, every block of
every file other than its last block has `occupied = BLOCK_SIZE`. -/
theorem C16_no_gap (s : State) (hs : Reachable_without_growth s) :
    Reachable s ∧
      ∀ (a : Nat) (f : file), s.files[a]? = some (some f) →
        ∀ (i : Nat) (b : block), i + 1 < f.block_list.length → f.block_list[i]? = some b →
          b.occupied = BLOCK_SIZE :=
  ⟨Reachable_of_without_growth s hs, fun a f hf i b hi hb =>
    dense_full f.block_list i b ((Reachable_without_growth_no_gap s hs).dns a f hf) hi hb⟩

set_option maxRecDepth 1000000 in
theorem shrunk_without_growth : Reachable_without_growth shrunk_state :=
  Reachable_without_growth.call
    (state_after [.c_open "f" UFS_CREATE, .c_write 0 (List.replicate 1029 7)]) shrunk_state
    (.c_resize 0 600)
    (Reachable_without_growth.call demo_state
      (state_after [.c_open "f" UFS_CREATE, .c_write 0 (List.replicate 1029 7)])
      (.c_write 0 (List.replicate 1029 7))
      (Reachable_without_growth.call State.empty demo_state (.c_open "f" UFS_CREATE)
        Reachable_without_growth.init rfl rfl) rfl rfl) rfl rfl

set_option maxRecDepth 1000000 in
/-- Witness of C16: "f" was created, 1029 bytes were written and ufs_resize cut the file
to 600 bytes, which adds no block. The file has two blocks, and the first, which is not
the last, has occupied count BLOCK_SIZE. -/
theorem C16_no_gap_witness :
    Reachable_without_growth shrunk_state ∧
      shrunk_state.files[0]? = some (some shrunk_file) ∧
      0 + 1 < shrunk_file.block_list.length ∧
      shrunk_file.block_list[0]? =
        some { memory := List.replicate 512 7, occupied := 512 } ∧
      run_occupied [.c_open "f" UFS_CREATE, .c_write 0 (List.replicate 1029 7),
        .c_resize 0 600] 0 = some [512, 88] ∧
      (Reachable shrunk_state ∧
        ∀ (a : Nat) (f : file), shrunk_state.files[a]? = some (some f) →
          ∀ (i : Nat) (b : block), i + 1 < f.block_list.length → f.block_list[i]? = some b →
            b.occupied = BLOCK_SIZE) ∧
      ({ memory := List.replicate 512 7, occupied := 512 } : block).occupied = BLOCK_SIZE :=
  ⟨shrunk_without_growth, rfl, by decide, rfl, by decide,
    C16_no_gap shrunk_state shrunk_without_growth,
    (C16_no_gap shrunk_state shrunk_without_growth).2 0 shrunk_file rfl 0
      { memory := List.replicate 512 7, occupied := 512 } (by decide) rfl⟩

set_option maxRecDepth 1000000 in
/-- C16 (no gap) fails on the code. "f" is created and 100 bytes are written; ufs_resize
to 1024 bytes returns 0 and adds one empty block: the first block, which is not the last
one, has occupied count 100. -/
theorem C16_growth_leaves_gap :
    run_occupied [.c_open "f" UFS_CREATE, .c_write 0 (List.replicate 100 7)] 0 = some [100] ∧
      run_then_resize [.c_open "f" UFS_CREATE, .c_write 0 (List.replicate 100 7)] 0 1024 =
        some (0, .UFS_ERR_NO_ERR) ∧
      run_occupied [.c_open "f" UFS_CREATE, .c_write 0 (List.replicate 100 7),
        .c_resize 0 1024] 0 = some [100, 0] := by
  refine ⟨?_, ?_, ?_⟩ <;> decide

end Userfs
